import Mathlib

/-! # Zuma game (`LeetCode-Solutions/C++/zuma-game.cpp`)

A shallow embedding of the two solution classes of the file,
`Solution_TLE_BUT_CORRECT` (exhaustive search) and
`Solution_WRONG_GREEDY_BUT_ACCEPT` (search restricted to insertions beside a
ball of the same colour), followed by the properties proved about them.

Modelling conventions.

* A `std::string` is a `List Char`.
* An `int` is an `Int`; every value that occurs lies between `-1` and `8`, so
  no machine arithmetic wraps.
* `unordered_map<string, unordered_map<string, int>>` is an association list
  read with default `0`, which is what `operator[]` yields for an absent key.
* The `vector<pair<char, int>>` of `shrink` is a list whose head is the
  vector's `back()`.
* Recursion on the hand is structural on a `fuel` argument bounding the
  recursion depth; running out of it is the result `none`.  `findMinStep`
  supplies the length of the hand.
-/

/-- Character at an index of a string, as `operator[]` of `std::string`: the
position one past the last character reads as the NUL character. -/
def charAt (s : List Char) (i : Nat) : Char := s.getD i (Char.ofNat 0)

/-- The memo table `unordered_map<string, unordered_map<string, int>>`. -/
def Lookup : Type := List ((List Char × List Char) × Int)

/-- The table a fresh `lookup` variable holds. -/
def Lookup.empty : Lookup := []

/-- The read `(*lookup)[board][hand]`: an absent key reads as `0`. -/
def Lookup.get (lookup : Lookup) (board hand : List Char) : Int :=
  match List.lookup (board, hand) lookup with
  | some v => v
  | none => 0

/-- The write `(*lookup)[board][hand] = v`. -/
def Lookup.store (lookup : Lookup) (board hand : List Char) (v : Int) : Lookup :=
  ((board, hand), v) :: lookup

namespace Solution_TLE_BUT_CORRECT

/-- The constant `MAX_STEP`. -/
def MAX_STEP : Int := 6

/-- One iteration of the `for` loop of `shrink`, at index `i`, on the state
`(stack, start)`. -/
def shrinkBody (s : List Char) (st : List (Char × Nat) × Nat) (i : Nat) :
    List (Char × Nat) × Nat :=
  if i = s.length ∨ charAt s i ≠ charAt s st.2 then
    (match st.1 with
      | (c, n) :: rest =>
        if c = charAt s st.2 then
          (if n + (i - st.2) ≥ 3 then rest else (c, n + (i - st.2)) :: rest)
        else if s ≠ [] ∧ i - st.2 < 3 then (charAt s st.2, i - st.2) :: st.1
        else st.1
      | [] =>
        if s ≠ [] ∧ i - st.2 < 3 then (charAt s st.2, i - st.2) :: st.1 else st.1,
     i)
  else st

/-- The function `shrink`: the loop over `i = 0 .. s.size()`, then the
concatenation of the stack's entries from bottom to top. -/
def shrink (s : List Char) : List Char :=
  (((List.range (s.length + 1)).foldl (shrinkBody s) ([], 0)).1.reverse).flatMap
    (fun p => List.replicate p.2 p.1)

/-- The function `findMinStepHelper`, threading the memo table. -/
def findMinStepHelper : Nat → List Char → List Char → Lookup → Option (Int × Lookup)
  | fuel, board, hand, lookup =>
    if board = [] then some (0, lookup)
    else if hand = [] then some (MAX_STEP, lookup)
    else if lookup.get board hand ≠ 0 then some (lookup.get board hand, lookup)
    else
      match fuel with
      | 0 => none
      | fuel + 1 =>
        ((List.range hand.length).foldlM (fun (st : Int × Lookup) i =>
          (List.range (board.length + 1)).foldlM (fun (st : Int × Lookup) j =>
            (findMinStepHelper fuel
              (shrink (board.take j ++ (hand.drop i).take 1 ++ board.drop j))
              (hand.take i ++ hand.drop (i + 1)) st.2).map
              (fun r => (min st.1 (r.1 + 1), r.2))) st) (MAX_STEP, lookup)).map
          (fun st => (st.1, st.2.store board hand st.1))

/-- The function `findMinStep`.  The comparison `result > hand.size()` is made
on unsigned numbers; `result` is never negative, so it is the comparison of the
two numbers. -/
def findMinStep (board hand : List Char) : Option Int :=
  (findMinStepHelper hand.length board hand Lookup.empty).map
    (fun r => if r.1 > (hand.length : Int) then -1 else r.1)

/-- The recursion of `findMinStepHelper` with the reads and writes of the memo
table removed. -/
def findMinStepHelperPure : Nat → List Char → List Char → Option Int
  | fuel, board, hand =>
    if board = [] then some 0
    else if hand = [] then some MAX_STEP
    else
      match fuel with
      | 0 => none
      | fuel + 1 =>
        (List.range hand.length).foldlM (fun (result : Int) i =>
          (List.range (board.length + 1)).foldlM (fun (result : Int) j =>
            (findMinStepHelperPure fuel
              (shrink (board.take j ++ (hand.drop i).take 1 ++ board.drop j))
              (hand.take i ++ hand.drop (i + 1))).map
              (fun r => min result (r + 1))) result) MAX_STEP

end Solution_TLE_BUT_CORRECT

namespace Solution_WRONG_GREEDY_BUT_ACCEPT

/-- The constant `MAX_STEP`. -/
def MAX_STEP : Int := 6

/-- One iteration of the `for` loop of `shrink`, at index `i`, on the state
`(stack, start)`. -/
def shrinkBody (s : List Char) (st : List (Char × Nat) × Nat) (i : Nat) :
    List (Char × Nat) × Nat :=
  if i = s.length ∨ charAt s i ≠ charAt s st.2 then
    (match st.1 with
      | (c, n) :: rest =>
        if c = charAt s st.2 then
          (if n + (i - st.2) ≥ 3 then rest else (c, n + (i - st.2)) :: rest)
        else if s ≠ [] ∧ i - st.2 < 3 then (charAt s st.2, i - st.2) :: st.1
        else st.1
      | [] =>
        if s ≠ [] ∧ i - st.2 < 3 then (charAt s st.2, i - st.2) :: st.1 else st.1,
     i)
  else st

/-- The function `shrink` of the second class (the same text as the first). -/
def shrink (s : List Char) : List Char :=
  (((List.range (s.length + 1)).foldl (shrinkBody s) ([], 0)).1.reverse).flatMap
    (fun p => List.replicate p.2 p.1)

/-- Search of `c` in `t`, whose first character has index `k`. -/
def findAux (c : Char) : List Char → Nat → Option Nat
  | [], _ => none
  | d :: t, k => if d = c then some k else findAux c t (k + 1)

/-- The call `board.find(c, j)`: the first index `k ≥ j` holding `c`, or `none`
for `string::npos`. -/
def find (board : List Char) (c : Char) (j : Nat) : Option Nat :=
  findAux c (board.drop j) j

/-- The loop `while (j < board.size())` of `findMinStepHelper` for the hand
index `i`, on the state `(result, lookup)`; `rec` is the recursive call and the
first numeric argument bounds the number of iterations. -/
def whileLoop (rec : List Char → List Char → Lookup → Option (Int × Lookup))
    (board hand : List Char) (i : Nat) : Nat → Nat → Int × Lookup → Option (Int × Lookup)
  | n, j, st =>
    if j < board.length then
      match n with
      | 0 => none
      | n + 1 =>
        match find board (charAt hand i) j with
        | none => some st
        | some k =>
          if k < board.length - 1 ∧ charAt board k = charAt board (k + 1) then
            (rec (shrink (board.take k ++ board.drop (k + 2)))
              (hand.take i ++ hand.drop (i + 1)) st.2).bind
              (fun r => whileLoop rec board hand i n (k + 1 + 1) (min st.1 (r.1 + 1), r.2))
          else if i > 0 ∧ charAt hand i = charAt hand (i - 1) then
            (rec (shrink (board.take k ++ board.drop (k + 1)))
              (hand.take (i - 1) ++ hand.drop (i + 1)) st.2).bind
              (fun r => whileLoop rec board hand i n (k + 1) (min st.1 (r.1 + 2), r.2))
          else whileLoop rec board hand i n (k + 1) st
    else some st

/-- The function `findMinStepHelper`, threading the memo table. -/
def findMinStepHelper : Nat → List Char → List Char → Lookup → Option (Int × Lookup)
  | fuel, board, hand, lookup =>
    if board = [] then some (0, lookup)
    else if hand = [] then some (MAX_STEP, lookup)
    else if lookup.get board hand ≠ 0 then some (lookup.get board hand, lookup)
    else
      match fuel with
      | 0 => none
      | fuel + 1 =>
        ((List.range hand.length).foldlM (fun (st : Int × Lookup) i =>
          whileLoop (fun b h l => findMinStepHelper fuel b h l) board hand i
            board.length 0 st) (MAX_STEP, lookup)).map
          (fun st => (st.1, st.2.store board hand st.1))

/-- The call `sort(hand.begin(), hand.end())`. -/
def sort (hand : List Char) : List Char := hand.insertionSort (fun a b => a ≤ b)

/-- The function `findMinStep`; after the call of `sort` the variable `hand`
holds the sorted hand. -/
def findMinStep (board hand : List Char) : Option Int :=
  (findMinStepHelper (sort hand).length board (sort hand) Lookup.empty).map
    (fun r => if r.1 > ((sort hand).length : Int) then -1 else r.1)

/-- The `while` loop with the memo table removed. -/
def whileLoopPure (rec : List Char → List Char → Option Int)
    (board hand : List Char) (i : Nat) : Nat → Nat → Int → Option Int
  | n, j, result =>
    if j < board.length then
      match n with
      | 0 => none
      | n + 1 =>
        match find board (charAt hand i) j with
        | none => some result
        | some k =>
          if k < board.length - 1 ∧ charAt board k = charAt board (k + 1) then
            (rec (shrink (board.take k ++ board.drop (k + 2)))
              (hand.take i ++ hand.drop (i + 1))).bind
              (fun r => whileLoopPure rec board hand i n (k + 1 + 1) (min result (r + 1)))
          else if i > 0 ∧ charAt hand i = charAt hand (i - 1) then
            (rec (shrink (board.take k ++ board.drop (k + 1)))
              (hand.take (i - 1) ++ hand.drop (i + 1))).bind
              (fun r => whileLoopPure rec board hand i n (k + 1) (min result (r + 2)))
          else whileLoopPure rec board hand i n (k + 1) result
    else some result

/-- The recursion of `findMinStepHelper` with the reads and writes of the memo
table removed. -/
def findMinStepHelperPure : Nat → List Char → List Char → Option Int
  | fuel, board, hand =>
    if board = [] then some 0
    else if hand = [] then some MAX_STEP
    else
      match fuel with
      | 0 => none
      | fuel + 1 =>
        (List.range hand.length).foldlM (fun (result : Int) i =>
          whileLoopPure (fun b h => findMinStepHelperPure fuel b h) board hand i
            board.length 0 result) MAX_STEP

end Solution_WRONG_GREEDY_BUT_ACCEPT

/-- A string has a run of three (or more) equal adjacent symbols. -/
def HasRun3 (s : List Char) : Prop := ∃ c, List.replicate 3 c <:+: s

/-- One removal step of the collapse rule: `s` holds `n ≥ 3` copies of `c` in a
row, with no `c` right before or right after them (the run is maximal), and
`t` is `s` without that run. -/
def RemoveStep (s t : List Char) : Prop :=
  ∃ (pre : List Char) (c : Char) (n : Nat) (post : List Char),
    3 ≤ n ∧ s = pre ++ List.replicate n c ++ post ∧ t = pre ++ post ∧
    pre.getLast? ≠ some c ∧ post.head? ≠ some c

/-- The update `shrink` makes to its stack when a maximal run `c^n` ends. -/
def pushRun (stack : List (Char × Nat)) (c : Char) (n : Nat) : List (Char × Nat) :=
  match stack with
  | (d, m) :: rest =>
    if d = c then (if m + n ≥ 3 then rest else (d, m + n) :: rest)
    else if n < 3 then (c, n) :: stack else stack
  | [] => if n < 3 then (c, n) :: stack else stack

/-- The loop of `shrink` as a recursion on the unread part of the string: `c`
is the symbol of the run being read and `n` the number of its symbols read. -/
def scanRuns (c : Char) : Nat → List (Char × Nat) → List Char → List (Char × Nat)
  | n, stack, [] => pushRun stack c n
  | n, stack, d :: rest =>
    if d = c then scanRuns c (n + 1) stack rest else scanRuns d 1 (pushRun stack c n) rest

/-- The string a stack stands for. -/
def render (stack : List (Char × Nat)) : List Char :=
  stack.reverse.flatMap (fun p => List.replicate p.2 p.1)

/-- The stacks `shrink` builds: neighbouring entries differ in symbol and every
count is 1 or 2. -/
def GoodStack (stack : List (Char × Nat)) : Prop :=
  List.Chain' (fun p q => p.1 ≠ q.1) stack ∧ ∀ p ∈ stack, 1 ≤ p.2 ∧ p.2 ≤ 2

namespace Solution_TLE_BUT_CORRECT

/-- `Clears k board hand`: some sequence of exactly `k` moves empties the board,
a move taking the ball at an index `i` out of the hand, inserting it at an index
`j` with `0 ≤ j ≤ |board|` and replacing the board by `shrink` of the result. -/
def Clears : Nat → List Char → List Char → Prop
  | 0, board, _ => board = []
  | k + 1, board, hand =>
    ∃ (i : Fin hand.length) (j : Nat), j ≤ board.length ∧
      Clears k (shrink (board.take j ++ hand.get i :: board.drop j)) (hand.eraseIdx i)

/-- The value the search computes for a board and a hand (`0` would stand for a
search that does not return, which never happens). -/
def value (board hand : List Char) : Int :=
  (findMinStepHelperPure hand.length board hand).getD 0

/-- The entries of a memo table are values of the search. -/
def Sound (lookup : Lookup) : Prop :=
  ∀ board hand, lookup.get board hand ≠ 0 →
    findMinStepHelperPure hand.length board hand = some (lookup.get board hand)

end Solution_TLE_BUT_CORRECT

namespace Solution_WRONG_GREEDY_BUT_ACCEPT

/-- The entries of a memo table are values of the search. -/
def Sound (lookup : Lookup) : Prop :=
  ∀ board hand, lookup.get board hand ≠ 0 →
    findMinStepHelperPure hand.length board hand = some (lookup.get board hand)

end Solution_WRONG_GREEDY_BUT_ACCEPT

/-- The entries of a memo table, latest first. -/
def Lookup.entries (lookup : Lookup) : List ((List Char × List Char) × Int) := lookup

/-- Every entry of a memo table lies between `1` and `6` (the value of
`MAX_STEP` in both classes). -/
def Lookup.InRange (lookup : Lookup) : Prop :=
  ∀ e ∈ lookup.entries, 1 ≤ e.2 ∧ e.2 ≤ 6

/-- The index `j` is not inside a run of `c` in `board`: it is the start of the
string, past its end, or one of the symbols at `j - 1` and `j` is not `c`. -/
def NotInsideRun (board : List Char) (c : Char) (j : Nat) : Prop :=
  j = 0 ∨ board.length ≤ j ∨ charAt board (j - 1) ≠ c ∨ charAt board j ≠ c

/-- The string a list of runs `(symbol, count)` stands for, in reading order. -/
def expand (runs : List (Char × Nat)) : List Char :=
  runs.flatMap (fun p => List.replicate p.2 p.1)

/-- The runs left when the runs `left` (those before a gap, nearest first) and
`right` (those after it) become neighbours: equal symbols at the gap merge, a
merged run of three or more vanishes and the next two runs meet. -/
def zipRuns : List (Char × Nat) → List (Char × Nat) → List (Char × Nat)
  | [], right => right
  | (a, m) :: left, [] => ((a, m) :: left).reverse
  | (a, m) :: left, (b, n) :: right =>
    if a = b then
      (if m + n ≥ 3 then zipRuns left right else left.reverse ++ (a, m + n) :: right)
    else ((a, m) :: left).reverse ++ (b, n) :: right

namespace Solution_WRONG_GREEDY_BUT_ACCEPT

/-- The value the constrained search computes for a board and a hand (`0` would
stand for a search that does not return, which never happens). -/
def value (board hand : List Char) : Int :=
  (findMinStepHelperPure hand.length board hand).getD 0

end Solution_WRONG_GREEDY_BUT_ACCEPT

namespace Solution_WRONG_GREEDY_BUT_ACCEPT

/-- Some branch of the constrained search on `board` and `hand` has a value of
at most `v`: for a hand index `i` and the start `k` of a run of the symbol
`hand[i]` in the board, either the run is a pair and the recursive value plus 1
is at most `v`, or it is a single ball, `hand[i - 1]` is the same symbol, and
the recursive value plus 2 is at most `v`. -/
def Attains (board hand : List Char) (v : Int) : Prop :=
  ∃ i k, i < hand.length ∧ k < board.length ∧ charAt board k = charAt hand i ∧
    (k = 0 ∨ charAt board (k - 1) ≠ charAt hand i) ∧
    (((k < board.length - 1 ∧ charAt board k = charAt board (k + 1)) ∧
        value (shrink (board.take k ++ board.drop (k + 2)))
          (hand.take i ++ hand.drop (i + 1)) + 1 ≤ v) ∨
      (¬ (k < board.length - 1 ∧ charAt board k = charAt board (k + 1)) ∧
        (i > 0 ∧ charAt hand i = charAt hand (i - 1)) ∧
        value (shrink (board.take k ++ board.drop (k + 1)))
          (hand.take (i - 1) ++ hand.drop (i + 1)) + 2 ≤ v))

end Solution_WRONG_GREEDY_BUT_ACCEPT

/-- The hand without `t` of its balls of the symbol `d`. -/
def removeBalls (d : Char) : Nat → List Char → List Char
  | 0, hand => hand
  | t + 1, hand => removeBalls d t (hand.erase d)

namespace Solution_TLE_BUT_CORRECT

/-- `AdjClears k board hand`: some sequence of exactly `k` moves empties the
board (as in `Clears`) and every move puts its ball right after or right before
a ball of the same symbol in the board as it is at that move. -/
def AdjClears : Nat → List Char → List Char → Prop
  | 0, board, _ => board = []
  | k + 1, board, hand =>
    ∃ (i : Fin hand.length) (j : Nat), j ≤ board.length ∧
      ((0 < j ∧ charAt board (j - 1) = hand.get i) ∨
        (j < board.length ∧ charAt board j = hand.get i)) ∧
      AdjClears k (shrink (board.take j ++ hand.get i :: board.drop j)) (hand.eraseIdx i)

end Solution_TLE_BUT_CORRECT

/-! ## `shrink` as a pass over the maximal runs of its input -/

theorem shrink_greedy_eq (s : List Char) :
    Solution_WRONG_GREEDY_BUT_ACCEPT.shrink s = Solution_TLE_BUT_CORRECT.shrink s := rfl

section ShrinkRuns

open Solution_TLE_BUT_CORRECT

theorem shrinkBody_flush (s : List Char) (hs : s ≠ []) (stack : List (Char × Nat))
    (start i : Nat) (h : i = s.length ∨ charAt s i ≠ charAt s start) :
    shrinkBody s (stack, start) i = (pushRun stack (charAt s start) (i - start), i) := by
  unfold shrinkBody pushRun
  simp only [h, hs, if_true, ne_eq, not_false_eq_true, true_and]

theorem shrinkBody_keep (s : List Char) (stack : List (Char × Nat))
    (start i : Nat) (h1 : i ≠ s.length) (h2 : charAt s i = charAt s start) :
    shrinkBody s (stack, start) i = (stack, start) := by
  unfold shrinkBody
  simp [h1, h2]

theorem charAt_of_drop (s : List Char) (i : Nat) (d : Char) (rest : List Char)
    (h : s.drop i = d :: rest) : charAt s i = d ∧ s.drop (i + 1) = rest ∧ i < s.length := by
  induction s generalizing i with
  | nil => simp at h
  | cons a t ih =>
    cases i with
    | zero =>
      simp at h
      simp [charAt, h.1, h.2]
    | succ i =>
      simp at h
      have := ih i h
      simp [charAt] at this ⊢
      exact this

theorem shrink_loop (s : List Char) (hs : s ≠ []) :
    ∀ (rest : List Char) (i start : Nat) (stack : List (Char × Nat)),
      s.drop i = rest → start < i → i ≤ s.length →
      ((List.range' i (s.length + 1 - i)).foldl (shrinkBody s) (stack, start)).1 =
        scanRuns (charAt s start) (i - start) stack rest := by
  intro rest
  induction rest with
  | nil =>
    intro i start stack hd hlt hle
    have hi : i = s.length := by
      have := List.drop_eq_nil_iff.mp hd
      omega
    subst hi
    have : s.length + 1 - s.length = 1 := by omega
    rw [this]
    simp only [List.range', List.foldl]
    rw [shrinkBody_flush s hs _ _ _ (Or.inl rfl)]
    rfl
  | cons d rest ih =>
    intro i start stack hd hlt hle
    obtain ⟨hc, hd', hil⟩ := charAt_of_drop s i d rest hd
    have : s.length + 1 - i = (s.length + 1 - (i + 1)) + 1 := by omega
    rw [this, List.range'_succ, List.foldl_cons]
    by_cases hdc : d = charAt s start
    · rw [shrinkBody_keep s _ _ _ (by omega) (by rw [hc, hdc])]
      rw [ih (i + 1) start stack hd' (by omega) (by omega)]
      simp only [scanRuns, hdc, if_true]
      congr 1
      omega
    · rw [shrinkBody_flush s hs _ _ _ (Or.inr (by rw [hc]; exact hdc))]
      rw [ih (i + 1) i _ hd' (by omega) (by omega)]
      simp only [scanRuns, hdc, if_false, hc]
      congr 1
      omega

theorem shrink_nil : shrink [] = [] := by decide

theorem shrink_cons (c : Char) (t : List Char) :
    shrink (c :: t) = render (scanRuns c 1 [] t) := by
  unfold shrink render
  have hs : c :: t ≠ [] := by simp
  rw [List.range_eq_range', List.range'_succ, List.foldl_cons]
  rw [shrinkBody_keep _ _ _ _ (by simp) rfl]
  have := shrink_loop (c :: t) hs t 1 0 [] (by simp) (by omega) (by simp)
  simp only [List.length_cons, Nat.add_sub_cancel, Nat.zero_add] at this ⊢
  rw [this]
  simp [charAt]

theorem render_nil : render [] = [] := rfl

theorem render_cons (c : Char) (n : Nat) (rest : List (Char × Nat)) :
    render ((c, n) :: rest) = render rest ++ List.replicate n c := by
  simp [render]

theorem GoodStack.tail {p : Char × Nat} {rest : List (Char × Nat)}
    (h : GoodStack (p :: rest)) : GoodStack rest :=
  ⟨h.1.tail, fun q hq => h.2 q (List.mem_cons_of_mem _ hq)⟩

theorem goodStack_nil : GoodStack [] := ⟨List.chain'_nil, by simp⟩

theorem render_getLast (stack : List (Char × Nat)) (h : GoodStack stack) :
    (render stack).getLast? = stack.head?.map Prod.fst := by
  cases stack with
  | nil => rfl
  | cons p rest =>
    obtain ⟨c, n⟩ := p
    have hn := (h.2 (c, n) (List.mem_cons_self _ _)).1
    simp at hn
    rw [render_cons, List.getLast?_append, List.getLast?_replicate]
    have : n ≠ 0 := by omega
    simp [this]

theorem render_getLast_ne (c d : Char) (m : Nat) (rest : List (Char × Nat))
    (h : GoodStack ((d, m) :: rest)) (hdc : d = c) :
    (render rest).getLast? ≠ some c := by
  rw [render_getLast rest h.tail]
  cases rest with
  | nil => simp
  | cons q r =>
    have := h.1
    rw [List.chain'_cons] at this
    simp only [List.head?_cons, Option.map_some', ne_eq, Option.some.injEq]
    intro hq
    exact this.1 (by rw [hdc, hq])

theorem pushRun_spec (stack : List (Char × Nat)) (c : Char) (n : Nat) (post : List Char)
    (hg : GoodStack stack) (hn : 1 ≤ n) (hpost : post.head? ≠ some c) :
    GoodStack (pushRun stack c n) ∧
      (render (pushRun stack c n) = render stack ++ List.replicate n c ∨
        RemoveStep (render stack ++ List.replicate n c ++ post)
          (render (pushRun stack c n) ++ post)) := by
  cases stack with
  | nil =>
    unfold pushRun
    by_cases h3 : n < 3
    · simp only [h3, if_true]
      refine ⟨⟨List.chain'_singleton _, ?_⟩, Or.inl (by rw [render_cons])⟩
      intro p hp
      simp at hp
      subst hp
      exact ⟨hn, by simp; omega⟩
    · simp only [h3, if_false]
      refine ⟨goodStack_nil, Or.inr ⟨[], c, n, post, by omega, ?_, ?_, by simp, hpost⟩⟩
      · simp [render_nil]
      · simp [render_nil]
  | cons p rest =>
    obtain ⟨d, m⟩ := p
    have hm := hg.2 (d, m) (List.mem_cons_self _ _)
    simp only at hm
    unfold pushRun
    by_cases hdc : d = c
    · simp only [hdc, if_true]
      by_cases h3 : m + n ≥ 3
      · simp only [h3, if_true]
        refine ⟨hg.tail, Or.inr ⟨render rest, c, m + n, post, h3, ?_, rfl,
          render_getLast_ne c d m rest hg hdc, hpost⟩⟩
        rw [render_cons, List.replicate_add]
        simp [List.append_assoc]
      · simp only [h3, if_false]
        refine ⟨⟨?_, ?_⟩, Or.inl ?_⟩
        · have := hg.1
          cases rest with
          | nil => exact List.chain'_singleton _
          | cons q r =>
            rw [List.chain'_cons] at this ⊢
            rw [← hdc]
            exact this
        · intro q hq
          rcases List.mem_cons.mp hq with rfl | hq
          · simp; omega
          · exact hg.2 q (List.mem_cons_of_mem _ hq)
        · rw [render_cons, render_cons, List.replicate_add]
          simp [List.append_assoc]
    · simp only [hdc, if_false]
      by_cases h3 : n < 3
      · simp only [h3, if_true]
        refine ⟨⟨?_, ?_⟩, Or.inl (by rw [render_cons])⟩
        · rw [List.chain'_cons]
          exact ⟨fun h => hdc h.symm, hg.1⟩
        · intro q hq
          rcases List.mem_cons.mp hq with rfl | hq
          · simp; omega
          · exact hg.2 q hq
      · simp only [h3, if_false]
        refine ⟨hg, Or.inr ⟨render ((d, m) :: rest), c, n, post, by omega, rfl, rfl, ?_, hpost⟩⟩
        rw [render_getLast _ hg]
        simp [hdc]

theorem scanRuns_spec : ∀ (rest : List Char) (c : Char) (n : Nat) (stack : List (Char × Nat)),
    GoodStack stack → 1 ≤ n →
    GoodStack (scanRuns c n stack rest) ∧
      Relation.ReflTransGen RemoveStep (render stack ++ List.replicate n c ++ rest)
        (render (scanRuns c n stack rest)) := by
  intro rest
  induction rest with
  | nil =>
    intro c n stack hg hn
    obtain ⟨h1, h2⟩ := pushRun_spec stack c n [] hg hn (by simp)
    refine ⟨h1, ?_⟩
    simp only [scanRuns]
    rcases h2 with h2 | h2
    · rw [h2]; simp only [List.append_nil]; exact Relation.ReflTransGen.refl
    · simp only [List.append_nil] at h2 ⊢
      exact Relation.ReflTransGen.single h2
  | cons d rest ih =>
    intro c n stack hg hn
    simp only [scanRuns]
    by_cases hdc : d = c
    · simp only [hdc, if_true]
      obtain ⟨h1, h2⟩ := ih c (n + 1) stack hg (by omega)
      refine ⟨h1, ?_⟩
      have : render stack ++ List.replicate n c ++ c :: rest =
          render stack ++ List.replicate (n + 1) c ++ rest := by
        rw [List.replicate_succ']
        simp [List.append_assoc]
      rw [this]
      exact h2
    · simp only [hdc, if_false]
      obtain ⟨h1, h2⟩ := pushRun_spec stack c n (d :: rest) hg hn (by simpa using hdc)
      obtain ⟨h3, h4⟩ := ih d 1 (pushRun stack c n) h1 (by omega)
      refine ⟨h3, ?_⟩
      have e : render (pushRun stack c n) ++ List.replicate 1 d ++ rest =
          render (pushRun stack c n) ++ d :: rest := by
        simp [List.replicate]
      rw [e] at h4
      rcases h2 with h2 | h2
      · rw [← h2]; exact h4
      · exact Relation.ReflTransGen.head h2 h4

theorem removeStep_hasRun3 {s t : List Char} (h : RemoveStep s t) : HasRun3 s := by
  obtain ⟨pre, c, n, post, hn, hs, -, -, -⟩ := h
  refine ⟨c, pre, List.replicate (n - 3) c ++ post, ?_⟩
  rw [hs]
  have : n = 3 + (n - 3) := by omega
  conv_rhs => rw [this, List.replicate_add]
  simp [List.append_assoc]

theorem hasRun3_cons {c : Char} {e : List Char} (h : HasRun3 (c :: e))
    (hne : e.head? ≠ some c) : HasRun3 e := by
  obtain ⟨x, hx⟩ := h
  rcases List.infix_cons_iff.mp hx with hp | hi
  · exfalso
    cases e with
    | nil => simp [List.replicate] at hp
    | cons a e =>
      simp [List.replicate] at hp
      apply hne
      simp only [List.head?_cons, Option.some.injEq]
      rw [← hp.1, ← hp.2.1]
  · exact ⟨x, hi⟩

theorem hasRun3_cons_cons {c : Char} {e : List Char} (h : HasRun3 (c :: c :: e))
    (hne : e.head? ≠ some c) : HasRun3 e := by
  obtain ⟨x, hx⟩ := h
  rcases List.infix_cons_iff.mp hx with hp | hi
  · exfalso
    cases e with
    | nil => simp [List.replicate] at hp
    | cons a e =>
      simp [List.replicate] at hp
      apply hne
      simp only [List.head?_cons, Option.some.injEq]
      rw [← hp.1, ← hp.2]
  · exact hasRun3_cons ⟨x, hi⟩ hne

theorem hasRun3_reverse {s : List Char} (h : HasRun3 s.reverse) : HasRun3 s := by
  obtain ⟨c, hc⟩ := h
  refine ⟨c, ?_⟩
  rw [← List.reverse_infix]
  simpa using hc

theorem render_reverse (stack : List (Char × Nat)) :
    (render stack).reverse = stack.flatMap (fun p => List.replicate p.2 p.1) := by
  induction stack with
  | nil => rfl
  | cons p rest ih =>
    obtain ⟨c, n⟩ := p
    rw [render_cons, List.reverse_append, ih]
    simp

theorem flatMap_noRun3 (stack : List (Char × Nat)) (h : GoodStack stack) :
    ¬ HasRun3 (stack.flatMap (fun p => List.replicate p.2 p.1)) ∧
      (stack.flatMap (fun p => List.replicate p.2 p.1)).head? = stack.head?.map Prod.fst := by
  induction stack with
  | nil =>
    refine ⟨?_, rfl⟩
    rintro ⟨c, hc⟩
    simp [List.replicate] at hc
  | cons p rest ih =>
    obtain ⟨c, n⟩ := p
    obtain ⟨ih1, ih2⟩ := ih h.tail
    have hn := h.2 (c, n) (List.mem_cons_self _ _)
    simp only at hn
    have hhead : (rest.flatMap (fun p => List.replicate p.2 p.1)).head? ≠ some c := by
      rw [ih2]
      cases rest with
      | nil => simp
      | cons q r =>
        have := h.1
        rw [List.chain'_cons] at this
        simp only [List.head?_cons, Option.map_some', ne_eq, Option.some.injEq]
        exact fun hq => this.1 hq.symm
    have hcases : n = 1 ∨ n = 2 := by omega
    rcases hcases with rfl | rfl
    · refine ⟨fun hr => ih1 (hasRun3_cons (by simpa [List.replicate] using hr) hhead), ?_⟩
      simp [List.replicate]
    · refine ⟨fun hr => ih1 (hasRun3_cons_cons (by simpa [List.replicate] using hr) hhead), ?_⟩
      simp [List.replicate]

theorem render_noRun3 (stack : List (Char × Nat)) (h : GoodStack stack) :
    ¬ HasRun3 (render stack) := by
  intro hr
  apply (flatMap_noRun3 stack h).1
  rw [← render_reverse]
  apply hasRun3_reverse
  simpa using hr

theorem shrink_eq_render (s : List Char) :
    ∃ stack, GoodStack stack ∧ Solution_TLE_BUT_CORRECT.shrink s = render stack ∧
      Relation.ReflTransGen RemoveStep s (render stack) := by
  cases s with
  | nil => exact ⟨[], goodStack_nil, shrink_nil, Relation.ReflTransGen.refl⟩
  | cons c t =>
    obtain ⟨h1, h2⟩ := scanRuns_spec t c 1 [] goodStack_nil (by omega)
    refine ⟨_, h1, shrink_cons c t, ?_⟩
    simpa [render_nil, List.replicate] using h2

theorem reach_eq_of_noRun3 {s t : List Char} (h : Relation.ReflTransGen RemoveStep s t)
    (hs : ¬ HasRun3 s) : t = s := by
  rcases Relation.ReflTransGen.cases_head h with h | ⟨u, hu, -⟩
  · exact h.symm
  · exact absurd (removeStep_hasRun3 hu) hs

/-- C3: the output of `shrink` never holds three equal adjacent symbols. -/
theorem shrink_no_run_of_three (s : List Char) (c : Char) :
    ¬ (List.replicate 3 c <:+: Solution_TLE_BUT_CORRECT.shrink s) := by
  obtain ⟨stack, hg, he, -⟩ := shrink_eq_render s
  rw [he]
  exact fun h => render_noRun3 stack hg ⟨c, h⟩

/-- C4: `shrink s` is reached from `s` by finitely many removal steps, each
deleting a whole maximal run of at least three equal symbols of the current
string, and no further removal step applies to it. -/
theorem shrink_by_removal_steps (s : List Char) :
    Relation.ReflTransGen RemoveStep s (Solution_TLE_BUT_CORRECT.shrink s) ∧
      ∀ t, ¬ RemoveStep (Solution_TLE_BUT_CORRECT.shrink s) t := by
  obtain ⟨stack, hg, he, hr⟩ := shrink_eq_render s
  rw [he]
  exact ⟨hr, fun t ht => render_noRun3 stack hg (removeStep_hasRun3 ht)⟩

theorem shrink_of_noRun3 (s : List Char) (h : ¬ HasRun3 s) :
    Solution_TLE_BUT_CORRECT.shrink s = s := by
  obtain ⟨stack, -, he, hr⟩ := shrink_eq_render s
  rw [he]
  exact reach_eq_of_noRun3 hr h

/-- C5: `shrink` is idempotent. -/
theorem shrink_idempotent (s : List Char) :
    Solution_TLE_BUT_CORRECT.shrink (Solution_TLE_BUT_CORRECT.shrink s) =
      Solution_TLE_BUT_CORRECT.shrink s := by
  apply shrink_of_noRun3
  obtain ⟨stack, hg, he, -⟩ := shrink_eq_render s
  rw [he]
  exact render_noRun3 stack hg

/-- C6: `shrink` returns its input unchanged when the input has no run of
three or more equal adjacent symbols. -/
theorem shrink_fixes_collapsed (s : List Char)
    (h : ∀ c, ¬ (List.replicate 3 c <:+: s)) : Solution_TLE_BUT_CORRECT.shrink s = s :=
  shrink_of_noRun3 s (fun ⟨c, hc⟩ => h c hc)

theorem shrink_fixes_collapsed_witness :
    (∀ c, ¬ (List.replicate 3 c <:+: ['R', 'R', 'G', 'G', 'R'])) ∧
      Solution_TLE_BUT_CORRECT.shrink ['R', 'R', 'G', 'G', 'R'] = ['R', 'R', 'G', 'G', 'R'] :=
  ⟨by
    intro c h
    simp [List.replicate, List.infix_cons_iff] at h
    rcases h with ⟨h1, h2⟩ | ⟨h1, h2⟩ <;> rw [h1] at h2 <;> exact absurd h2 (by decide),
   shrink_fixes_collapsed _ (by
    intro c h
    simp [List.replicate, List.infix_cons_iff] at h
    rcases h with ⟨h1, h2⟩ | ⟨h1, h2⟩ <;> rw [h1] at h2 <;> exact absurd h2 (by decide))⟩

end ShrinkRuns

/-! ## Folds in the option monad -/

theorem foldlM_option_congr {α β : Type} (f g : β → α → Option β) (xs : List α)
    (h : ∀ x ∈ xs, ∀ b, f b x = g b x) (b : β) : xs.foldlM f b = xs.foldlM g b := by
  induction xs generalizing b with
  | nil => rfl
  | cons x xs ih =>
    simp only [List.foldlM_cons]
    rw [h x (List.mem_cons_self _ _) b]
    cases g b x with
    | none => rfl
    | some b' =>
      simp only [Option.bind_eq_bind, Option.some_bind]
      exact ih (fun y hy => h y (List.mem_cons_of_mem _ hy)) b'

theorem foldlM_option_some {α β : Type} (f : β → α → Option β) (F : β → α → β) (xs : List α)
    (h : ∀ x ∈ xs, ∀ b, f b x = some (F b x)) (b : β) :
    xs.foldlM f b = some (xs.foldl F b) := by
  induction xs generalizing b with
  | nil => rfl
  | cons x xs ih =>
    simp only [List.foldlM_cons, List.foldl_cons]
    rw [h x (List.mem_cons_self _ _) b]
    simp only [Option.bind_eq_bind, Option.some_bind]
    exact ih (fun y hy => h y (List.mem_cons_of_mem _ hy)) _

theorem foldlM_memo_pure {α : Type} (Inv : Lookup → Prop)
    (f : Int × Lookup → α → Option (Int × Lookup)) (g : Int → α → Option Int) (xs : List α)
    (h : ∀ x ∈ xs, ∀ r lk, Inv lk →
      ∃ v lk', f (r, lk) x = some (v, lk') ∧ g r x = some v ∧ Inv lk') :
    ∀ r lk, Inv lk →
      ∃ v lk', xs.foldlM f (r, lk) = some (v, lk') ∧ xs.foldlM g r = some v ∧ Inv lk' := by
  induction xs with
  | nil => intro r lk hlk; exact ⟨r, lk, rfl, rfl, hlk⟩
  | cons x xs ih =>
    intro r lk hlk
    obtain ⟨v, lk', h1, h2, h3⟩ := h x (List.mem_cons_self _ _) r lk hlk
    obtain ⟨w, lk'', h4, h5, h6⟩ := ih (fun y hy => h y (List.mem_cons_of_mem _ hy)) v lk' h3
    refine ⟨w, lk'', ?_, ?_, h6⟩
    · simp only [List.foldlM_cons, h1, Option.bind_eq_bind, Option.some_bind]
      exact h4
    · simp only [List.foldlM_cons, h2, Option.bind_eq_bind, Option.some_bind]
      exact h5

theorem lookup_get_empty (board hand : List Char) : Lookup.empty.get board hand = 0 := rfl

theorem lookup_get_store (lookup : Lookup) (board hand : List Char) (v : Int)
    (b h : List Char) :
    (lookup.store board hand v).get b h =
      if b = board ∧ h = hand then v else lookup.get b h := by
  unfold Lookup.get Lookup.store
  rw [List.lookup_cons]
  by_cases hk : b = board ∧ h = hand
  · obtain ⟨rfl, rfl⟩ := hk
    simp
  · have : ((b, h) == (board, hand)) = false := by
      simpa using hk
    rw [this]
    simp [hk]

theorem length_next_hand (hand : List Char) (i : Nat) (hi : i < hand.length) :
    (hand.take i ++ hand.drop (i + 1)).length + 1 = hand.length := by
  simp only [List.length_append, List.length_take, List.length_drop]
  omega

namespace Solution_TLE_BUT_CORRECT

theorem pure_fuel_indep : ∀ (f1 f2 : Nat) (board hand : List Char),
    hand.length ≤ f1 → hand.length ≤ f2 →
    findMinStepHelperPure f1 board hand = findMinStepHelperPure f2 board hand := by
  intro f1
  induction f1 with
  | zero =>
    intro f2 board hand h1 h2
    have : hand = [] := List.length_eq_zero.mp (by omega)
    subst this
    unfold findMinStepHelperPure
    simp
  | succ f1 ih =>
    intro f2 board hand h1 h2
    by_cases hb : board = []
    · unfold findMinStepHelperPure; simp [hb]
    by_cases hh : hand = []
    · unfold findMinStepHelperPure; simp [hh]
    have hpos : 0 < hand.length := List.length_pos.mpr hh
    obtain ⟨f2, rfl⟩ : ∃ g, f2 = g + 1 := ⟨f2 - 1, by omega⟩
    rw [findMinStepHelperPure, findMinStepHelperPure]
    simp only [hb, hh, if_false]
    apply foldlM_option_congr
    intro i hi r
    apply foldlM_option_congr
    intro j _ r'
    have hi' : i < hand.length := List.mem_range.mp hi
    have := length_next_hand hand i hi'
    rw [ih f2 _ _ (by omega) (by omega)]

theorem sound_empty : Sound Lookup.empty := by
  intro b h hne
  exact absurd (lookup_get_empty b h) hne

theorem sound_store (lookup : Lookup) (board hand : List Char) (v : Int)
    (hl : Sound lookup) (hv : findMinStepHelperPure hand.length board hand = some v) :
    Sound (lookup.store board hand v) := by
  intro b h hne
  rw [lookup_get_store] at hne ⊢
  by_cases hk : b = board ∧ h = hand
  · obtain ⟨rfl, rfl⟩ := hk
    simpa using hv
  · simp only [hk, if_false] at hne ⊢
    exact hl b h hne

theorem memo_eq_pure : ∀ (fuel : Nat) (board hand : List Char) (lookup : Lookup),
    hand.length ≤ fuel → Sound lookup →
    ∃ r lookup', findMinStepHelper fuel board hand lookup = some (r, lookup') ∧
      findMinStepHelperPure fuel board hand = some r ∧ Sound lookup' := by
  intro fuel
  induction fuel with
  | zero =>
    intro board hand lookup h1 hl
    have : hand = [] := List.length_eq_zero.mp (by omega)
    subst this
    unfold findMinStepHelper findMinStepHelperPure
    by_cases hb : board = []
    · exact ⟨0, lookup, by simp [hb], by simp [hb], hl⟩
    · exact ⟨MAX_STEP, lookup, by simp [hb], by simp [hb], hl⟩
  | succ fuel ih =>
    intro board hand lookup h1 hl
    by_cases hb : board = []
    · exact ⟨0, lookup, by unfold findMinStepHelper; simp [hb],
        by unfold findMinStepHelperPure; simp [hb], hl⟩
    by_cases hh : hand = []
    · exact ⟨MAX_STEP, lookup, by unfold findMinStepHelper; simp [hb, hh],
        by unfold findMinStepHelperPure; simp [hb, hh], hl⟩
    by_cases hz : lookup.get board hand ≠ 0
    · refine ⟨lookup.get board hand, lookup, by unfold findMinStepHelper; simp [hb, hh, hz],
        ?_, hl⟩
      rw [pure_fuel_indep (fuel + 1) hand.length board hand h1 (le_refl _)]
      exact hl board hand hz
    have key := foldlM_memo_pure Sound
      (fun (st : Int × Lookup) i =>
        (List.range (board.length + 1)).foldlM (fun (st : Int × Lookup) j =>
          (findMinStepHelper fuel
            (shrink (board.take j ++ (hand.drop i).take 1 ++ board.drop j))
            (hand.take i ++ hand.drop (i + 1)) st.2).map
            (fun r => (min st.1 (r.1 + 1), r.2))) st)
      (fun (result : Int) i =>
        (List.range (board.length + 1)).foldlM (fun (result : Int) j =>
          (findMinStepHelperPure fuel
            (shrink (board.take j ++ (hand.drop i).take 1 ++ board.drop j))
            (hand.take i ++ hand.drop (i + 1))).map
            (fun r => min result (r + 1))) result)
      (List.range hand.length)
      (by
        intro i hi r lk hlk
        have hi' : i < hand.length := List.mem_range.mp hi
        have hlen := length_next_hand hand i hi'
        apply foldlM_memo_pure Sound _ _ _ _ r lk hlk
        intro j _ r' lk' hlk'
        obtain ⟨v, lk'', h2, h3, h4⟩ := ih
          (shrink (board.take j ++ (hand.drop i).take 1 ++ board.drop j))
          (hand.take i ++ hand.drop (i + 1)) lk' (by omega) hlk'
        exact ⟨min r' (v + 1), lk'', by simp only [h2, Option.map_some'],
          by simp only [h3, Option.map_some'], h4⟩)
      MAX_STEP lookup hl
    obtain ⟨v, lk', h2, h3, h4⟩ := key
    have hp : findMinStepHelperPure (fuel + 1) board hand = some v := by
      rw [findMinStepHelperPure]
      simp only [hb, hh, if_false]
      exact h3
    refine ⟨v, lk'.store board hand v, ?_, hp, ?_⟩
    · rw [findMinStepHelper]
      simp only [hb, hh, hz, if_false]
      rw [h2]
      rfl
    · apply sound_store _ _ _ _ h4
      rw [← pure_fuel_indep (fuel + 1) hand.length board hand h1 (le_refl _)]
      exact hp

end Solution_TLE_BUT_CORRECT

/-! ## The value of the exhaustive search -/

theorem foldl_min_le_iff {α : Type} (g : α → Int) (xs : List α) (init k : Int) :
    xs.foldl (fun r x => min r (g x)) init ≤ k ↔ init ≤ k ∨ ∃ x ∈ xs, g x ≤ k := by
  induction xs generalizing init with
  | nil => simp
  | cons x xs ih =>
    rw [List.foldl_cons, ih]
    simp only [List.mem_cons, exists_eq_or_imp, min_le_iff]
    tauto

theorem foldl_foldl_min_le_iff {α β : Type} (g : α → β → Int) (xs : List α) (ys : List β)
    (init k : Int) :
    xs.foldl (fun r x => ys.foldl (fun r y => min r (g x y)) r) init ≤ k ↔
      init ≤ k ∨ ∃ x ∈ xs, ∃ y ∈ ys, g x y ≤ k := by
  induction xs generalizing init with
  | nil => simp
  | cons x xs ih =>
    rw [List.foldl_cons, ih, foldl_min_le_iff]
    simp only [List.exists_mem_cons_iff, or_assoc]

theorem take_one_drop (hand : List Char) (i : Fin hand.length) :
    (hand.drop i).take 1 = [hand.get i] := by
  rw [List.drop_eq_getElem_cons i.isLt]
  rfl

namespace Solution_TLE_BUT_CORRECT

theorem next_board_eq (board hand : List Char) (i : Fin hand.length) (j : Nat) :
    board.take j ++ (hand.drop i).take 1 ++ board.drop j =
      board.take j ++ hand.get i :: board.drop j := by
  rw [take_one_drop]
  simp

theorem next_hand_eq (hand : List Char) (i : Nat) :
    hand.take i ++ hand.drop (i + 1) = hand.eraseIdx i :=
  (List.eraseIdx_eq_take_drop_succ hand i).symm

theorem pure_eq_value (fuel : Nat) (board hand : List Char) (h : hand.length ≤ fuel) :
    findMinStepHelperPure fuel board hand = some (value board hand) := by
  obtain ⟨r, -, -, hr, -⟩ := memo_eq_pure hand.length board hand Lookup.empty (le_refl _)
    sound_empty
  rw [pure_fuel_indep fuel hand.length board hand h (le_refl _)]
  unfold value
  rw [hr]
  rfl

theorem memo_eq_value (fuel : Nat) (board hand : List Char) (lookup : Lookup)
    (h : hand.length ≤ fuel) (hl : Sound lookup) :
    ∃ lookup', findMinStepHelper fuel board hand lookup = some (value board hand, lookup') ∧
      Sound lookup' := by
  obtain ⟨r, lk, h1, h2, h3⟩ := memo_eq_pure fuel board hand lookup h hl
  rw [pure_eq_value fuel board hand h] at h2
  cases h2
  exact ⟨lk, h1, h3⟩

theorem value_nil_board (hand : List Char) : value [] hand = 0 := by
  unfold value findMinStepHelperPure
  simp

theorem value_nil_hand (board : List Char) (hb : board ≠ []) : value board [] = MAX_STEP := by
  unfold value findMinStepHelperPure
  simp [hb]

theorem value_eq (board hand : List Char) (hb : board ≠ []) (hh : hand ≠ []) :
    value board hand =
      (List.range hand.length).foldl (fun r i =>
        (List.range (board.length + 1)).foldl (fun r j =>
          min r (value (shrink (board.take j ++ (hand.drop i).take 1 ++ board.drop j))
            (hand.take i ++ hand.drop (i + 1)) + 1)) r) MAX_STEP := by
  have h1 := pure_eq_value hand.length board hand (le_refl _)
  obtain ⟨n, hn⟩ : ∃ n, hand.length = n + 1 :=
    ⟨hand.length - 1, by have := List.length_pos.mpr hh; omega⟩
  rw [hn, findMinStepHelperPure] at h1
  simp only [hb, hh, if_false] at h1
  rw [foldlM_option_some _ (fun r i =>
        (List.range (board.length + 1)).foldl (fun r j =>
          min r (value (shrink (board.take j ++ (hand.drop i).take 1 ++ board.drop j))
            (hand.take i ++ hand.drop (i + 1)) + 1)) r)] at h1
  · exact (Option.some.inj h1).symm
  · intro i hi r
    have hi' : i < hand.length := List.mem_range.mp hi
    have hlen := length_next_hand hand i hi'
    apply foldlM_option_some
    intro j _ r'
    rw [pure_eq_value n _ _ (by omega)]
    rfl

theorem clears_zero_iff (board hand : List Char) : Clears 0 board hand ↔ board = [] := by
  simp [Clears]

theorem clears_succ_iff (k : Nat) (board hand : List Char) :
    Clears (k + 1) board hand ↔
      ∃ (i : Fin hand.length) (j : Nat), j ≤ board.length ∧
        Clears k (shrink (board.take j ++ hand.get i :: board.drop j)) (hand.eraseIdx i) := by
  simp [Clears]

theorem clears_le_length : ∀ (k : Nat) (board hand : List Char),
    Clears k board hand → k ≤ hand.length := by
  intro k
  induction k with
  | zero => intros; omega
  | succ k ih =>
    intro board hand h
    obtain ⟨i, j, -, hc⟩ := (clears_succ_iff k board hand).mp h
    have := ih _ _ hc
    have h2 := List.length_eraseIdx_add_one i.isLt
    omega

theorem value_char : ∀ (n : Nat) (board hand : List Char), hand.length ≤ n →
    0 ≤ value board hand ∧ value board hand ≤ MAX_STEP ∧
      ∀ k : Nat, (k : Int) < MAX_STEP →
        (value board hand ≤ k ↔ ∃ k', k' ≤ k ∧ Clears k' board hand) := by
  intro n
  induction n with
  | zero =>
    intro board hand hn
    have : hand = [] := List.length_eq_zero.mp (by omega)
    subst this
    by_cases hb : board = []
    · subst hb
      rw [value_nil_board]
      refine ⟨le_refl _, by decide, fun k _ => ⟨fun _ => ⟨0, by omega, rfl⟩, fun _ => by omega⟩⟩
    · rw [value_nil_hand board hb]
      refine ⟨by decide, le_refl _, fun k hk => ⟨fun h => by omega, ?_⟩⟩
      rintro ⟨k', -, hc⟩
      cases k' with
      | zero => exact absurd hc hb
      | succ k' =>
        obtain ⟨i, -⟩ := (clears_succ_iff k' board []).mp hc
        exact i.elim0
  | succ n ih =>
    intro board hand hn
    by_cases hb : board = []
    · subst hb
      rw [value_nil_board]
      refine ⟨le_refl _, by decide, fun k _ => ⟨fun _ => ⟨0, by omega, rfl⟩, fun _ => by omega⟩⟩
    by_cases hh : hand = []
    · subst hh
      rw [value_nil_hand board hb]
      refine ⟨by decide, le_refl _, fun k hk => ⟨fun h => by omega, ?_⟩⟩
      rintro ⟨k', -, hc⟩
      cases k' with
      | zero => exact absurd hc hb
      | succ k' =>
        obtain ⟨i, -⟩ := (clears_succ_iff k' board []).mp hc
        exact i.elim0
    have hsub : ∀ i, i < hand.length → ∀ j,
        0 ≤ value (shrink (board.take j ++ (hand.drop i).take 1 ++ board.drop j))
            (hand.take i ++ hand.drop (i + 1)) ∧
        ∀ k : Nat, (k : Int) < MAX_STEP →
          (value (shrink (board.take j ++ (hand.drop i).take 1 ++ board.drop j))
            (hand.take i ++ hand.drop (i + 1)) ≤ k ↔
            ∃ k', k' ≤ k ∧ Clears k'
              (shrink (board.take j ++ (hand.drop i).take 1 ++ board.drop j))
              (hand.take i ++ hand.drop (i + 1))) := by
      intro i hi j
      have hlen := length_next_hand hand i hi
      have := ih (shrink (board.take j ++ (hand.drop i).take 1 ++ board.drop j))
        (hand.take i ++ hand.drop (i + 1)) (by omega)
      exact ⟨this.1, this.2.2⟩
    have hle : ∀ k : Int, value board hand ≤ k ↔ MAX_STEP ≤ k ∨
        ∃ i ∈ List.range hand.length, ∃ j ∈ List.range (board.length + 1),
          value (shrink (board.take j ++ (hand.drop i).take 1 ++ board.drop j))
            (hand.take i ++ hand.drop (i + 1)) + 1 ≤ k := by
      intro k
      rw [value_eq board hand hb hh]
      exact foldl_foldl_min_le_iff _ _ _ _ _
    refine ⟨?_, (hle MAX_STEP).mpr (Or.inl (le_refl _)), ?_⟩
    · by_contra hneg
      have h1 : value board hand ≤ -1 := by omega
      rcases (hle (-1)).mp h1 with h2 | ⟨i, hi, j, -, h2⟩
      · exact absurd h2 (by decide)
      · have := (hsub i (List.mem_range.mp hi) j).1
        omega
    · intro k hk
      rw [hle]
      constructor
      · rintro (h2 | ⟨i, hi, j, hj, h2⟩)
        · omega
        · have hi' := List.mem_range.mp hi
          have hj' := List.mem_range.mp hj
          obtain ⟨h3, h4⟩ := hsub i hi' j
          obtain ⟨k0, rfl⟩ : ∃ k0, k = k0 + 1 := ⟨k - 1, by omega⟩
          obtain ⟨k', hk', hc⟩ := (h4 k0 (by push_cast at hk; omega)).mp (by push_cast at h2; omega)
          refine ⟨k' + 1, by omega, (clears_succ_iff _ _ _).mpr ⟨⟨i, hi'⟩, j, by omega, ?_⟩⟩
          rw [← next_board_eq board hand ⟨i, hi'⟩ j, ← next_hand_eq]
          exact hc
      · rintro ⟨k', hk', hc⟩
        right
        cases k' with
        | zero => exact absurd hc hb
        | succ k' =>
          obtain ⟨i, j, hj, hc'⟩ := (clears_succ_iff _ _ _).mp hc
          refine ⟨i, List.mem_range.mpr i.isLt, j, List.mem_range.mpr (by omega), ?_⟩
          rw [← next_board_eq board hand i j, ← next_hand_eq] at hc'
          obtain ⟨k0, rfl⟩ : ∃ k0, k = k0 + 1 := ⟨k - 1, by omega⟩
          have := ((hsub i i.isLt j).2 k0 (by push_cast at hk; omega)).mpr ⟨k', by omega, hc'⟩
          push_cast
          omega

theorem value_nonneg (board hand : List Char) : 0 ≤ value board hand :=
  (value_char hand.length board hand (le_refl _)).1

theorem value_le_max (board hand : List Char) : value board hand ≤ MAX_STEP :=
  (value_char hand.length board hand (le_refl _)).2.1

theorem value_le_iff (board hand : List Char) (k : Nat) (hk : (k : Int) < MAX_STEP) :
    value board hand ≤ k ↔ ∃ k', k' ≤ k ∧ Clears k' board hand :=
  (value_char hand.length board hand (le_refl _)).2.2 k hk

theorem findMinStep_eq (board hand : List Char) :
    findMinStep board hand =
      some (if value board hand > (hand.length : Int) then -1 else value board hand) := by
  obtain ⟨lk, h, -⟩ := memo_eq_value hand.length board hand Lookup.empty (le_refl _) sound_empty
  unfold findMinStep
  rw [h]
  rfl

end Solution_TLE_BUT_CORRECT

namespace Solution_TLE_BUT_CORRECT

theorem findMinStep_cases (board hand : List Char) (hlen : hand.length ≤ 5) :
    (∃ k : Nat, Clears k board hand ∧ (∀ k', Clears k' board hand → k ≤ k') ∧
        findMinStep board hand = some (k : Int)) ∨
      ((∀ k, ¬ Clears k board hand) ∧ findMinStep board hand = some (-1)) := by
  have h0 := value_nonneg board hand
  by_cases hex : ∃ k, Clears k board hand
  · left
    classical
    refine ⟨Nat.find hex, Nat.find_spec hex, fun k' hk' => Nat.find_min' hex hk', ?_⟩
    have hk := clears_le_length _ _ _ (Nat.find_spec hex)
    have h1 : value board hand ≤ (Nat.find hex : Nat) :=
      (value_le_iff board hand _ (by unfold MAX_STEP; omega)).mpr
        ⟨_, le_refl _, Nat.find_spec hex⟩
    have h2 : ((Nat.find hex : Nat) : Int) ≤ value board hand := by
      obtain ⟨m, hm⟩ := Int.eq_ofNat_of_zero_le h0
      obtain ⟨k', hk', hc⟩ := (value_le_iff board hand m (by unfold MAX_STEP; omega)).mp
        (by omega)
      have := Nat.find_min' hex hc
      omega
    rw [findMinStep_eq]
    have h3 : ¬ value board hand > (hand.length : Int) := by omega
    rw [if_neg h3]
    congr 1
    omega
  · right
    have hno : ∀ k, ¬ Clears k board hand := fun k hk => hex ⟨k, hk⟩
    refine ⟨hno, ?_⟩
    have h1 : ¬ value board hand ≤ (5 : Nat) := by
      intro h
      obtain ⟨k', -, hc⟩ := (value_le_iff board hand 5 (by decide)).mp h
      exact hno k' hc
    rw [findMinStep_eq]
    have h3 : value board hand > (hand.length : Int) := by push_cast at h1; omega
    rw [if_pos h3]

theorem count_removeStep {s t : List Char} (c : Char) (h : RemoveStep s t)
    (hc : s.count c < 3) : t.count c = s.count c := by
  obtain ⟨pre, d, n, post, hn, rfl, rfl, -, -⟩ := h
  simp only [List.count_append, List.count_replicate] at hc ⊢
  by_cases hd : (d == c) = true
  · rw [if_pos hd] at hc
    omega
  · rw [if_neg hd]
    omega

theorem count_reach {s t : List Char} (c : Char) (h : Relation.ReflTransGen RemoveStep s t)
    (hc : s.count c < 3) : t.count c = s.count c := by
  induction h using Relation.ReflTransGen.head_induction_on with
  | refl => rfl
  | head hst _ ih =>
    have := count_removeStep c hst hc
    rw [ih (by omega), this]

theorem count_shrink (s : List Char) (c : Char) (hc : s.count c < 3) :
    (shrink s).count c = s.count c := by
  obtain ⟨stack, -, he, hr⟩ := shrink_eq_render s
  rw [he]
  exact count_reach c hr hc

theorem not_clears_of_count (c : Char) : ∀ (k : Nat) (board hand : List Char),
    board.count c = 1 → c ∉ hand → ¬ Clears k board hand := by
  intro k
  induction k with
  | zero =>
    intro board hand hb _ hc
    rw [clears_zero_iff] at hc
    subst hc
    simp at hb
  | succ k ih =>
    intro board hand hb hh hc
    obtain ⟨i, j, -, hc'⟩ := (clears_succ_iff k board hand).mp hc
    have hne : hand.get i ≠ c := fun h => hh (h ▸ List.get_mem hand i.1 i.2)
    have hcount : (board.take j ++ hand.get i :: board.drop j).count c = 1 := by
      rw [List.count_append, List.count_cons_of_ne (Ne.symm hne), ← List.count_append,
        List.take_append_drop]
      exact hb
    refine ih _ _ ?_ ?_ hc'
    · rw [count_shrink _ _ (by omega)]
      exact hcount
    · exact fun h => hh (List.mem_of_mem_eraseIdx h)

theorem eraseIdx_perm {h1 h2 : List Char} (hp : h1.Perm h2) (i : Fin h1.length) :
    ∃ i' : Fin h2.length, h2.get i' = h1.get i ∧ (h1.eraseIdx i).Perm (h2.eraseIdx i') := by
  have hm : h1.get i ∈ h2 := hp.subset (List.get_mem h1 i.1 i.2)
  obtain ⟨i', hi'⟩ := List.get_of_mem hm
  refine ⟨i', hi', ?_⟩
  have e1 := List.erase_getElem i.isLt
  have e2 := List.erase_getElem i'.isLt
  have hi'' : h2[(i' : Nat)] = h1[(i : Nat)] := hi'
  rw [hi''] at e2
  exact e1.symm.trans ((hp.erase _).trans e2)

theorem clears_perm : ∀ (k : Nat) (board h1 h2 : List Char), h1.Perm h2 →
    Clears k board h1 → Clears k board h2 := by
  intro k
  induction k with
  | zero => intro board h1 h2 _ hc; exact hc
  | succ k ih =>
    intro board h1 h2 hp hc
    obtain ⟨i, j, hj, hc'⟩ := (clears_succ_iff k board h1).mp hc
    obtain ⟨i', hi', hp'⟩ := eraseIdx_perm hp i
    refine (clears_succ_iff k board h2).mpr ⟨i', j, hj, ?_⟩
    rw [hi']
    exact ih _ _ _ hp' hc'

theorem value_perm (board h1 h2 : List Char) (hp : h1.Perm h2) :
    value board h1 = value board h2 := by
  have key : ∀ a b : List Char, a.Perm b → value board b ≤ value board a := by
    intro a b hab
    have h0 := value_nonneg board a
    have h6 := value_le_max board a
    have h6' := value_le_max board b
    by_cases hlt : value board a < MAX_STEP
    · obtain ⟨m, hm⟩ := Int.eq_ofNat_of_zero_le h0
      obtain ⟨k', hk', hc⟩ := (value_le_iff board a m (by omega)).mp (by omega)
      have := (value_le_iff board b m (by omega)).mpr ⟨k', hk', clears_perm _ _ _ _ hab hc⟩
      omega
    · omega
  exact le_antisymm (key h2 h1 hp.symm) (key h1 h2 hp)

theorem findMinStep_perm (board h1 h2 : List Char) (hp : h1.Perm h2) :
    findMinStep board h1 = findMinStep board h2 := by
  rw [findMinStep_eq, findMinStep_eq, value_perm board h1 h2 hp, hp.length_eq]

end Solution_TLE_BUT_CORRECT

/-! ## The constrained search and its memo table -/

theorem length_next_hand_two (hand : List Char) (i : Nat) (hi : i < hand.length) (h0 : 0 < i) :
    (hand.take (i - 1) ++ hand.drop (i + 1)).length + 2 = hand.length := by
  simp only [List.length_append, List.length_take, List.length_drop]
  omega

namespace Solution_WRONG_GREEDY_BUT_ACCEPT

theorem findAux_ge (c : Char) : ∀ (t : List Char) (k0 k : Nat),
    findAux c t k0 = some k → k0 ≤ k := by
  intro t
  induction t with
  | nil => intro k0 k h; simp [findAux] at h
  | cons d t ih =>
    intro k0 k h
    unfold findAux at h
    split at h
    · cases h; exact le_refl _
    · have := ih _ _ h
      omega

theorem find_ge (board : List Char) (c : Char) (j k : Nat) (h : find board c j = some k) :
    j ≤ k :=
  findAux_ge c _ _ _ h

theorem whileLoopPure_congr (rec1 rec2 : List Char → List Char → Option Int)
    (board hand : List Char) (i : Nat) (hi : i < hand.length)
    (H : ∀ b h, h.length < hand.length → rec1 b h = rec2 b h) :
    ∀ (n j : Nat) (r : Int),
      whileLoopPure rec1 board hand i n j r = whileLoopPure rec2 board hand i n j r := by
  intro n
  induction n with
  | zero => intro j r; rw [whileLoopPure, whileLoopPure]
  | succ n ih =>
    intro j r
    rw [whileLoopPure, whileLoopPure]
    split
    · split
      · rfl
      · split
        · rw [H _ _ (by have := length_next_hand hand i hi; omega)]
          congr 1
          funext v
          exact ih _ _
        · split
          · rename_i hc
            rw [H _ _ (by have := length_next_hand_two hand i hi hc.1; omega)]
            congr 1
            funext v
            exact ih _ _
          · exact ih _ _
    · rfl

theorem pure_fuel_indep_greedy : ∀ (f1 f2 : Nat) (board hand : List Char),
    hand.length ≤ f1 → hand.length ≤ f2 →
    findMinStepHelperPure f1 board hand = findMinStepHelperPure f2 board hand := by
  intro f1
  induction f1 with
  | zero =>
    intro f2 board hand h1 h2
    have : hand = [] := List.length_eq_zero.mp (by omega)
    subst this
    unfold findMinStepHelperPure
    simp
  | succ f1 ih =>
    intro f2 board hand h1 h2
    by_cases hb : board = []
    · unfold findMinStepHelperPure; simp [hb]
    by_cases hh : hand = []
    · unfold findMinStepHelperPure; simp [hh]
    have hpos : 0 < hand.length := List.length_pos.mpr hh
    obtain ⟨f2, rfl⟩ : ∃ g, f2 = g + 1 := ⟨f2 - 1, by omega⟩
    rw [findMinStepHelperPure, findMinStepHelperPure]
    simp only [hb, hh, if_false]
    apply foldlM_option_congr
    intro i hi r
    have hi' : i < hand.length := List.mem_range.mp hi
    apply whileLoopPure_congr _ _ _ _ _ hi'
    intro b h hlt
    exact ih f2 b h (by omega) (by omega)

theorem sound_empty_greedy : Sound Lookup.empty := by
  intro b h hne
  exact absurd (lookup_get_empty b h) hne

theorem sound_store_greedy (lookup : Lookup) (board hand : List Char) (v : Int)
    (hl : Sound lookup) (hv : findMinStepHelperPure hand.length board hand = some v) :
    Sound (lookup.store board hand v) := by
  intro b h hne
  rw [lookup_get_store] at hne ⊢
  by_cases hk : b = board ∧ h = hand
  · obtain ⟨rfl, rfl⟩ := hk
    simpa using hv
  · simp only [hk, if_false] at hne ⊢
    exact hl b h hne

theorem whileLoop_memo_pure (recM : List Char → List Char → Lookup → Option (Int × Lookup))
    (recP : List Char → List Char → Option Int)
    (board hand : List Char) (i : Nat) (hi : i < hand.length)
    (H : ∀ b h lk, h.length < hand.length → Sound lk →
      ∃ r lk', recM b h lk = some (r, lk') ∧ recP b h = some r ∧ Sound lk') :
    ∀ (n j : Nat) (r : Int) (lk : Lookup), board.length ≤ j + n → Sound lk →
      ∃ v lk', whileLoop recM board hand i n j (r, lk) = some (v, lk') ∧
        whileLoopPure recP board hand i n j r = some v ∧ Sound lk' := by
  intro n
  induction n with
  | zero =>
    intro j r lk hj hlk
    have : ¬ j < board.length := by omega
    refine ⟨r, lk, ?_, ?_, hlk⟩
    · rw [whileLoop]; simp [this]
    · rw [whileLoopPure]; simp [this]
  | succ n ih =>
    intro j r lk hj hlk
    rw [whileLoop, whileLoopPure]
    by_cases hjl : j < board.length
    · simp only [hjl, if_true]
      cases hf : find board (charAt hand i) j with
      | none => exact ⟨r, lk, rfl, rfl, hlk⟩
      | some k =>
        have hk := find_ge board _ j k hf
        simp only
        by_cases c1 : k < board.length - 1 ∧ charAt board k = charAt board (k + 1)
        · simp only [c1, and_self, if_true]
          obtain ⟨v, lk', h1, h2, h3⟩ := H (shrink (board.take k ++ board.drop (k + 2)))
            (hand.take i ++ hand.drop (i + 1)) lk
            (by have := length_next_hand hand i hi; omega) hlk
          simp only [h1, h2, Option.some_bind]
          exact ih _ _ _ (by omega) h3
        · simp only [c1, if_false]
          by_cases c2 : i > 0 ∧ charAt hand i = charAt hand (i - 1)
          · simp only [c2, and_self, if_true]
            obtain ⟨v, lk', h1, h2, h3⟩ := H (shrink (board.take k ++ board.drop (k + 1)))
              (hand.take (i - 1) ++ hand.drop (i + 1)) lk
              (by have := length_next_hand_two hand i hi c2.1; omega) hlk
            simp only [h1, h2, Option.some_bind]
            exact ih _ _ _ (by omega) h3
          · simp only [c2, if_false]
            exact ih _ _ _ (by omega) hlk
    · simp only [hjl, if_false]
      exact ⟨r, lk, rfl, rfl, hlk⟩

theorem memo_eq_pure_greedy : ∀ (fuel : Nat) (board hand : List Char) (lookup : Lookup),
    hand.length ≤ fuel → Sound lookup →
    ∃ r lookup', findMinStepHelper fuel board hand lookup = some (r, lookup') ∧
      findMinStepHelperPure fuel board hand = some r ∧ Sound lookup' := by
  intro fuel
  induction fuel with
  | zero =>
    intro board hand lookup h1 hl
    have : hand = [] := List.length_eq_zero.mp (by omega)
    subst this
    unfold findMinStepHelper findMinStepHelperPure
    by_cases hb : board = []
    · exact ⟨0, lookup, by simp [hb], by simp [hb], hl⟩
    · exact ⟨MAX_STEP, lookup, by simp [hb], by simp [hb], hl⟩
  | succ fuel ih =>
    intro board hand lookup h1 hl
    by_cases hb : board = []
    · exact ⟨0, lookup, by unfold findMinStepHelper; simp [hb],
        by unfold findMinStepHelperPure; simp [hb], hl⟩
    by_cases hh : hand = []
    · exact ⟨MAX_STEP, lookup, by unfold findMinStepHelper; simp [hb, hh],
        by unfold findMinStepHelperPure; simp [hb, hh], hl⟩
    by_cases hz : lookup.get board hand ≠ 0
    · refine ⟨lookup.get board hand, lookup, by unfold findMinStepHelper; simp [hb, hh, hz],
        ?_, hl⟩
      rw [pure_fuel_indep_greedy (fuel + 1) hand.length board hand h1 (le_refl _)]
      exact hl board hand hz
    have key := foldlM_memo_pure Sound
      (fun (st : Int × Lookup) i =>
        whileLoop (fun b h l => findMinStepHelper fuel b h l) board hand i
          board.length 0 st)
      (fun (result : Int) i =>
        whileLoopPure (fun b h => findMinStepHelperPure fuel b h) board hand i
          board.length 0 result)
      (List.range hand.length)
      (by
        intro i hi r lk hlk
        have hi' : i < hand.length := List.mem_range.mp hi
        apply whileLoop_memo_pure _ _ _ _ _ hi' _ _ _ _ _ (by omega) hlk
        intro b h lk' hlt hlk'
        exact ih b h lk' (by omega) hlk')
      MAX_STEP lookup hl
    obtain ⟨v, lk', h2, h3, h4⟩ := key
    have hp : findMinStepHelperPure (fuel + 1) board hand = some v := by
      rw [findMinStepHelperPure]
      simp only [hb, hh, if_false]
      exact h3
    refine ⟨v, lk'.store board hand v, ?_, hp, ?_⟩
    · rw [findMinStepHelper]
      simp only [hb, hh, hz, if_false]
      rw [h2]
      rfl
    · apply sound_store_greedy _ _ _ _ h4
      rw [← pure_fuel_indep_greedy (fuel + 1) hand.length board hand h1 (le_refl _)]
      exact hp

end Solution_WRONG_GREEDY_BUT_ACCEPT

/-! ## The properties of `findMinStep` -/

theorem sort_perm_eq (h1 h2 : List Char) (hp : h1.Perm h2) :
    Solution_WRONG_GREEDY_BUT_ACCEPT.sort h1 = Solution_WRONG_GREEDY_BUT_ACCEPT.sort h2 := by
  unfold Solution_WRONG_GREEDY_BUT_ACCEPT.sort
  apply List.eq_of_perm_of_sorted (r := fun a b : Char => a ≤ b)
  · exact (List.perm_insertionSort _ h1).trans (hp.trans (List.perm_insertionSort _ h2).symm)
  · exact List.sorted_insertionSort _ h1
  · exact List.sorted_insertionSort _ h2

theorem findMinStep_total_greedy (board hand : List Char) :
    ∃ r, Solution_WRONG_GREEDY_BUT_ACCEPT.findMinStep board hand = some r := by
  obtain ⟨r, lk, h, -, -⟩ := Solution_WRONG_GREEDY_BUT_ACCEPT.memo_eq_pure_greedy
    (Solution_WRONG_GREEDY_BUT_ACCEPT.sort hand).length board
    (Solution_WRONG_GREEDY_BUT_ACCEPT.sort hand) Lookup.empty (le_refl _)
    Solution_WRONG_GREEDY_BUT_ACCEPT.sound_empty_greedy
  unfold Solution_WRONG_GREEDY_BUT_ACCEPT.findMinStep
  rw [h]
  exact ⟨_, rfl⟩

/-- C1: for a hand of at most 5 balls, the exhaustive `findMinStep` returns the
least number `k` of moves that empties the board (`Clears k board hand`), and
`-1` when no number of moves does; `Clears 0` holds exactly for the empty
board. -/
theorem findMinStep_least (board hand : List Char) (hlen : hand.length ≤ 5) :
    (∀ k : Nat, Solution_TLE_BUT_CORRECT.Clears k board hand →
        (∀ k', Solution_TLE_BUT_CORRECT.Clears k' board hand → k ≤ k') →
        Solution_TLE_BUT_CORRECT.findMinStep board hand = some (k : Int)) ∧
      ((∀ k, ¬ Solution_TLE_BUT_CORRECT.Clears k board hand) →
        Solution_TLE_BUT_CORRECT.findMinStep board hand = some (-1)) ∧
      (Solution_TLE_BUT_CORRECT.Clears 0 board hand ↔ board = []) := by
  refine ⟨?_, ?_, Solution_TLE_BUT_CORRECT.clears_zero_iff board hand⟩
  · intro k hk hmin
    rcases Solution_TLE_BUT_CORRECT.findMinStep_cases board hand hlen with
      ⟨k0, hk0, hmin0, hr⟩ | ⟨hno, -⟩
    · have : k = k0 := le_antisymm (hmin k0 hk0) (hmin0 k hk)
      rw [this]
      exact hr
    · exact absurd hk (hno k)
  · intro hno
    rcases Solution_TLE_BUT_CORRECT.findMinStep_cases board hand hlen with
      ⟨k0, hk0, -, -⟩ | ⟨-, hr⟩
    · exact absurd hk0 (hno k0)
    · exact hr

theorem findMinStep_least_witness :
    Solution_TLE_BUT_CORRECT.findMinStep ['R', 'R'] ['G', 'R'] = some 1 :=
  (findMinStep_least ['R', 'R'] ['G', 'R'] (by decide)).1 1
    ((Solution_TLE_BUT_CORRECT.clears_succ_iff 0 _ _).mpr
      ⟨⟨1, by decide⟩, 1, by decide,
        (Solution_TLE_BUT_CORRECT.clears_zero_iff _ _).mpr (by decide)⟩)
    (fun k' hk' => by
      cases k' with
      | zero => exact absurd ((Solution_TLE_BUT_CORRECT.clears_zero_iff _ _).mp hk') (by decide)
      | succ k' => omega)

/-- C2 (as stated, refuted): with the board `R` and six `G` in the hand no
sequence of moves empties the board, yet the exhaustive `findMinStep` returns
`6`, not `-1`. -/
theorem findMinStep_six_not_minus_one :
    ¬ (Solution_TLE_BUT_CORRECT.findMinStep ['R'] ['G', 'G', 'G', 'G', 'G', 'G'] = some (-1) ↔
        ∀ k, ¬ Solution_TLE_BUT_CORRECT.Clears k ['R'] ['G', 'G', 'G', 'G', 'G', 'G']) ∧
      Solution_TLE_BUT_CORRECT.findMinStep ['R'] ['G', 'G', 'G', 'G', 'G', 'G'] = some 6 := by
  have hno : ∀ k, ¬ Solution_TLE_BUT_CORRECT.Clears k ['R'] ['G', 'G', 'G', 'G', 'G', 'G'] :=
    fun k => Solution_TLE_BUT_CORRECT.not_clears_of_count 'R' k _ _ (by decide) (by decide)
  have h6 : Solution_TLE_BUT_CORRECT.value ['R'] ['G', 'G', 'G', 'G', 'G', 'G'] = 6 := by
    have h1 := Solution_TLE_BUT_CORRECT.value_le_max ['R'] ['G', 'G', 'G', 'G', 'G', 'G']
    have h2 : ¬ Solution_TLE_BUT_CORRECT.value ['R'] ['G', 'G', 'G', 'G', 'G', 'G'] ≤ (5 : Nat) := by
      intro h
      obtain ⟨k', -, hc⟩ := (Solution_TLE_BUT_CORRECT.value_le_iff _ _ 5 (by decide)).mp h
      exact hno k' hc
    unfold Solution_TLE_BUT_CORRECT.MAX_STEP at h1
    push_cast at h2
    omega
  have hr : Solution_TLE_BUT_CORRECT.findMinStep ['R'] ['G', 'G', 'G', 'G', 'G', 'G'] = some 6 := by
    rw [Solution_TLE_BUT_CORRECT.findMinStep_eq, h6]
    rfl
  refine ⟨fun h => ?_, hr⟩
  have := h.mpr hno
  rw [hr] at this
  exact absurd this (by decide)

/-- C2 (amended): for a hand of at most 5 balls, the exhaustive `findMinStep`
returns `-1` exactly when no sequence of moves empties the board, and a
non-negative number in every other case. -/
theorem findMinStep_minus_one_iff (board hand : List Char) (hlen : hand.length ≤ 5) :
    (Solution_TLE_BUT_CORRECT.findMinStep board hand = some (-1) ↔
        ∀ k, ¬ Solution_TLE_BUT_CORRECT.Clears k board hand) ∧
      ((∃ k, Solution_TLE_BUT_CORRECT.Clears k board hand) →
        ∃ r : Int, Solution_TLE_BUT_CORRECT.findMinStep board hand = some r ∧ 0 ≤ r) := by
  rcases Solution_TLE_BUT_CORRECT.findMinStep_cases board hand hlen with
    ⟨k0, hk0, -, hr⟩ | ⟨hno, hr⟩
  · refine ⟨⟨fun h => ?_, fun h => absurd hk0 (h k0)⟩, fun _ => ⟨k0, hr, by omega⟩⟩
    rw [hr] at h
    have := Option.some.inj h
    omega
  · exact ⟨⟨fun _ => hno, fun _ => hr⟩, fun ⟨k, hk⟩ => absurd hk (hno k)⟩

theorem findMinStep_minus_one_iff_witness :
    Solution_TLE_BUT_CORRECT.findMinStep ['R', 'R', 'R'] [] = some (-1) :=
  (findMinStep_minus_one_iff ['R', 'R', 'R'] [] (by decide)).1.mpr (fun k hk => by
    cases k with
    | zero => exact absurd ((Solution_TLE_BUT_CORRECT.clears_zero_iff _ _).mp hk) (by decide)
    | succ k =>
      obtain ⟨i, -⟩ := (Solution_TLE_BUT_CORRECT.clears_succ_iff k _ _).mp hk
      exact i.elim0)

/-- C7: on the empty board both variants of `findMinStep` return `0`, whatever
the hand. -/
theorem findMinStep_empty_board (hand : List Char) :
    Solution_TLE_BUT_CORRECT.findMinStep [] hand = some 0 ∧
      Solution_WRONG_GREEDY_BUT_ACCEPT.findMinStep [] hand = some 0 := by
  constructor
  · unfold Solution_TLE_BUT_CORRECT.findMinStep Solution_TLE_BUT_CORRECT.findMinStepHelper
    simp
  · unfold Solution_WRONG_GREEDY_BUT_ACCEPT.findMinStep
      Solution_WRONG_GREEDY_BUT_ACCEPT.findMinStepHelper
    simp

/-- C8: on a non-empty board and the empty hand both variants of `findMinStep`
return `-1`; the board is not passed through `shrink` first, so this holds for
a board such as `RRR` too. -/
theorem findMinStep_empty_hand (board : List Char) (hb : board ≠ []) :
    Solution_TLE_BUT_CORRECT.findMinStep board [] = some (-1) ∧
      Solution_WRONG_GREEDY_BUT_ACCEPT.findMinStep board [] = some (-1) := by
  constructor
  · unfold Solution_TLE_BUT_CORRECT.findMinStep Solution_TLE_BUT_CORRECT.findMinStepHelper
    simp [hb, Solution_TLE_BUT_CORRECT.MAX_STEP]
  · unfold Solution_WRONG_GREEDY_BUT_ACCEPT.findMinStep
    have : Solution_WRONG_GREEDY_BUT_ACCEPT.sort [] = [] := rfl
    rw [this]
    unfold Solution_WRONG_GREEDY_BUT_ACCEPT.findMinStepHelper
    simp [hb, Solution_WRONG_GREEDY_BUT_ACCEPT.MAX_STEP]

theorem findMinStep_empty_hand_witness :
    Solution_TLE_BUT_CORRECT.findMinStep ['R', 'R', 'R'] [] = some (-1) ∧
      Solution_WRONG_GREEDY_BUT_ACCEPT.findMinStep ['R', 'R', 'R'] [] = some (-1) :=
  findMinStep_empty_hand ['R', 'R', 'R'] (by decide)

/-- C9: started on the empty table, the memoised `findMinStepHelper` returns a
value, and it is the value of the same recursion without the table; this holds
for the exhaustive and for the constrained helper. -/
theorem memo_same_as_plain (board hand : List Char) :
    (∃ r lookup,
        Solution_TLE_BUT_CORRECT.findMinStepHelper hand.length board hand Lookup.empty =
          some (r, lookup) ∧
        Solution_TLE_BUT_CORRECT.findMinStepHelperPure hand.length board hand = some r) ∧
      (∃ r lookup,
        Solution_WRONG_GREEDY_BUT_ACCEPT.findMinStepHelper hand.length board hand Lookup.empty =
          some (r, lookup) ∧
        Solution_WRONG_GREEDY_BUT_ACCEPT.findMinStepHelperPure hand.length board hand =
          some r) := by
  constructor
  · obtain ⟨r, lk, h1, h2, -⟩ := Solution_TLE_BUT_CORRECT.memo_eq_pure hand.length board hand
      Lookup.empty (le_refl _) Solution_TLE_BUT_CORRECT.sound_empty
    exact ⟨r, lk, h1, h2⟩
  · obtain ⟨r, lk, h1, h2, -⟩ := Solution_WRONG_GREEDY_BUT_ACCEPT.memo_eq_pure_greedy
      hand.length board hand Lookup.empty (le_refl _)
      Solution_WRONG_GREEDY_BUT_ACCEPT.sound_empty_greedy
    exact ⟨r, lk, h1, h2⟩

/-- C10: two hands that are permutations of each other give the same result of
`findMinStep` on every board, in the exhaustive and in the constrained
variant. -/
theorem findMinStep_hand_order (board hand1 hand2 : List Char) (hp : hand1.Perm hand2) :
    (∃ r, Solution_TLE_BUT_CORRECT.findMinStep board hand1 = some r ∧
        Solution_TLE_BUT_CORRECT.findMinStep board hand2 = some r) ∧
      (∃ r, Solution_WRONG_GREEDY_BUT_ACCEPT.findMinStep board hand1 = some r ∧
        Solution_WRONG_GREEDY_BUT_ACCEPT.findMinStep board hand2 = some r) := by
  constructor
  · exact ⟨_, Solution_TLE_BUT_CORRECT.findMinStep_eq board hand1,
      (Solution_TLE_BUT_CORRECT.findMinStep_perm board hand1 hand2 hp).symm.trans
        (Solution_TLE_BUT_CORRECT.findMinStep_eq board hand1)⟩
  · obtain ⟨r, hr⟩ := findMinStep_total_greedy board hand1
    refine ⟨r, hr, ?_⟩
    rw [← hr]
    unfold Solution_WRONG_GREEDY_BUT_ACCEPT.findMinStep
    rw [sort_perm_eq hand1 hand2 hp]

theorem findMinStep_hand_order_witness :
    (∃ r, Solution_TLE_BUT_CORRECT.findMinStep ['R', 'R'] ['G', 'R'] = some r ∧
        Solution_TLE_BUT_CORRECT.findMinStep ['R', 'R'] ['R', 'G'] = some r) ∧
      (∃ r, Solution_WRONG_GREEDY_BUT_ACCEPT.findMinStep ['R', 'R'] ['G', 'R'] = some r ∧
        Solution_WRONG_GREEDY_BUT_ACCEPT.findMinStep ['R', 'R'] ['R', 'G'] = some r) :=
  findMinStep_hand_order ['R', 'R'] ['G', 'R'] ['R', 'G'] (List.Perm.swap 'R' 'G' [])

/-! ## Test vectors -/

namespace Solution_TLE_BUT_CORRECT

theorem clears_one_iff (board hand : List Char) :
    Clears 1 board hand ↔
      ∃ i ∈ List.range hand.length, ∃ j ∈ List.range (board.length + 1),
        shrink (board.take j ++ (hand.drop i).take 1 ++ board.drop j) = [] := by
  rw [clears_succ_iff]
  constructor
  · rintro ⟨i, j, hj, hc⟩
    refine ⟨i, List.mem_range.mpr i.isLt, j, List.mem_range.mpr (by omega), ?_⟩
    rw [next_board_eq board hand i j]
    exact (clears_zero_iff _ _).mp hc
  · rintro ⟨i, hi, j, hj, hc⟩
    refine ⟨⟨i, List.mem_range.mp hi⟩, j, by have := List.mem_range.mp hj; omega, ?_⟩
    rw [clears_zero_iff, ← next_board_eq board hand ⟨i, List.mem_range.mp hi⟩ j]
    exact hc

theorem findMinStep_eq_two (board hand : List Char) (hlen : hand.length ≤ 5)
    (h2 : Clears 2 board hand) (h1 : ¬ Clears 1 board hand) (h0 : board ≠ []) :
    findMinStep board hand = some 2 := by
  rcases findMinStep_cases board hand hlen with ⟨k, hk, hmin, hr⟩ | ⟨hno, -⟩
  · have hle := hmin 2 h2
    have hk2 : k = 2 := by
      rcases Nat.lt_or_ge k 2 with hlt | hge
      · exfalso
        obtain rfl | rfl : k = 0 ∨ k = 1 := by omega
        · exact h0 ((clears_zero_iff _ _).mp hk)
        · exact h1 hk
      · omega
    rw [hr, hk2]
    rfl
  · exact absurd h2 (hno 2)

theorem clears_two_of (board hand : List Char) (i1 : Fin hand.length) (j1 : Nat)
    (hj1 : j1 ≤ board.length)
    (i2 : Fin (hand.eraseIdx i1).length) (j2 : Nat)
    (hj2 : j2 ≤ (shrink (board.take j1 ++ hand.get i1 :: board.drop j1)).length)
    (h : shrink ((shrink (board.take j1 ++ hand.get i1 :: board.drop j1)).take j2 ++
      (hand.eraseIdx i1).get i2 ::
        (shrink (board.take j1 ++ hand.get i1 :: board.drop j1)).drop j2) = []) :
    Clears 2 board hand :=
  (clears_succ_iff 1 _ _).mpr ⟨i1, j1, hj1,
    (clears_succ_iff 0 _ _).mpr ⟨i2, j2, hj2, (clears_zero_iff _ _).mpr h⟩⟩

end Solution_TLE_BUT_CORRECT

theorem noRun3_of_shrink_eq (s : List Char) (h : Solution_TLE_BUT_CORRECT.shrink s = s)
    (c : Char) : ¬ (List.replicate 3 c <:+: s) := by
  obtain ⟨stack, hg, he, -⟩ := shrink_eq_render s
  intro hc
  apply render_noRun3 stack hg
  rw [← he, h]
  exact ⟨c, hc⟩

/-- C11: both variants of `findMinStep` return `2` on the board `WWRRBBWW` with
the hand `WRBRW` and on the board `G` with the hand `GGGGG`. -/
theorem findMinStep_canonical_vectors :
    Solution_TLE_BUT_CORRECT.findMinStep "WWRRBBWW".toList "WRBRW".toList = some 2 ∧
      Solution_WRONG_GREEDY_BUT_ACCEPT.findMinStep "WWRRBBWW".toList "WRBRW".toList = some 2 ∧
      Solution_TLE_BUT_CORRECT.findMinStep "G".toList "GGGGG".toList = some 2 ∧
      Solution_WRONG_GREEDY_BUT_ACCEPT.findMinStep "G".toList "GGGGG".toList = some 2 := by
  refine ⟨?_, by decide!, ?_, by decide!⟩
  · apply Solution_TLE_BUT_CORRECT.findMinStep_eq_two _ _ (by decide)
    · exact Solution_TLE_BUT_CORRECT.clears_two_of _ _ ⟨1, by decide⟩ 2 (by decide)
        ⟨1, by decide⟩ 2 (by decide!) (by decide!)
    · rw [Solution_TLE_BUT_CORRECT.clears_one_iff]
      decide!
    · decide
  · apply Solution_TLE_BUT_CORRECT.findMinStep_eq_two _ _ (by decide)
    · exact Solution_TLE_BUT_CORRECT.clears_two_of _ _ ⟨0, by decide⟩ 0 (by decide)
        ⟨0, by decide⟩ 0 (by decide!) (by decide!)
    · rw [Solution_TLE_BUT_CORRECT.clears_one_iff]
      decide!
    · decide

/-- C12: both variants of `findMinStep` return `-1` on the board `WRRBBW` with
the hand `RB`. -/
theorem findMinStep_classic_impossible :
    Solution_TLE_BUT_CORRECT.findMinStep "WRRBBW".toList "RB".toList = some (-1) ∧
      Solution_WRONG_GREEDY_BUT_ACCEPT.findMinStep "WRRBBW".toList "RB".toList = some (-1) :=
  ⟨by decide!, by decide!⟩

/-- C14: the board `RRWWRRBBRR` has no run of three, the hand `WB` has two
balls, the exhaustive `findMinStep` returns `2` on them and the constrained one
returns `-1`; so the two variants differ on a collapsed board and a hand of at
most 5 balls. -/
theorem variants_differ :
    (∀ c, ¬ (List.replicate 3 c <:+: "RRWWRRBBRR".toList)) ∧
      "WB".toList.length ≤ 5 ∧
      Solution_TLE_BUT_CORRECT.findMinStep "RRWWRRBBRR".toList "WB".toList = some 2 ∧
      Solution_WRONG_GREEDY_BUT_ACCEPT.findMinStep "RRWWRRBBRR".toList "WB".toList =
        some (-1) := by
  refine ⟨noRun3_of_shrink_eq _ (by decide!), by decide, ?_, by decide!⟩
  apply Solution_TLE_BUT_CORRECT.findMinStep_eq_two _ _ (by decide)
  · exact Solution_TLE_BUT_CORRECT.clears_two_of _ _ ⟨1, by decide⟩ 1 (by decide)
      ⟨0, by decide⟩ 3 (by decide!) (by decide!)
  · rw [Solution_TLE_BUT_CORRECT.clears_one_iff]
    decide!
  · decide

/-! ## Range of the computed values and termination -/

theorem foldlM_option_isSome {α β : Type} (f : β → α → Option β) (xs : List α)
    (h : ∀ x ∈ xs, ∀ b, (f b x).isSome) (b : β) : (xs.foldlM f b).isSome := by
  induction xs generalizing b with
  | nil => rfl
  | cons x xs ih =>
    simp only [List.foldlM_cons]
    have := h x (List.mem_cons_self _ _) b
    obtain ⟨b', hb'⟩ := Option.isSome_iff_exists.mp this
    rw [hb']
    simp only [Option.bind_eq_bind, Option.some_bind]
    exact ih (fun y hy => h y (List.mem_cons_of_mem _ hy)) b'

theorem foldlM_option_inv {α β : Type} (P : β → Prop) (f : β → α → Option β) (xs : List α)
    (h : ∀ x ∈ xs, ∀ b b', P b → f b x = some b' → P b') :
    ∀ b b', P b → xs.foldlM f b = some b' → P b' := by
  induction xs with
  | nil =>
    intro b b' hb he
    cases he
    exact hb
  | cons x xs ih =>
    intro b b' hb he
    simp only [List.foldlM_cons] at he
    cases hf : f b x with
    | none => rw [hf] at he; cases he
    | some b1 =>
      rw [hf] at he
      simp only [Option.bind_eq_bind, Option.some_bind] at he
      exact ih (fun y hy => h y (List.mem_cons_of_mem _ hy)) b1 b'
        (h x (List.mem_cons_self _ _) b b1 hb hf) he

theorem inRange_empty : Lookup.empty.InRange := by
  intro e he
  cases he

theorem inRange_store (lookup : Lookup) (board hand : List Char) (v : Int)
    (h : lookup.InRange) (h1 : 1 ≤ v) (h2 : v ≤ 6) : (lookup.store board hand v).InRange := by
  intro e he
  rcases List.mem_cons.mp he with rfl | he
  · exact ⟨h1, h2⟩
  · exact h e he

theorem inRange_get (lookup : Lookup) (board hand : List Char) (h : lookup.InRange) :
    lookup.get board hand = 0 ∨ (1 ≤ lookup.get board hand ∧ lookup.get board hand ≤ 6) := by
  unfold Lookup.get
  induction lookup with
  | nil => left; rfl
  | cons e rest ih =>
    obtain ⟨key, v⟩ := e
    rw [List.lookup_cons]
    cases hk : ((board, hand) == key) with
    | true =>
      right
      exact h (key, v) (List.mem_cons_self _ _)
    | false =>
      exact ih (fun e he => h e (List.mem_cons_of_mem _ he))

namespace Solution_TLE_BUT_CORRECT

theorem helper_isSome : ∀ (fuel : Nat) (board hand : List Char) (lookup : Lookup),
    hand.length ≤ fuel → (findMinStepHelper fuel board hand lookup).isSome := by
  intro fuel
  induction fuel with
  | zero =>
    intro board hand lookup h
    have : hand = [] := List.length_eq_zero.mp (by omega)
    subst this
    unfold findMinStepHelper
    by_cases hb : board = [] <;> simp [hb]
  | succ fuel ih =>
    intro board hand lookup h
    rw [findMinStepHelper]
    by_cases hb : board = []
    · simp [hb]
    by_cases hh : hand = []
    · simp [hb, hh]
    by_cases hz : lookup.get board hand ≠ 0
    · simp [hb, hh, hz]
    simp only [hb, hh, hz, if_false, Option.isSome_map']
    apply foldlM_option_isSome
    intro i hi st
    apply foldlM_option_isSome
    intro j _ st'
    have hi' : i < hand.length := List.mem_range.mp hi
    have := length_next_hand hand i hi'
    simp only [Option.isSome_map']
    exact ih _ _ _ (by omega)

theorem helper_inRange : ∀ (fuel : Nat) (board hand : List Char) (lookup : Lookup)
    (r : Int) (lookup' : Lookup), lookup.InRange →
    findMinStepHelper fuel board hand lookup = some (r, lookup') →
    lookup'.InRange ∧ 0 ≤ r ∧ r ≤ 6 ∧ (board ≠ [] → hand ≠ [] → 1 ≤ r) := by
  intro fuel
  induction fuel with
  | zero =>
    intro board hand lookup r lookup' hl he
    rw [findMinStepHelper] at he
    by_cases hb : board = []
    · rw [if_pos hb, Option.some.injEq, Prod.mk.injEq] at he
      obtain ⟨rfl, rfl⟩ := he
      exact ⟨hl, le_refl _, by decide, fun h => absurd hb h⟩
    rw [if_neg hb] at he
    by_cases hh : hand = []
    · rw [if_pos hh, Option.some.injEq, Prod.mk.injEq] at he
      obtain ⟨rfl, rfl⟩ := he
      exact ⟨hl, by decide, by decide, fun _ h => absurd hh h⟩
    rw [if_neg hh] at he
    by_cases hz : lookup.get board hand ≠ 0
    · rw [if_pos hz, Option.some.injEq, Prod.mk.injEq] at he
      obtain ⟨rfl, rfl⟩ := he
      rcases inRange_get lookup board hand hl with h0 | ⟨h1, h2⟩
      · exact absurd h0 hz
      · exact ⟨hl, by omega, h2, fun _ _ => h1⟩
    rw [if_neg hz] at he
    cases he
  | succ fuel ih =>
    intro board hand lookup r lookup' hl he
    rw [findMinStepHelper] at he
    by_cases hb : board = []
    · rw [if_pos hb, Option.some.injEq, Prod.mk.injEq] at he
      obtain ⟨rfl, rfl⟩ := he
      exact ⟨hl, le_refl _, by decide, fun h => absurd hb h⟩
    rw [if_neg hb] at he
    by_cases hh : hand = []
    · rw [if_pos hh, Option.some.injEq, Prod.mk.injEq] at he
      obtain ⟨rfl, rfl⟩ := he
      exact ⟨hl, by decide, by decide, fun _ h => absurd hh h⟩
    rw [if_neg hh] at he
    by_cases hz : lookup.get board hand ≠ 0
    · rw [if_pos hz, Option.some.injEq, Prod.mk.injEq] at he
      obtain ⟨rfl, rfl⟩ := he
      rcases inRange_get lookup board hand hl with h0 | ⟨h1, h2⟩
      · exact absurd h0 hz
      · exact ⟨hl, by omega, h2, fun _ _ => h1⟩
    rw [if_neg hz] at he
    simp only [Option.map_eq_some'] at he
    obtain ⟨st, hst, hres⟩ := he
    have hP : (1 ≤ st.1 ∧ st.1 ≤ 6) ∧ st.2.InRange := by
      refine foldlM_option_inv (fun st : Int × Lookup => (1 ≤ st.1 ∧ st.1 ≤ 6) ∧ st.2.InRange)
        _ _ ?_ _ _ ⟨⟨by simp [MAX_STEP], by simp [MAX_STEP]⟩, hl⟩ hst
      intro i _ s s' hs
      refine foldlM_option_inv
        (fun st : Int × Lookup => (1 ≤ st.1 ∧ st.1 ≤ 6) ∧ st.2.InRange) _ _ ?_ _ _ hs
      intro j _ t t' ht hstep
      simp only [Option.map_eq_some'] at hstep
      obtain ⟨res, hres1, hres2⟩ := hstep
      obtain ⟨r1, lk1⟩ := res
      obtain ⟨h1, h2, h3, -⟩ := ih _ _ _ _ _ ht.2 hres1
      rw [← hres2]
      refine ⟨⟨?_, ?_⟩, h1⟩
      · exact le_min ht.1.1 (by omega)
      · exact le_trans (min_le_left _ _) ht.1.2
    rw [Prod.mk.injEq] at hres
    obtain ⟨rfl, rfl⟩ := hres
    exact ⟨inRange_store _ _ _ _ hP.2 hP.1.1 hP.1.2, by omega, hP.1.2, fun _ _ => hP.1.1⟩

end Solution_TLE_BUT_CORRECT

namespace Solution_WRONG_GREEDY_BUT_ACCEPT

theorem whileLoop_isSome (recM : List Char → List Char → Lookup → Option (Int × Lookup))
    (board hand : List Char) (i : Nat) (hi : i < hand.length)
    (H : ∀ b h lk, h.length < hand.length → (recM b h lk).isSome) :
    ∀ (n j : Nat) (st : Int × Lookup), board.length ≤ j + n →
      (whileLoop recM board hand i n j st).isSome := by
  intro n
  induction n with
  | zero =>
    intro j st hj
    have : ¬ j < board.length := by omega
    rw [whileLoop, if_neg this]
    rfl
  | succ n ih =>
    intro j st hj
    rw [whileLoop]
    by_cases hjl : j < board.length
    · rw [if_pos hjl]
      cases hf : find board (charAt hand i) j with
      | none => rfl
      | some k =>
        have hk := find_ge board _ j k hf
        simp only
        by_cases c1 : k < board.length - 1 ∧ charAt board k = charAt board (k + 1)
        · rw [if_pos c1]
          obtain ⟨res, hres⟩ := Option.isSome_iff_exists.mp
            (H (shrink (board.take k ++ board.drop (k + 2)))
              (hand.take i ++ hand.drop (i + 1)) st.2
              (by have := length_next_hand hand i hi; omega))
          rw [hres, Option.some_bind]
          exact ih _ _ (by omega)
        · rw [if_neg c1]
          by_cases c2 : i > 0 ∧ charAt hand i = charAt hand (i - 1)
          · rw [if_pos c2]
            obtain ⟨res, hres⟩ := Option.isSome_iff_exists.mp
              (H (shrink (board.take k ++ board.drop (k + 1)))
                (hand.take (i - 1) ++ hand.drop (i + 1)) st.2
                (by have := length_next_hand_two hand i hi c2.1; omega))
            rw [hres, Option.some_bind]
            exact ih _ _ (by omega)
          · rw [if_neg c2]
            exact ih _ _ (by omega)
    · rw [if_neg hjl]
      rfl

theorem whileLoop_inv (P : Int × Lookup → Prop)
    (recM : List Char → List Char → Lookup → Option (Int × Lookup))
    (board hand : List Char) (i : Nat)
    (H : ∀ b h (st : Int × Lookup) r lk, P st → recM b h st.2 = some (r, lk) →
      P (min st.1 (r + 1), lk) ∧ P (min st.1 (r + 2), lk)) :
    ∀ (n j : Nat) (st res : Int × Lookup), P st →
      whileLoop recM board hand i n j st = some res → P res := by
  intro n
  induction n with
  | zero =>
    intro j st res hP he
    rw [whileLoop] at he
    by_cases hjl : j < board.length
    · rw [if_pos hjl] at he; cases he
    · rw [if_neg hjl] at he; cases he; exact hP
  | succ n ih =>
    intro j st res hP he
    rw [whileLoop] at he
    by_cases hjl : j < board.length
    · rw [if_pos hjl] at he
      cases hf : find board (charAt hand i) j with
      | none => rw [hf] at he; cases he; exact hP
      | some k =>
        rw [hf] at he
        simp only at he
        by_cases c1 : k < board.length - 1 ∧ charAt board k = charAt board (k + 1)
        · rw [if_pos c1] at he
          cases hr : recM (shrink (board.take k ++ board.drop (k + 2)))
              (hand.take i ++ hand.drop (i + 1)) st.2 with
          | none => rw [hr] at he; cases he
          | some v =>
            rw [hr, Option.some_bind] at he
            exact ih _ _ _ (H _ _ st v.1 v.2 hP hr).1 he
        · rw [if_neg c1] at he
          by_cases c2 : i > 0 ∧ charAt hand i = charAt hand (i - 1)
          · rw [if_pos c2] at he
            cases hr : recM (shrink (board.take k ++ board.drop (k + 1)))
                (hand.take (i - 1) ++ hand.drop (i + 1)) st.2 with
            | none => rw [hr] at he; cases he
            | some v =>
              rw [hr, Option.some_bind] at he
              exact ih _ _ _ (H _ _ st v.1 v.2 hP hr).2 he
          · rw [if_neg c2] at he
            exact ih _ _ _ hP he
    · rw [if_neg hjl] at he; cases he; exact hP

theorem helper_isSome_greedy : ∀ (fuel : Nat) (board hand : List Char) (lookup : Lookup),
    hand.length ≤ fuel → (findMinStepHelper fuel board hand lookup).isSome := by
  intro fuel
  induction fuel with
  | zero =>
    intro board hand lookup h
    have : hand = [] := List.length_eq_zero.mp (by omega)
    subst this
    unfold findMinStepHelper
    by_cases hb : board = [] <;> simp [hb]
  | succ fuel ih =>
    intro board hand lookup h
    rw [findMinStepHelper]
    by_cases hb : board = []
    · simp [hb]
    by_cases hh : hand = []
    · simp [hb, hh]
    by_cases hz : lookup.get board hand ≠ 0
    · simp [hb, hh, hz]
    simp only [hb, hh, hz, if_false, Option.isSome_map']
    apply foldlM_option_isSome
    intro i hi st
    have hi' : i < hand.length := List.mem_range.mp hi
    apply whileLoop_isSome _ _ _ _ hi' _ _ _ _ (by omega)
    intro b h' lk hlt
    exact ih _ _ _ (by omega)

theorem helper_inRange_greedy : ∀ (fuel : Nat) (board hand : List Char) (lookup : Lookup)
    (r : Int) (lookup' : Lookup), lookup.InRange →
    findMinStepHelper fuel board hand lookup = some (r, lookup') →
    lookup'.InRange ∧ 0 ≤ r ∧ r ≤ 6 ∧ (board ≠ [] → hand ≠ [] → 1 ≤ r) := by
  intro fuel
  induction fuel with
  | zero =>
    intro board hand lookup r lookup' hl he
    rw [findMinStepHelper] at he
    by_cases hb : board = []
    · rw [if_pos hb, Option.some.injEq, Prod.mk.injEq] at he
      obtain ⟨rfl, rfl⟩ := he
      exact ⟨hl, le_refl _, by decide, fun h => absurd hb h⟩
    rw [if_neg hb] at he
    by_cases hh : hand = []
    · rw [if_pos hh, Option.some.injEq, Prod.mk.injEq] at he
      obtain ⟨rfl, rfl⟩ := he
      exact ⟨hl, by decide, by decide, fun _ h => absurd hh h⟩
    rw [if_neg hh] at he
    by_cases hz : lookup.get board hand ≠ 0
    · rw [if_pos hz, Option.some.injEq, Prod.mk.injEq] at he
      obtain ⟨rfl, rfl⟩ := he
      rcases inRange_get lookup board hand hl with h0 | ⟨h1, h2⟩
      · exact absurd h0 hz
      · exact ⟨hl, by omega, h2, fun _ _ => h1⟩
    rw [if_neg hz] at he
    cases he
  | succ fuel ih =>
    intro board hand lookup r lookup' hl he
    rw [findMinStepHelper] at he
    by_cases hb : board = []
    · rw [if_pos hb, Option.some.injEq, Prod.mk.injEq] at he
      obtain ⟨rfl, rfl⟩ := he
      exact ⟨hl, le_refl _, by decide, fun h => absurd hb h⟩
    rw [if_neg hb] at he
    by_cases hh : hand = []
    · rw [if_pos hh, Option.some.injEq, Prod.mk.injEq] at he
      obtain ⟨rfl, rfl⟩ := he
      exact ⟨hl, by decide, by decide, fun _ h => absurd hh h⟩
    rw [if_neg hh] at he
    by_cases hz : lookup.get board hand ≠ 0
    · rw [if_pos hz, Option.some.injEq, Prod.mk.injEq] at he
      obtain ⟨rfl, rfl⟩ := he
      rcases inRange_get lookup board hand hl with h0 | ⟨h1, h2⟩
      · exact absurd h0 hz
      · exact ⟨hl, by omega, h2, fun _ _ => h1⟩
    rw [if_neg hz] at he
    simp only [Option.map_eq_some'] at he
    obtain ⟨st, hst, hres⟩ := he
    have hP : (1 ≤ st.1 ∧ st.1 ≤ 6) ∧ st.2.InRange := by
      refine foldlM_option_inv (fun st : Int × Lookup => (1 ≤ st.1 ∧ st.1 ≤ 6) ∧ st.2.InRange)
        _ _ ?_ _ _ ⟨⟨by simp [MAX_STEP], by simp [MAX_STEP]⟩, hl⟩ hst
      intro i _ s s' hs hloop
      refine whileLoop_inv (fun st : Int × Lookup => (1 ≤ st.1 ∧ st.1 ≤ 6) ∧ st.2.InRange)
        _ board hand i ?_ _ _ _ _ hs hloop
      intro b h' t r1 lk1 ht hrec
      obtain ⟨h1, h2, h3, -⟩ := ih _ _ _ _ _ ht.2 hrec
      exact ⟨⟨⟨le_min ht.1.1 (by omega), le_trans (min_le_left _ _) ht.1.2⟩, h1⟩,
        ⟨⟨le_min ht.1.1 (by omega), le_trans (min_le_left _ _) ht.1.2⟩, h1⟩⟩
    rw [Prod.mk.injEq] at hres
    obtain ⟨rfl, rfl⟩ := hres
    exact ⟨inRange_store _ _ _ _ hP.2 hP.1.1 hP.1.2, by omega, hP.1.2, fun _ _ => hP.1.1⟩

end Solution_WRONG_GREEDY_BUT_ACCEPT

/-- C15 (as stated, refuted): no run of either `findMinStepHelper` from the empty
table returns `0` for a non-empty board and a non-empty hand, and none leaves
an entry `0` in the table. -/
theorem memo_never_holds_zero :
    ¬ ∃ (fuel : Nat) (board hand : List Char) (r : Int) (lookup : Lookup),
      (Solution_TLE_BUT_CORRECT.findMinStepHelper fuel board hand Lookup.empty =
          some (r, lookup) ∨
        Solution_WRONG_GREEDY_BUT_ACCEPT.findMinStepHelper fuel board hand Lookup.empty =
          some (r, lookup)) ∧
      ((board ≠ [] ∧ hand ≠ [] ∧ r = 0) ∨ ∃ e ∈ lookup.entries, e.2 = 0) := by
  rintro ⟨fuel, board, hand, r, lookup, he, hz⟩
  have key : lookup.InRange ∧ 0 ≤ r ∧ r ≤ 6 ∧ (board ≠ [] → hand ≠ [] → 1 ≤ r) := by
    rcases he with he | he
    · exact Solution_TLE_BUT_CORRECT.helper_inRange _ _ _ _ _ _ inRange_empty he
    · exact Solution_WRONG_GREEDY_BUT_ACCEPT.helper_inRange_greedy _ _ _ _ _ _ inRange_empty he
  rcases hz with ⟨hb, hh, h0⟩ | ⟨e, he1, he2⟩
  · have := key.2.2.2 hb hh
    omega
  · have := (key.1 e he1).1
    omega

/-- C15 (amended): started on a table whose entries all lie between `1` and
`MAX_STEP = 6` (the empty table is one), either `findMinStepHelper` leaves a
table whose entries all lie between `1` and `6`, and for a non-empty board and
a non-empty hand it returns a value between `1` and `6`; a stored entry is
never `0`. -/
theorem memo_entries_positive (fuel : Nat) (board hand : List Char) (lookup : Lookup)
    (r : Int) (lookup' : Lookup) (hl : lookup.InRange)
    (he : Solution_TLE_BUT_CORRECT.findMinStepHelper fuel board hand lookup =
          some (r, lookup') ∨
        Solution_WRONG_GREEDY_BUT_ACCEPT.findMinStepHelper fuel board hand lookup =
          some (r, lookup')) :
    (∀ e ∈ lookup'.entries, 1 ≤ e.2 ∧ e.2 ≤ 6) ∧
      (board ≠ [] → hand ≠ [] → 1 ≤ r ∧ r ≤ 6) := by
  have key : lookup'.InRange ∧ 0 ≤ r ∧ r ≤ 6 ∧ (board ≠ [] → hand ≠ [] → 1 ≤ r) := by
    rcases he with he | he
    · exact Solution_TLE_BUT_CORRECT.helper_inRange _ _ _ _ _ _ hl he
    · exact Solution_WRONG_GREEDY_BUT_ACCEPT.helper_inRange_greedy _ _ _ _ _ _ hl he
  exact ⟨key.1, fun hb hh => ⟨key.2.2.2 hb hh, key.2.2.1⟩⟩

theorem memo_entries_positive_witness :
    (∀ e ∈ (Lookup.store Lookup.empty ['R', 'R'] ['R'] 1).entries, 1 ≤ e.2 ∧ e.2 ≤ 6) ∧
      (['R', 'R'] ≠ [] → ['R'] ≠ [] → (1 : Int) ≤ 1 ∧ (1 : Int) ≤ 6) :=
  memo_entries_positive 1 ['R', 'R'] ['R'] Lookup.empty 1
    (Lookup.store Lookup.empty ['R', 'R'] ['R'] 1) inRange_empty (Or.inl rfl)

/-- C16: with fuel at least the length of the hand both helpers return, on every
board and from every table, so the recursion depth never exceeds the length of
the hand; a recursive call gets a hand one ball shorter (`take i ++ drop (i+1)`)
or, in the constrained variant, two balls shorter (`take (i-1) ++ drop (i+1)`);
and `find` returns an index `k ≥ j`, so the next `j` (`k + 1` or `k + 2`) of
the `while` loop is larger than `j`. -/
theorem searches_terminate (fuel : Nat) (board hand : List Char) (lookup : Lookup)
    (hfuel : hand.length ≤ fuel) :
    (Solution_TLE_BUT_CORRECT.findMinStepHelper fuel board hand lookup).isSome ∧
      (Solution_WRONG_GREEDY_BUT_ACCEPT.findMinStepHelper fuel board hand lookup).isSome ∧
      (∀ i, i < hand.length → (hand.take i ++ hand.drop (i + 1)).length + 1 = hand.length) ∧
      (∀ i, 0 < i → i < hand.length →
        (hand.take (i - 1) ++ hand.drop (i + 1)).length + 2 = hand.length) ∧
      (∀ c j k, Solution_WRONG_GREEDY_BUT_ACCEPT.find board c j = some k → j < k + 1) :=
  ⟨Solution_TLE_BUT_CORRECT.helper_isSome fuel board hand lookup hfuel,
    Solution_WRONG_GREEDY_BUT_ACCEPT.helper_isSome_greedy fuel board hand lookup hfuel,
    fun i hi => length_next_hand hand i hi,
    fun i h0 hi => length_next_hand_two hand i hi h0,
    fun c j k h => Nat.lt_succ_of_le (Solution_WRONG_GREEDY_BUT_ACCEPT.find_ge board c j k h)⟩

theorem searches_terminate_witness :
    (Solution_TLE_BUT_CORRECT.findMinStepHelper 2 ['R', 'G', 'G'] ['G', 'R']
        Lookup.empty).isSome ∧
      (Solution_WRONG_GREEDY_BUT_ACCEPT.findMinStepHelper 2 ['R', 'G', 'G'] ['G', 'R']
        Lookup.empty).isSome ∧
      (∀ i, i < ['G', 'R'].length →
        (['G', 'R'].take i ++ ['G', 'R'].drop (i + 1)).length + 1 = ['G', 'R'].length) ∧
      (∀ i, 0 < i → i < ['G', 'R'].length →
        (['G', 'R'].take (i - 1) ++ ['G', 'R'].drop (i + 1)).length + 2 = ['G', 'R'].length) ∧
      (∀ c j k, Solution_WRONG_GREEDY_BUT_ACCEPT.find ['R', 'G', 'G'] c j = some k →
        j < k + 1) :=
  searches_terminate 2 ['R', 'G', 'G'] ['G', 'R'] Lookup.empty (by decide)

/-- C18: both variants of `findMinStep` return `-1` or a value `r` with
`0 ≤ r ≤ min(|hand|, 6)`, and the raw result of either helper, started on the
empty table, lies between `0` and `MAX_STEP = 6`. -/
theorem findMinStep_range (board hand : List Char) :
    (∃ r, Solution_TLE_BUT_CORRECT.findMinStep board hand = some r ∧
        (r = -1 ∨ (0 ≤ r ∧ r ≤ min (hand.length : Int) 6))) ∧
      (∃ r, Solution_WRONG_GREEDY_BUT_ACCEPT.findMinStep board hand = some r ∧
        (r = -1 ∨ (0 ≤ r ∧ r ≤ min (hand.length : Int) 6))) ∧
      (∃ r lookup, Solution_TLE_BUT_CORRECT.findMinStepHelper hand.length board hand
          Lookup.empty = some (r, lookup) ∧
        0 ≤ r ∧ r ≤ Solution_TLE_BUT_CORRECT.MAX_STEP) ∧
      (∃ r lookup, Solution_WRONG_GREEDY_BUT_ACCEPT.findMinStepHelper hand.length board hand
          Lookup.empty = some (r, lookup) ∧
        0 ≤ r ∧ r ≤ Solution_WRONG_GREEDY_BUT_ACCEPT.MAX_STEP) := by
  have hA : ∀ h : List Char, ∃ r lookup,
      Solution_TLE_BUT_CORRECT.findMinStepHelper h.length board h Lookup.empty =
        some (r, lookup) ∧ 0 ≤ r ∧ r ≤ 6 := by
    intro h
    obtain ⟨res, hres⟩ := Option.isSome_iff_exists.mp
      (Solution_TLE_BUT_CORRECT.helper_isSome h.length board h Lookup.empty (le_refl _))
    obtain ⟨r, lk⟩ := res
    obtain ⟨-, h1, h2, -⟩ :=
      Solution_TLE_BUT_CORRECT.helper_inRange _ _ _ _ _ _ inRange_empty hres
    exact ⟨r, lk, hres, h1, h2⟩
  have hB : ∀ h : List Char, ∃ r lookup,
      Solution_WRONG_GREEDY_BUT_ACCEPT.findMinStepHelper h.length board h Lookup.empty =
        some (r, lookup) ∧ 0 ≤ r ∧ r ≤ 6 := by
    intro h
    obtain ⟨res, hres⟩ := Option.isSome_iff_exists.mp
      (Solution_WRONG_GREEDY_BUT_ACCEPT.helper_isSome_greedy h.length board h Lookup.empty
        (le_refl _))
    obtain ⟨r, lk⟩ := res
    obtain ⟨-, h1, h2, -⟩ :=
      Solution_WRONG_GREEDY_BUT_ACCEPT.helper_inRange_greedy _ _ _ _ _ _ inRange_empty hres
    exact ⟨r, lk, hres, h1, h2⟩
  refine ⟨?_, ?_, hA hand, hB hand⟩
  · obtain ⟨r, lk, hres, h1, h2⟩ := hA hand
    unfold Solution_TLE_BUT_CORRECT.findMinStep
    rw [hres]
    simp only [Option.map_some']
    by_cases hgt : r > (hand.length : Int)
    · exact ⟨_, by rw [if_pos hgt], Or.inl rfl⟩
    · exact ⟨_, by rw [if_neg hgt], Or.inr ⟨h1, le_min (by omega) h2⟩⟩
  · obtain ⟨r, lk, hres, h1, h2⟩ := hB (Solution_WRONG_GREEDY_BUT_ACCEPT.sort hand)
    have hlen : (Solution_WRONG_GREEDY_BUT_ACCEPT.sort hand).length = hand.length :=
      List.length_insertionSort _ _
    unfold Solution_WRONG_GREEDY_BUT_ACCEPT.findMinStep
    rw [hres]
    simp only [Option.map_some']
    rw [hlen]
    by_cases hgt : r > (hand.length : Int)
    · exact ⟨_, by rw [if_pos hgt], Or.inl rfl⟩
    · exact ⟨_, by rw [if_neg hgt], Or.inr ⟨h1, le_min (by omega) h2⟩⟩

/-! ## Removing a pair from a collapsed board -/

theorem hasRun3_cons_iff (a : Char) (l : List Char) :
    HasRun3 (a :: l) ↔ (∃ l', l = a :: a :: l') ∨ HasRun3 l := by
  constructor
  · rintro ⟨x, hx⟩
    rcases List.infix_cons_iff.mp hx with hp | hi
    · left
      obtain ⟨t, ht⟩ := hp
      simp only [List.replicate, List.cons_append, List.nil_append, List.cons.injEq] at ht
      obtain ⟨rfl, ht⟩ := ht
      exact ⟨t, ht.symm⟩
    · exact Or.inr ⟨x, hi⟩
  · rintro (⟨l', rfl⟩ | ⟨x, hx⟩)
    · exact ⟨a, [], l', by simp [List.replicate]⟩
    · exact ⟨x, List.infix_cons_iff.mpr (Or.inr hx)⟩

theorem not_hasRun3_of_append {xs ys : List Char} (h : ¬ HasRun3 (xs ++ ys)) :
    ¬ HasRun3 ys := by
  rintro ⟨x, hx⟩
  exact h ⟨x, hx.trans (List.suffix_append xs ys).isInfix⟩

theorem not_hasRun3_of_append_left {xs ys : List Char} (h : ¬ HasRun3 (xs ++ ys)) :
    ¬ HasRun3 xs := by
  rintro ⟨x, hx⟩
  exact h ⟨x, hx.trans (List.prefix_append xs ys).isInfix⟩

theorem lt_three_of_not_hasRun3 (a : Char) (m : Nat) (l : List Char)
    (h : ¬ HasRun3 (List.replicate m a ++ l)) : m < 3 := by
  by_contra hm
  apply h
  refine ⟨a, [], List.replicate (m - 3) a ++ l, ?_⟩
  have : m = 3 + (m - 3) := by omega
  conv_rhs => rw [this, List.replicate_add]
  simp

theorem pushRun_fresh (stack : List (Char × Nat)) (a : Char) (m : Nat)
    (htop : stack.head?.map Prod.fst ≠ some a) (hm : m < 3) :
    pushRun stack a m = (a, m) :: stack := by
  unfold pushRun
  cases stack with
  | nil => simp [hm]
  | cons p rest =>
    obtain ⟨d, k⟩ := p
    have hd : d ≠ a := by simpa using htop
    simp [hd, hm]

theorem pushRun_merge (stack : List (Char × Nat)) (a : Char) (m n : Nat)
    (htop : stack.head?.map Prod.fst ≠ some a) :
    pushRun ((a, m) :: stack) a n = pushRun stack a (m + n) := by
  unfold pushRun
  cases stack with
  | nil =>
    by_cases h : m + n ≥ 3
    · have : ¬ m + n < 3 := by omega
      simp [h, this]
    · have : m + n < 3 := by omega
      simp [h, this]
  | cons p rest =>
    obtain ⟨d, k⟩ := p
    have hd : d ≠ a := by simpa using htop
    by_cases h : m + n ≥ 3
    · have : ¬ m + n < 3 := by omega
      simp [h, this, hd]
    · have : m + n < 3 := by omega
      simp [h, this, hd]

theorem scanRuns_merge (a : Char) (m : Nat) (stack : List (Char × Nat))
    (htop : stack.head?.map Prod.fst ≠ some a) :
    ∀ (rest : List Char) (n : Nat),
      scanRuns a n ((a, m) :: stack) rest = scanRuns a (m + n) stack rest := by
  intro rest
  induction rest with
  | nil =>
    intro n
    simp only [scanRuns]
    exact pushRun_merge stack a m n htop
  | cons d r ih =>
    intro n
    simp only [scanRuns]
    by_cases hd : d = a
    · simp only [hd, if_true]
      rw [ih (n + 1)]
      rfl
    · simp only [hd, if_false]
      rw [pushRun_merge stack a m n htop]

theorem scanRuns_skip_triple (c : Char) (post : List Char) :
    ∀ (pre : List Char) (a : Char) (m : Nat) (stack : List (Char × Nat)),
      1 ≤ m → stack.head?.map Prod.fst ≠ some a →
      ¬ HasRun3 (List.replicate m a ++ (pre ++ c :: c :: post)) →
      scanRuns a m stack (pre ++ c :: c :: c :: post) = scanRuns a m stack (pre ++ post) := by
  intro pre
  induction pre with
  | nil =>
    intro a m stack hm htop hno
    have hm3 := lt_three_of_not_hasRun3 a m _ hno
    have hac : c ≠ a := by
      rintro rfl
      apply hno
      refine ⟨c, List.replicate (m - 1) c, post, ?_⟩
      have : m = (m - 1) + 1 := by omega
      conv_rhs => rw [this, List.replicate_succ']
      simp [List.replicate]
    have hpost : post.head? ≠ some c := by
      intro hp
      cases post with
      | nil => simp at hp
      | cons d post' =>
        simp only [List.head?_cons, Option.some.injEq] at hp
        subst hp
        exact not_hasRun3_of_append hno ⟨d, [], post', by simp [List.replicate]⟩
    have hfresh := pushRun_fresh stack a m htop hm3
    simp only [List.nil_append, scanRuns, hac, if_false, if_true]
    cases post with
    | nil =>
      simp only [scanRuns]
      rw [hfresh]
      unfold pushRun
      simp [Ne.symm hac]
    | cons d post' =>
      have hdc : d ≠ c := by simpa using hpost
      simp only [scanRuns, hdc, if_false]
      have h3 : pushRun (pushRun stack a m) c 3 = pushRun stack a m := by
        rw [hfresh]
        unfold pushRun
        simp [Ne.symm hac]
      rw [h3]
      by_cases hda : d = a
      · simp only [hda, if_true]
        rw [hfresh, scanRuns_merge a m stack htop]
      · simp only [hda, if_false]
  | cons d pre ih =>
    intro a m stack hm htop hno
    have hm3 := lt_three_of_not_hasRun3 a m _ hno
    simp only [List.cons_append, scanRuns]
    by_cases hda : d = a
    · simp only [hda, if_true]
      apply ih a (m + 1) stack (by omega) htop
      rw [List.replicate_succ']
      subst hda
      simpa using hno
    · simp only [hda, if_false]
      rw [pushRun_fresh stack a m htop hm3]
      apply ih d 1 _ (by omega)
      · simpa using fun h : a = d => hda h.symm
      · have := not_hasRun3_of_append hno
        simpa [List.replicate] using this

theorem shrink_skip_triple (pre post : List Char) (c : Char)
    (hno : ¬ HasRun3 (pre ++ c :: c :: post)) :
    Solution_TLE_BUT_CORRECT.shrink (pre ++ c :: c :: c :: post) =
      Solution_TLE_BUT_CORRECT.shrink (pre ++ post) := by
  cases pre with
  | nil =>
    have hpost : post.head? ≠ some c := by
      intro hp
      cases post with
      | nil => simp at hp
      | cons d post' =>
        simp only [List.head?_cons, Option.some.injEq] at hp
        subst hp
        exact hno ⟨d, [], post', by simp [List.replicate]⟩
    simp only [List.nil_append]
    rw [shrink_cons]
    cases post with
    | nil =>
      rw [shrink_nil]
      simp [scanRuns, pushRun, render]
    | cons d post' =>
      have hdc : d ≠ c := by simpa using hpost
      rw [shrink_cons]
      simp [scanRuns, pushRun, hdc]
  | cons x pre =>
    simp only [List.cons_append]
    rw [shrink_cons, shrink_cons]
    rw [scanRuns_skip_triple c post pre x 1 [] (by omega) (by simp)
      (by simpa [List.replicate] using hno)]

/-! ## Strings by index -/

theorem getElem?_eq_charAt (s : List Char) (i : Nat) (h : i < s.length) :
    s[i]? = some (charAt s i) := by
  unfold charAt
  rw [List.getD_eq_getElem?_getD, List.getElem?_eq_getElem h]
  rfl

theorem charAt_eq_getElem (s : List Char) (i : Nat) (h : i < s.length) :
    charAt s i = s[i] := by
  have := getElem?_eq_charAt s i h
  rw [List.getElem?_eq_getElem h] at this
  exact (Option.some.inj this).symm

theorem drop_eq_charAt_cons (s : List Char) (k : Nat) (h : k < s.length) :
    s.drop k = charAt s k :: s.drop (k + 1) := by
  rw [List.drop_eq_getElem_cons h, charAt_eq_getElem s k h]

theorem split_at_index (s : List Char) (k : Nat) (h : k < s.length) :
    s = s.take k ++ charAt s k :: s.drop (k + 1) := by
  rw [← drop_eq_charAt_cons s k h, List.take_append_drop]

theorem take_getLast (s : List Char) (k : Nat) (hk : 0 < k) (h : k ≤ s.length) :
    (s.take k).getLast? = some (charAt s (k - 1)) := by
  rw [List.getLast?_take, if_neg (by omega), getElem?_eq_charAt s (k - 1) (by omega)]
  rfl

theorem drop_head (s : List Char) (k : Nat) (h : k < s.length) :
    (s.drop k).head? = some (charAt s k) := by
  rw [drop_eq_charAt_cons s k h]
  rfl

theorem hasRun3_of_index (s : List Char) (k : Nat) (c : Char) (h : k + 2 < s.length)
    (h0 : charAt s k = c) (h1 : charAt s (k + 1) = c) (h2 : charAt s (k + 2) = c) :
    HasRun3 s := by
  refine ⟨c, s.take k, s.drop (k + 3), ?_⟩
  conv_rhs => rw [split_at_index s k (by omega)]
  rw [drop_eq_charAt_cons s (k + 1) (by omega), drop_eq_charAt_cons s (k + 2) (by omega),
    h0, h1, h2]
  simp [List.replicate]

theorem not_hasRun3_double (c : Char) (post : List Char) :
    ∀ pre : List Char, ¬ HasRun3 (pre ++ c :: post) → pre.getLast? ≠ some c →
      post.head? ≠ some c → ¬ HasRun3 (pre ++ c :: c :: post) := by
  intro pre
  induction pre with
  | nil =>
    intro hno _ hpost hr
    simp only [List.nil_append] at hno hr
    rcases (hasRun3_cons_iff _ _).mp hr with ⟨l', hl'⟩ | hr'
    · apply hpost
      simp only [List.cons.injEq, true_and] at hl'
      rw [hl']
      rfl
    · exact hno hr'
  | cons a pre ih =>
    intro hno hlast hpost hr
    simp only [List.cons_append] at hno hr
    have hno' : ¬ HasRun3 (pre ++ c :: post) := fun h =>
      hno ((hasRun3_cons_iff _ _).mpr (Or.inr h))
    rcases (hasRun3_cons_iff _ _).mp hr with ⟨l', hl'⟩ | hr'
    · cases pre with
      | nil =>
        simp only [List.nil_append, List.cons.injEq] at hl'
        apply hlast
        rw [hl'.1]
        rfl
      | cons b pre' =>
        cases pre' with
        | nil =>
          simp only [List.cons_append, List.nil_append, List.cons.injEq] at hl'
          apply hlast
          rw [hl'.1, hl'.2.1]
          rfl
        | cons b2 pre'' =>
          simp only [List.cons_append, List.cons.injEq] at hl'
          apply hno
          rw [hl'.1, hl'.2.1]
          exact ⟨a, [], pre'' ++ c :: post, by simp [List.replicate]⟩
    · refine ih hno' ?_ hpost hr'
      cases pre with
      | nil => simp
      | cons b pre' =>
        rw [List.getLast?_cons_cons] at hlast
        exact hlast

namespace Solution_WRONG_GREEDY_BUT_ACCEPT

theorem findAux_spec (c : Char) : ∀ (t : List Char) (k0 k : Nat),
    findAux c t k0 = some k →
      k0 ≤ k ∧ k - k0 < t.length ∧ t[k - k0]? = some c ∧
        ∀ m, m < k - k0 → t[m]? ≠ some c := by
  intro t
  induction t with
  | nil => intro k0 k h; simp [findAux] at h
  | cons d t ih =>
    intro k0 k h
    unfold findAux at h
    split at h
    · rename_i hd
      cases h
      subst hd
      simp
    · rename_i hd
      obtain ⟨h1, h2, h3, h4⟩ := ih _ _ h
      have e : k - k0 = (k - (k0 + 1)) + 1 := by omega
      refine ⟨by omega, by rw [List.length_cons]; omega, ?_, ?_⟩
      · rw [e, List.getElem?_cons_succ]
        exact h3
      · intro m hm
        cases m with
        | zero =>
          simp only [List.getElem?_cons_zero, ne_eq, Option.some.injEq]
          exact hd
        | succ m =>
          rw [List.getElem?_cons_succ]
          exact h4 m (by omega)

theorem find_spec (board : List Char) (c : Char) (j k : Nat) (h : find board c j = some k) :
    j ≤ k ∧ k < board.length ∧ charAt board k = c ∧
      ∀ m, j ≤ m → m < k → charAt board m ≠ c := by
  obtain ⟨h1, h2, h3, h4⟩ := findAux_spec c _ _ _ h
  rw [List.length_drop] at h2
  rw [List.getElem?_drop] at h3
  have hk : j + (k - j) = k := by omega
  rw [hk] at h3
  have hlt : k < board.length := by omega
  refine ⟨h1, hlt, ?_, ?_⟩
  · rw [getElem?_eq_charAt board k hlt] at h3
    exact Option.some.inj h3
  · intro m hjm hmk hc
    have := h4 (m - j) (by omega)
    rw [List.getElem?_drop] at this
    have hm : j + (m - j) = m := by omega
    rw [hm, getElem?_eq_charAt board m (by omega), hc] at this
    exact this rfl

end Solution_WRONG_GREEDY_BUT_ACCEPT

/-! ## The constrained search never under-estimates -/

namespace Solution_WRONG_GREEDY_BUT_ACCEPT

theorem whileLoopPure_inv (Q : Int → Prop) (J : Nat → Prop)
    (recP : List Char → List Char → Option Int) (board hand : List Char) (i : Nat)
    (hJ1 : ∀ j k, J j → find board (charAt hand i) j = some k →
      (k < board.length - 1 ∧ charAt board k = charAt board (k + 1)) → J (k + 1 + 1))
    (hJ2 : ∀ j k, J j → find board (charAt hand i) j = some k →
      ¬ (k < board.length - 1 ∧ charAt board k = charAt board (k + 1)) → J (k + 1))
    (h1 : ∀ j k r v, J j → find board (charAt hand i) j = some k →
      (k < board.length - 1 ∧ charAt board k = charAt board (k + 1)) →
      recP (shrink (board.take k ++ board.drop (k + 2))) (hand.take i ++ hand.drop (i + 1)) =
        some r → Q v → Q (min v (r + 1)))
    (h2 : ∀ j k r v, J j → find board (charAt hand i) j = some k →
      ¬ (k < board.length - 1 ∧ charAt board k = charAt board (k + 1)) →
      (i > 0 ∧ charAt hand i = charAt hand (i - 1)) →
      recP (shrink (board.take k ++ board.drop (k + 1)))
        (hand.take (i - 1) ++ hand.drop (i + 1)) = some r → Q v → Q (min v (r + 2))) :
    ∀ (n j : Nat) (v res : Int), J j → Q v →
      whileLoopPure recP board hand i n j v = some res → Q res := by
  intro n
  induction n with
  | zero =>
    intro j v res _ hQ he
    rw [whileLoopPure] at he
    by_cases hjl : j < board.length
    · rw [if_pos hjl] at he; cases he
    · rw [if_neg hjl] at he; cases he; exact hQ
  | succ n ih =>
    intro j v res hj hQ he
    rw [whileLoopPure] at he
    by_cases hjl : j < board.length
    · rw [if_pos hjl] at he
      cases hf : find board (charAt hand i) j with
      | none => rw [hf] at he; cases he; exact hQ
      | some k =>
        rw [hf] at he
        simp only at he
        by_cases c1 : k < board.length - 1 ∧ charAt board k = charAt board (k + 1)
        · rw [if_pos c1] at he
          cases hr : recP (shrink (board.take k ++ board.drop (k + 2)))
              (hand.take i ++ hand.drop (i + 1)) with
          | none => rw [hr] at he; cases he
          | some r =>
            rw [hr, Option.some_bind] at he
            exact ih _ _ _ (hJ1 j k hj hf c1) (h1 j k r v hj hf c1 hr hQ) he
        · rw [if_neg c1] at he
          by_cases c2 : i > 0 ∧ charAt hand i = charAt hand (i - 1)
          · rw [if_pos c2] at he
            cases hr : recP (shrink (board.take k ++ board.drop (k + 1)))
                (hand.take (i - 1) ++ hand.drop (i + 1)) with
            | none => rw [hr] at he; cases he
            | some r =>
              rw [hr, Option.some_bind] at he
              exact ih _ _ _ (hJ2 j k hj hf c1) (h2 j k r v hj hf c1 c2 hr hQ) he
          · rw [if_neg c2] at he
            exact ih _ _ _ (hJ2 j k hj hf c1) hQ he
    · rw [if_neg hjl] at he; cases he; exact hQ

theorem notInsideRun_pair (board : List Char) (c : Char) (j k : Nat)
    (hno : ¬ HasRun3 board) (hf : find board c j = some k)
    (c1 : k < board.length - 1 ∧ charAt board k = charAt board (k + 1)) :
    NotInsideRun board c (k + 1 + 1) := by
  obtain ⟨-, hk, hc, -⟩ := find_spec board c j k hf
  by_cases hlen : board.length ≤ k + 1 + 1
  · exact Or.inr (Or.inl hlen)
  · right; right; right
    intro h2
    exact hno (hasRun3_of_index board k c (by omega) hc (by rw [← c1.2, hc]) h2)

theorem notInsideRun_single (board : List Char) (c : Char) (j k : Nat)
    (hf : find board c j = some k)
    (c1 : ¬ (k < board.length - 1 ∧ charAt board k = charAt board (k + 1))) :
    NotInsideRun board c (k + 1) := by
  obtain ⟨-, hk, hc, -⟩ := find_spec board c j k hf
  by_cases hlen : board.length ≤ k + 1
  · exact Or.inr (Or.inl hlen)
  · right; right; right
    intro h2
    exact c1 ⟨by omega, by rw [hc, h2]⟩

theorem run_start (board : List Char) (c : Char) (j k : Nat)
    (hj : NotInsideRun board c j) (hf : find board c j = some k) :
    k = 0 ∨ charAt board (k - 1) ≠ c := by
  obtain ⟨hjk, hk, hc, hmin⟩ := find_spec board c j k hf
  rcases Nat.eq_or_lt_of_le hjk with rfl | hlt
  · rcases hj with h | h | h | h
    · exact Or.inl h
    · omega
    · exact Or.inr h
    · exact absurd hc h
  · exact Or.inr (hmin (k - 1) (by omega) (by omega))

end Solution_WRONG_GREEDY_BUT_ACCEPT

theorem eraseIdx_eraseIdx_pred (hand : List Char) (i : Nat) (hi : i < hand.length)
    (h0 : 0 < i) :
    (hand.eraseIdx i).eraseIdx (i - 1) = hand.take (i - 1) ++ hand.drop (i + 1) := by
  rw [List.eraseIdx_eq_take_drop_succ hand i]
  have hlen : (hand.take i).length = i := List.length_take_of_le (by omega)
  rw [List.eraseIdx_append_of_lt_length (by omega), List.eraseIdx_eq_take_drop_succ,
    List.take_take]
  have h1 : i - 1 + 1 = i := by omega
  have h2 : (hand.take i).drop i = [] := List.drop_eq_nil_of_le (by omega)
  rw [h1, h2, Nat.min_eq_left (by omega)]
  simp

namespace Solution_WRONG_GREEDY_BUT_ACCEPT

theorem clears_of_pair (board hand : List Char) (i j k n : Nat) (hi : i < hand.length)
    (hno : ¬ HasRun3 board) (hf : find board (charAt hand i) j = some k)
    (c1 : k < board.length - 1 ∧ charAt board k = charAt board (k + 1))
    (hc : Solution_TLE_BUT_CORRECT.Clears n (shrink (board.take k ++ board.drop (k + 2)))
      (hand.take i ++ hand.drop (i + 1))) :
    Solution_TLE_BUT_CORRECT.Clears (n + 1) board hand := by
  obtain ⟨-, hk, hck, -⟩ := find_spec board _ j k hf
  refine (Solution_TLE_BUT_CORRECT.clears_succ_iff n board hand).mpr
    ⟨⟨i, hi⟩, k, by omega, ?_⟩
  have hget : hand.get ⟨i, hi⟩ = charAt hand i := (charAt_eq_getElem hand i hi).symm
  have hd : board.drop k = charAt hand i :: charAt hand i :: board.drop (k + 2) := by
    rw [drop_eq_charAt_cons board k hk, drop_eq_charAt_cons board (k + 1) (by omega),
      ← c1.2, hck]
  have hb : board = board.take k ++ charAt hand i :: charAt hand i :: board.drop (k + 2) := by
    rw [← hd, List.take_append_drop]
  rw [hget, hd, ← Solution_TLE_BUT_CORRECT.next_hand_eq]
  rw [shrink_skip_triple _ _ _ (by rw [← hb]; exact hno)]
  exact hc

theorem clears_of_single (board hand : List Char) (i j k n : Nat) (hi : i < hand.length)
    (hno : ¬ HasRun3 board) (hj : NotInsideRun board (charAt hand i) j)
    (hf : find board (charAt hand i) j = some k)
    (c1 : ¬ (k < board.length - 1 ∧ charAt board k = charAt board (k + 1)))
    (c2 : i > 0 ∧ charAt hand i = charAt hand (i - 1))
    (hc : Solution_TLE_BUT_CORRECT.Clears n (shrink (board.take k ++ board.drop (k + 1)))
      (hand.take (i - 1) ++ hand.drop (i + 1))) :
    Solution_TLE_BUT_CORRECT.Clears (n + 2) board hand := by
  obtain ⟨-, hk, hck, -⟩ := find_spec board _ j k hf
  have hget : hand.get ⟨i, hi⟩ = charAt hand i := (charAt_eq_getElem hand i hi).symm
  have hd : board.drop k = charAt hand i :: board.drop (k + 1) := by
    rw [drop_eq_charAt_cons board k hk, hck]
  have hb : board = board.take k ++ charAt hand i :: board.drop (k + 1) := by
    rw [← hd, List.take_append_drop]
  have hpre : (board.take k).getLast? ≠ some (charAt hand i) := by
    rcases run_start board _ j k hj hf with h0 | hne
    · subst h0; simp
    · by_cases h0 : k = 0
      · subst h0; simp
      · rw [take_getLast board k (by omega) (by omega)]
        exact fun h => hne (Option.some.inj h)
  have hpost : (board.drop (k + 1)).head? ≠ some (charAt hand i) := by
    by_cases hlen : k + 1 < board.length
    · rw [drop_head board (k + 1) hlen]
      intro h
      exact c1 ⟨by omega, by rw [hck, Option.some.inj h]⟩
    · rw [List.drop_eq_nil_of_le (by omega)]
      simp
  have hno2 : ¬ HasRun3 (board.take k ++ charAt hand i :: charAt hand i :: board.drop (k + 1)) :=
    not_hasRun3_double _ _ _ (by rw [← hb]; exact hno) hpre hpost
  have hlen1 : (hand.eraseIdx i).length + 1 = hand.length := List.length_eraseIdx_add_one hi
  have hi2 : i - 1 < (hand.eraseIdx i).length := by omega
  have hget2 : (hand.eraseIdx i).get ⟨i - 1, hi2⟩ = charAt hand i := by
    rw [List.get_eq_getElem, List.getElem_eraseIdx_of_lt hand i (i - 1) hi2 (by omega), c2.2,
      charAt_eq_getElem hand (i - 1) (by omega)]
  have hktake : (board.take k).length = k := List.length_take_of_le (by omega)
  refine (Solution_TLE_BUT_CORRECT.clears_succ_iff (n + 1) board hand).mpr
    ⟨⟨i, hi⟩, k, by omega, ?_⟩
  rw [hget, hd, shrink_of_noRun3 _ hno2]
  refine (Solution_TLE_BUT_CORRECT.clears_succ_iff n _ _).mpr
    ⟨⟨i - 1, hi2⟩, k, by simp only [List.length_append, List.length_cons, hktake]; omega, ?_⟩
  rw [hget2, List.take_left' hktake, List.drop_left' hktake,
    eraseIdx_eraseIdx_pred hand i hi c2.1, shrink_skip_triple _ _ _ hno2]
  exact hc

end Solution_WRONG_GREEDY_BUT_ACCEPT

theorem not_hasRun3_shrink (s : List Char) : ¬ HasRun3 (Solution_TLE_BUT_CORRECT.shrink s) := by
  obtain ⟨stack, hg, he, -⟩ := shrink_eq_render s
  rw [he]
  exact render_noRun3 stack hg

namespace Solution_WRONG_GREEDY_BUT_ACCEPT

theorem pure_sound : ∀ (fuel : Nat) (board hand : List Char) (r : Int),
    hand.length ≤ fuel → ¬ HasRun3 board →
    findMinStepHelperPure fuel board hand = some r →
    0 ≤ r ∧ (r < 6 → ∃ n : Nat, (n : Int) = r ∧ Solution_TLE_BUT_CORRECT.Clears n board hand) := by
  intro fuel
  induction fuel with
  | zero =>
    intro board hand r hlen _ he
    have : hand = [] := List.length_eq_zero.mp (by omega)
    subst this
    rw [findMinStepHelperPure] at he
    by_cases hb : board = []
    · rw [if_pos hb] at he
      cases he
      exact ⟨le_refl _, fun _ => ⟨0, rfl, (Solution_TLE_BUT_CORRECT.clears_zero_iff _ _).mpr hb⟩⟩
    · rw [if_neg hb, if_pos rfl] at he
      cases he
      exact ⟨by decide, fun h => absurd h (by decide)⟩
  | succ fuel ih =>
    intro board hand r hlen hno he
    rw [findMinStepHelperPure] at he
    by_cases hb : board = []
    · rw [if_pos hb] at he
      cases he
      exact ⟨le_refl _, fun _ => ⟨0, rfl, (Solution_TLE_BUT_CORRECT.clears_zero_iff _ _).mpr hb⟩⟩
    rw [if_neg hb] at he
    by_cases hh : hand = []
    · rw [if_pos hh] at he
      cases he
      exact ⟨by decide, fun h => absurd h (by decide)⟩
    rw [if_neg hh] at he
    refine foldlM_option_inv
      (fun v : Int => 0 ≤ v ∧
        (v < 6 → ∃ n : Nat, (n : Int) = v ∧ Solution_TLE_BUT_CORRECT.Clears n board hand))
      _ _ ?_ _ _ ⟨by decide, fun h => absurd h (by decide)⟩ he
    intro i hi v v' hv hloop
    have hi' : i < hand.length := List.mem_range.mp hi
    refine whileLoopPure_inv
      (fun v : Int => 0 ≤ v ∧
        (v < 6 → ∃ n : Nat, (n : Int) = v ∧ Solution_TLE_BUT_CORRECT.Clears n board hand))
      (NotInsideRun board (charAt hand i)) _ board hand i ?_ ?_ ?_ ?_ _ _ _ _ (Or.inl rfl) hv
      hloop
    · intro j k _ hf c1
      exact notInsideRun_pair board _ j k hno hf c1
    · intro j k _ hf c1
      exact notInsideRun_single board _ j k hf c1
    · intro j k r1 w _ hf c1 hr hw
      obtain ⟨h0, hcl⟩ := ih _ _ r1 (by have := length_next_hand hand i hi'; omega)
        (not_hasRun3_shrink _) hr
      refine ⟨le_min hw.1 (by omega), fun hlt => ?_⟩
      rcases min_choice w (r1 + 1) with hm | hm
      · rw [hm] at hlt ⊢
        exact hw.2 hlt
      · rw [hm] at hlt ⊢
        obtain ⟨n, hn, hc⟩ := hcl (by omega)
        exact ⟨n + 1, by push_cast; omega, clears_of_pair board hand i j k n hi' hno hf c1 hc⟩
    · intro j k r1 w hj hf c1 c2 hr hw
      obtain ⟨h0, hcl⟩ := ih _ _ r1
        (by have := length_next_hand_two hand i hi' c2.1; omega) (not_hasRun3_shrink _) hr
      refine ⟨le_min hw.1 (by omega), fun hlt => ?_⟩
      rcases min_choice w (r1 + 2) with hm | hm
      · rw [hm] at hlt ⊢
        exact hw.2 hlt
      · rw [hm] at hlt ⊢
        obtain ⟨n, hn, hc⟩ := hcl (by omega)
        exact ⟨n + 2, by push_cast; omega,
          clears_of_single board hand i j k n hi' hno hj hf c1 c2 hc⟩

theorem findMinStep_eq_pure (board hand : List Char) :
    ∃ r, findMinStepHelperPure (sort hand).length board (sort hand) = some r ∧
      findMinStep board hand = some (if r > (hand.length : Int) then -1 else r) := by
  obtain ⟨r, lk, h1, h2, -⟩ := memo_eq_pure_greedy (sort hand).length board (sort hand)
    Lookup.empty (le_refl _) sound_empty_greedy
  refine ⟨r, h2, ?_⟩
  have hlen : (sort hand).length = hand.length := List.length_insertionSort _ _
  unfold findMinStep
  rw [h1, hlen]
  rfl

end Solution_WRONG_GREEDY_BUT_ACCEPT

/-- C17: on a board with no run of three and a hand of at most 5 balls, when the
constrained `findMinStep` returns `k ≠ -1`, some sequence of exactly `k` moves
empties the board, and the exhaustive `findMinStep` returns a value that is not
`-1` and is at most `k`. -/
theorem greedy_never_underestimates (board hand : List Char) (k : Int)
    (hno : ∀ c, ¬ (List.replicate 3 c <:+: board)) (hlen : hand.length ≤ 5)
    (hk : Solution_WRONG_GREEDY_BUT_ACCEPT.findMinStep board hand = some k) (hne : k ≠ -1) :
    (∃ n : Nat, (n : Int) = k ∧ Solution_TLE_BUT_CORRECT.Clears n board hand) ∧
      ∃ a, Solution_TLE_BUT_CORRECT.findMinStep board hand = some a ∧ a ≠ -1 ∧ a ≤ k := by
  obtain ⟨r, hr, hfm⟩ := Solution_WRONG_GREEDY_BUT_ACCEPT.findMinStep_eq_pure board hand
  rw [hfm] at hk
  have hk' := Option.some.inj hk
  have hsort : (Solution_WRONG_GREEDY_BUT_ACCEPT.sort hand).Perm hand :=
    List.perm_insertionSort _ hand
  obtain ⟨h0, hcl⟩ := Solution_WRONG_GREEDY_BUT_ACCEPT.pure_sound _ board _ r (le_refl _)
    (fun ⟨c, hc⟩ => hno c hc) hr
  by_cases hgt : r > (hand.length : Int)
  · rw [if_pos hgt] at hk'
    exact absurd hk'.symm hne
  · rw [if_neg hgt] at hk'
    subst hk'
    obtain ⟨n, hn, hc⟩ := hcl (by omega)
    have hc' := Solution_TLE_BUT_CORRECT.clears_perm n board _ hand hsort hc
    refine ⟨⟨n, hn, hc'⟩, ?_⟩
    rcases Solution_TLE_BUT_CORRECT.findMinStep_cases board hand hlen with
      ⟨k0, -, hmin, hres⟩ | ⟨hnone, -⟩
    · have := hmin n hc'
      exact ⟨k0, hres, by omega, by omega⟩
    · exact absurd hc' (hnone n)

theorem greedy_never_underestimates_witness :
    (∃ n : Nat, (n : Int) = 1 ∧ Solution_TLE_BUT_CORRECT.Clears n ['R', 'R'] ['G', 'R']) ∧
      ∃ a, Solution_TLE_BUT_CORRECT.findMinStep ['R', 'R'] ['G', 'R'] = some a ∧
        a ≠ -1 ∧ a ≤ 1 :=
  greedy_never_underestimates ['R', 'R'] ['G', 'R'] 1
    (fun c => noRun3_of_shrink_eq _ (by decide) c) (by decide) (by decide!) (by decide)

/-! ## Boards as lists of runs -/

theorem render_eq_expand (stack : List (Char × Nat)) : render stack = expand stack.reverse := rfl

theorem expand_nil : expand [] = [] := rfl

theorem expand_cons (a : Char) (m : Nat) (runs : List (Char × Nat)) :
    expand ((a, m) :: runs) = List.replicate m a ++ expand runs := by
  simp [expand]

theorem expand_append (xs ys : List (Char × Nat)) :
    expand (xs ++ ys) = expand xs ++ expand ys := by
  simp [expand]

theorem goodStack_cons_iff (a : Char) (m : Nat) (stack : List (Char × Nat)) :
    GoodStack ((a, m) :: stack) ↔
      stack.head?.map Prod.fst ≠ some a ∧ 1 ≤ m ∧ m ≤ 2 ∧ GoodStack stack := by
  unfold GoodStack
  cases stack with
  | nil => simp
  | cons p rest =>
    rw [List.chain'_cons]
    simp only [List.head?_cons, Option.map_some', ne_eq, Option.some.injEq, List.mem_cons,
      forall_eq_or_imp]
    constructor
    · rintro ⟨⟨h1, h2⟩, ⟨h3, h4⟩, h5, h6⟩
      exact ⟨fun h => h1 h.symm, h3, h4, h2, h5, h6⟩
    · rintro ⟨h1, h3, h4, h2, h5, h6⟩
      exact ⟨⟨fun h => h1 h.symm, h2⟩, ⟨h3, h4⟩, h5, h6⟩

theorem goodStack_reverse (stack : List (Char × Nat)) :
    GoodStack stack.reverse ↔ GoodStack stack := by
  unfold GoodStack
  rw [List.chain'_reverse]
  have : (flip fun p q : Char × Nat => p.1 ≠ q.1) = fun p q => p.1 ≠ q.1 := by
    funext p q
    simp only [flip, ne_eq, eq_iff_iff]
    exact ⟨fun h e => h e.symm, fun h e => h e.symm⟩
  rw [this]
  simp

theorem goodStack_append_iff (xs ys : List (Char × Nat)) :
    GoodStack (xs ++ ys) ↔
      GoodStack xs ∧ GoodStack ys ∧
        ∀ p ∈ xs.getLast?, ∀ q ∈ ys.head?, p.1 ≠ q.1 := by
  unfold GoodStack
  rw [List.chain'_append]
  simp only [List.mem_append]
  constructor
  · rintro ⟨⟨h1, h2, h3⟩, h4⟩
    exact ⟨⟨h1, fun p hp => h4 p (Or.inl hp)⟩, ⟨h2, fun p hp => h4 p (Or.inr hp)⟩, h3⟩
  · rintro ⟨⟨h1, h4⟩, ⟨h2, h5⟩, h3⟩
    exact ⟨⟨h1, h2, h3⟩, fun p hp => hp.elim (h4 p) (h5 p)⟩

theorem scanRuns_replicate (b : Char) (stack : List (Char × Nat)) (rest : List Char) :
    ∀ (t k : Nat), scanRuns b k stack (List.replicate t b ++ rest) = scanRuns b (k + t) stack rest := by
  intro t
  induction t with
  | zero => intro k; rfl
  | succ t ih =>
    intro k
    rw [List.replicate_succ, List.cons_append]
    simp only [scanRuns, if_true]
    rw [ih (k + 1)]
    congr 1
    omega

theorem scanRuns_enter (a b : Char) (m n : Nat) (stack : List (Char × Nat)) (rest : List Char)
    (hg : GoodStack ((a, m) :: stack)) (hn : 1 ≤ n) :
    scanRuns a m stack (List.replicate n b ++ rest) = scanRuns b n ((a, m) :: stack) rest := by
  obtain ⟨htop, hm1, hm2, -⟩ := (goodStack_cons_iff a m stack).mp hg
  by_cases hab : b = a
  · subst hab
    rw [scanRuns_replicate, scanRuns_merge b m stack htop]
  · obtain ⟨n, rfl⟩ : ∃ n', n = n' + 1 := ⟨n - 1, by omega⟩
    rw [List.replicate_succ, List.cons_append]
    simp only [scanRuns, hab, if_false]
    rw [pushRun_fresh stack a m htop (by omega), scanRuns_replicate]
    congr 1
    omega

theorem scanRuns_skip (a b : Char) (k n : Nat) (stack : List (Char × Nat)) (rest : List Char)
    (htop : stack.head?.map Prod.fst ≠ some a) (hk : 3 ≤ k) (hab : b ≠ a) (hn : 1 ≤ n) :
    scanRuns a k stack (List.replicate n b ++ rest) = scanRuns b n stack rest := by
  obtain ⟨n, rfl⟩ : ∃ n', n = n' + 1 := ⟨n - 1, by omega⟩
  rw [List.replicate_succ, List.cons_append]
  simp only [scanRuns, hab, if_false]
  have : pushRun stack a k = stack := by
    unfold pushRun
    cases stack with
    | nil => simp; omega
    | cons p rest =>
      obtain ⟨d, q⟩ := p
      have hd : d ≠ a := by simpa using htop
      simp [hd]
      omega
  rw [this, scanRuns_replicate]
  congr 1
  omega

theorem pushRun_skip (stack : List (Char × Nat)) (a : Char) (k : Nat)
    (htop : stack.head?.map Prod.fst ≠ some a) (hk : 3 ≤ k) : pushRun stack a k = stack := by
  unfold pushRun
  cases stack with
  | nil => simp; omega
  | cons p rest =>
    obtain ⟨d, q⟩ := p
    have hd : d ≠ a := by simpa using htop
    simp [hd]
    omega

theorem zipRuns_nil_right (left : List (Char × Nat)) : zipRuns left [] = left.reverse := by
  cases left with
  | nil => rfl
  | cons p rest => rfl

theorem scanRuns_runs (rest : List Char) :
    ∀ (xs : List (Char × Nat)) (a d : Char) (m q : Nat) (stack : List (Char × Nat)),
      GoodStack ((a, m) :: xs.reverse ++ (d, q) :: stack) →
      scanRuns d q stack (expand (xs ++ [(a, m)]) ++ rest) =
        scanRuns a m (xs.reverse ++ (d, q) :: stack) rest := by
  intro xs
  induction xs with
  | nil =>
    intro a d m q stack hg
    simp only [List.reverse_nil, List.nil_append] at hg ⊢
    rw [expand_cons, expand_nil, List.append_nil]
    exact scanRuns_enter d a q m stack rest ((goodStack_cons_iff _ _ _).mp hg).2.2.2
      ((goodStack_cons_iff _ _ _).mp hg).2.1
  | cons p xs ih =>
    obtain ⟨e, t⟩ := p
    intro a d m q stack hg
    have hg' : GoodStack ((a, m) :: xs.reverse ++ (e, t) :: (d, q) :: stack) := by
      simpa [List.append_assoc] using hg
    have hsuf : GoodStack ((e, t) :: (d, q) :: stack) := by
      have := (goodStack_append_iff ((a, m) :: xs.reverse) ((e, t) :: (d, q) :: stack)).mp
        (by simpa using hg')
      exact this.2.1
    rw [List.cons_append, expand_cons, List.append_assoc,
      scanRuns_enter d e q t stack _ ((goodStack_cons_iff _ _ _).mp hsuf).2.2.2
        ((goodStack_cons_iff _ _ _).mp hsuf).2.1]
    rw [ih a e m t ((d, q) :: stack) hg']
    simp [List.append_assoc]

theorem scanRuns_fresh :
    ∀ (right : List (Char × Nat)) (a : Char) (m : Nat) (left : List (Char × Nat)),
      GoodStack (right.reverse ++ (a, m) :: left) →
      render (scanRuns a m left (expand right)) = expand (((a, m) :: left).reverse ++ right) := by
  intro right
  induction right with
  | nil =>
    intro a m left hg
    simp only [List.reverse_nil, List.nil_append] at hg
    obtain ⟨htop, -, hm2, -⟩ := (goodStack_cons_iff _ _ _).mp hg
    simp only [expand_nil, scanRuns, List.append_nil]
    rw [pushRun_fresh left a m htop (by omega), render_eq_expand]
  | cons p right ih =>
    obtain ⟨b, n⟩ := p
    intro a m left hg
    have hg' : GoodStack (right.reverse ++ (b, n) :: (a, m) :: left) := by
      simpa [List.append_assoc] using hg
    have hsuf : GoodStack ((b, n) :: (a, m) :: left) :=
      ((goodStack_append_iff right.reverse _).mp hg').2.1
    rw [expand_cons, scanRuns_enter a b m n left _ ((goodStack_cons_iff _ _ _).mp hsuf).2.2.2
      ((goodStack_cons_iff _ _ _).mp hsuf).2.1, ih b n _ hg']
    simp [List.append_assoc]

theorem goodStack_join (right left : List (Char × Nat)) (b : Char) (n : Nat)
    (hr : GoodStack ((b, n) :: right)) (hl : GoodStack left)
    (hne : left.head?.map Prod.fst ≠ some b) :
    GoodStack (right.reverse ++ (b, n) :: left) := by
  have h1 : GoodStack (right.reverse ++ [(b, n)]) := by
    have := (goodStack_reverse ((b, n) :: right)).mpr hr
    simpa using this
  have h2 : right.reverse ++ (b, n) :: left = (right.reverse ++ [(b, n)]) ++ left := by simp
  rw [h2, goodStack_append_iff]
  refine ⟨h1, hl, ?_⟩
  intro p hp q hq
  rw [List.getLast?_concat] at hp
  cases hp
  intro h
  apply hne
  cases left with
  | nil => cases hq
  | cons x rest =>
    simp only [List.head?_cons, Option.mem_def, Option.some.injEq] at hq
    subst hq
    simp only [List.head?_cons, Option.map_some', Option.some.injEq]
    exact h.symm

theorem scanRuns_zip :
    ∀ (left : List (Char × Nat)) (b : Char) (n : Nat) (right : List (Char × Nat)),
      GoodStack left → GoodStack ((b, n) :: right) →
      render (scanRuns b n left (expand right)) = expand (zipRuns left ((b, n) :: right)) := by
  intro left
  induction left with
  | nil =>
    intro b n right _ hr
    have hg : GoodStack (right.reverse ++ (b, n) :: []) :=
      goodStack_join right [] b n hr goodStack_nil (by simp)
    rw [scanRuns_fresh right b n [] hg]
    simp [zipRuns]
  | cons p left ih =>
    obtain ⟨a, m⟩ := p
    intro b n right hl hr
    obtain ⟨htop, hm1, hm2, hl'⟩ := (goodStack_cons_iff _ _ _).mp hl
    obtain ⟨hrtop, hn1, hn2, hr'⟩ := (goodStack_cons_iff _ _ _).mp hr
    by_cases hab : a = b
    · subst hab
      rw [scanRuns_merge a m left htop]
      by_cases h3 : m + n ≥ 3
      · simp only [zipRuns, if_true, h3]
        cases right with
        | nil =>
          simp only [expand_nil, scanRuns]
          rw [pushRun_skip left a (m + n) htop h3, zipRuns_nil_right, render_eq_expand]
        | cons q right =>
          obtain ⟨b2, n2⟩ := q
          obtain ⟨-, hq1, -, -⟩ := (goodStack_cons_iff _ _ _).mp hr'
          have hne : b2 ≠ a := by simpa using hrtop
          rw [expand_cons, scanRuns_skip a b2 (m + n) n2 left _ htop h3 hne hq1]
          exact ih b2 n2 right hl' hr'
      · simp only [zipRuns, if_true, h3, if_false]
        have hg : GoodStack (right.reverse ++ (a, m + n) :: left) := by
          apply goodStack_join right left a (m + n) _ hl' htop
          exact (goodStack_cons_iff _ _ _).mpr ⟨hrtop, by omega, by omega, hr'⟩
        rw [scanRuns_fresh right a (m + n) left hg]
        simp
    · simp only [zipRuns, hab, if_false]
      have hg : GoodStack (right.reverse ++ (b, n) :: (a, m) :: left) :=
        goodStack_join right _ b n hr hl (by simpa using hab)
      rw [scanRuns_fresh right b n _ hg]
      simp

theorem shrink_expand (runs : List (Char × Nat)) (hg : GoodStack runs) :
    Solution_TLE_BUT_CORRECT.shrink (expand runs) = expand runs := by
  apply shrink_of_noRun3
  have := render_noRun3 runs.reverse ((goodStack_reverse runs).mpr hg)
  rwa [render_eq_expand, List.reverse_reverse] at this

theorem shrink_expand_cons (rest : List Char) :
    ∀ (xs : List (Char × Nat)) (a : Char) (m : Nat), GoodStack ((a, m) :: xs.reverse) →
      Solution_TLE_BUT_CORRECT.shrink (expand (xs ++ [(a, m)]) ++ rest) =
        render (scanRuns a m xs.reverse rest) := by
  intro xs a m hg
  cases xs with
  | nil =>
    obtain ⟨-, hm1, -, -⟩ := (goodStack_cons_iff _ _ _).mp hg
    obtain ⟨m, rfl⟩ : ∃ m', m = m' + 1 := ⟨m - 1, by omega⟩
    simp only [List.nil_append, expand_cons, expand_nil, List.append_nil, List.replicate_succ,
      List.cons_append, List.reverse_nil]
    rw [shrink_cons, scanRuns_replicate]
    congr 2
    omega
  | cons p xs =>
    obtain ⟨d, q⟩ := p
    have hg' : GoodStack ((a, m) :: xs.reverse ++ (d, q) :: []) := by
      simpa using hg
    have hq : 1 ≤ q := by
      have := ((goodStack_append_iff ((a, m) :: xs.reverse) [(d, q)]).mp (by simpa using hg')).2.1
      exact ((goodStack_cons_iff _ _ _).mp this).2.1
    obtain ⟨q, rfl⟩ : ∃ q', q = q' + 1 := ⟨q - 1, by omega⟩
    rw [List.cons_append, expand_cons, List.replicate_succ, List.cons_append, List.cons_append,
      shrink_cons, List.append_assoc, scanRuns_replicate]
    have e : 1 + q = q + 1 := by omega
    rw [e, scanRuns_runs rest xs a d m (q + 1) [] hg']
    simp

theorem shrink_zip (left right : List (Char × Nat)) (hl : GoodStack left)
    (hr : GoodStack right) :
    Solution_TLE_BUT_CORRECT.shrink (expand left.reverse ++ expand right) =
      expand (zipRuns left right) := by
  cases right with
  | nil =>
    rw [expand_nil, List.append_nil, zipRuns_nil_right,
      shrink_expand _ ((goodStack_reverse left).mpr hl)]
  | cons q right =>
    obtain ⟨b, n⟩ := q
    cases left with
    | nil =>
      simp only [List.reverse_nil, expand_nil, List.nil_append, zipRuns]
      exact shrink_expand _ hr
    | cons p left =>
      obtain ⟨a, m⟩ := p
      obtain ⟨-, hn1, -, -⟩ := (goodStack_cons_iff _ _ _).mp hr
      rw [List.reverse_cons, shrink_expand_cons _ left.reverse a m (by simpa using hl),
        List.reverse_reverse, expand_cons,
        scanRuns_enter a b m n left _ hl hn1]
      exact scanRuns_zip ((a, m) :: left) b n right hl hr

theorem zipRuns_good : ∀ (left right : List (Char × Nat)), GoodStack left → GoodStack right →
    GoodStack (zipRuns left right) := by
  intro left
  induction left with
  | nil => intro right _ hr; exact hr
  | cons p left ih =>
    obtain ⟨a, m⟩ := p
    intro right hl hr
    obtain ⟨htop, hm1, hm2, hl'⟩ := (goodStack_cons_iff _ _ _).mp hl
    cases right with
    | nil => exact (goodStack_reverse _).mpr hl
    | cons q right =>
      obtain ⟨b, n⟩ := q
      obtain ⟨hrtop, hn1, hn2, hr'⟩ := (goodStack_cons_iff _ _ _).mp hr
      by_cases hab : a = b
      · subst hab
        by_cases h3 : m + n ≥ 3
        · simp only [zipRuns, if_true, h3]
          exact ih right hl' hr'
        · simp only [zipRuns, if_true, h3, if_false]
          exact goodStack_join left right a (m + n)
            ((goodStack_cons_iff _ _ _).mpr ⟨htop, by omega, by omega, hl'⟩) hr' hrtop
      · simp only [zipRuns, hab, if_false]
        rw [List.reverse_cons, List.append_assoc]
        exact goodStack_join left _ a m hl hr (by simpa using fun h : b = a => hab h.symm)

theorem zipRuns_double_left (c : Char) (back : List (Char × Nat)) :
    ∀ (front right : List (Char × Nat)),
      GoodStack (front ++ (c, 1) :: back) → GoodStack right →
      (∃ p q, zipRuns (front ++ (c, 1) :: back) right = p ++ (c, 1) :: q ∧
          zipRuns (front ++ (c, 2) :: back) right = p ++ (c, 2) :: q) ∨
        (∃ p q, zipRuns (front ++ (c, 1) :: back) right = p ++ (c, 2) :: q ∧
          zipRuns (front ++ (c, 2) :: back) right = zipRuns p.reverse q) ∨
        zipRuns (front ++ (c, 2) :: back) right = zipRuns (front ++ (c, 1) :: back) right := by
  intro front
  induction front with
  | nil =>
    intro right _ hr
    cases right with
    | nil =>
      left
      exact ⟨back.reverse, [], by simp [zipRuns], by simp [zipRuns]⟩
    | cons q right =>
      obtain ⟨b, n⟩ := q
      obtain ⟨-, hn1, hn2, -⟩ := (goodStack_cons_iff _ _ _).mp hr
      by_cases hcb : c = b
      · subst hcb
        obtain rfl | rfl : n = 1 ∨ n = 2 := by omega
        · right; left
          exact ⟨back.reverse, right, by simp [zipRuns], by simp [zipRuns]⟩
        · right; right
          simp [zipRuns]
      · left
        exact ⟨back.reverse, (b, n) :: right, by simp [zipRuns, hcb], by simp [zipRuns, hcb]⟩
  | cons p front ih =>
    obtain ⟨a, m⟩ := p
    intro right hl hr
    have hl' : GoodStack (front ++ (c, 1) :: back) :=
      ((goodStack_cons_iff _ _ _).mp (by simpa using hl)).2.2.2
    cases right with
    | nil =>
      left
      exact ⟨back.reverse, ((a, m) :: front).reverse, by simp [zipRuns], by simp [zipRuns]⟩
    | cons q right =>
      obtain ⟨b, n⟩ := q
      obtain ⟨-, -, -, hr'⟩ := (goodStack_cons_iff _ _ _).mp hr
      by_cases hab : a = b
      · subst hab
        by_cases h3 : m + n ≥ 3
        · simp only [List.cons_append, zipRuns, if_true, h3]
          exact ih right hl' hr'
        · left
          exact ⟨back.reverse, front.reverse ++ (a, m + n) :: right,
            by simp [zipRuns, h3], by simp [zipRuns, h3]⟩
      · left
        exact ⟨back.reverse, ((a, m) :: front).reverse ++ (b, n) :: right,
          by simp [zipRuns, hab], by simp [zipRuns, hab]⟩

theorem zipRuns_double_right (c : Char) (back : List (Char × Nat)) :
    ∀ (front left : List (Char × Nat)),
      GoodStack left → GoodStack (front ++ (c, 1) :: back) →
      (∃ p q, zipRuns left (front ++ (c, 1) :: back) = p ++ (c, 1) :: q ∧
          zipRuns left (front ++ (c, 2) :: back) = p ++ (c, 2) :: q) ∨
        (∃ p q, zipRuns left (front ++ (c, 1) :: back) = p ++ (c, 2) :: q ∧
          zipRuns left (front ++ (c, 2) :: back) = zipRuns p.reverse q) ∨
        zipRuns left (front ++ (c, 2) :: back) = zipRuns left (front ++ (c, 1) :: back) := by
  intro front
  induction front with
  | nil =>
    intro left hl _
    cases left with
    | nil =>
      left
      exact ⟨[], back, by simp [zipRuns], by simp [zipRuns]⟩
    | cons q left =>
      obtain ⟨a, m⟩ := q
      obtain ⟨-, hm1, hm2, -⟩ := (goodStack_cons_iff _ _ _).mp hl
      by_cases hac : a = c
      · subst hac
        obtain rfl | rfl : m = 1 ∨ m = 2 := by omega
        · right; left
          exact ⟨left.reverse, back, by simp [zipRuns], by simp [zipRuns]⟩
        · right; right
          simp [zipRuns]
      · left
        exact ⟨((a, m) :: left).reverse, back, by simp [zipRuns, hac], by simp [zipRuns, hac]⟩
  | cons p front ih =>
    obtain ⟨b, n⟩ := p
    intro left hl hr
    have hr' : GoodStack (front ++ (c, 1) :: back) :=
      ((goodStack_cons_iff _ _ _).mp (by simpa using hr)).2.2.2
    cases left with
    | nil =>
      left
      exact ⟨(b, n) :: front, back, by simp [zipRuns], by simp [zipRuns]⟩
    | cons q left =>
      obtain ⟨a, m⟩ := q
      obtain ⟨-, -, -, hl'⟩ := (goodStack_cons_iff _ _ _).mp hl
      by_cases hab : a = b
      · subst hab
        by_cases h3 : m + n ≥ 3
        · simp only [List.cons_append, zipRuns, if_true, h3]
          exact ih left hl' hr'
        · left
          exact ⟨left.reverse ++ (a, m + n) :: front, back,
            by simp [zipRuns, h3], by simp [zipRuns, h3]⟩
      · left
        exact ⟨((a, m) :: left).reverse ++ (b, n) :: front, back,
          by simp [zipRuns, hab], by simp [zipRuns, hab]⟩

/-! ## The value of the constrained search -/

theorem foldlM_option_le {α : Type} (f : Int → α → Option Int) (xs : List α)
    (h : ∀ x ∈ xs, ∀ v res, f v x = some res → res ≤ v) :
    ∀ v res, xs.foldlM f v = some res → res ≤ v := by
  intro v res he
  exact foldlM_option_inv (fun w => w ≤ v) f xs
    (fun x hx w w' hw hf => le_trans (h x hx w w' hf) hw) v res (le_refl _) he

theorem foldlM_option_cover {α : Type} (P : Int → Prop) (hP : ∀ v w, P v → w ≤ v → P w)
    (f : Int → α → Option Int) (xs : List α)
    (h : ∀ x ∈ xs, ∀ v res, f v x = some res → res ≤ v)
    (x0 : α) (hx0 : x0 ∈ xs) (h0 : ∀ v res, f v x0 = some res → P res) :
    ∀ v res, xs.foldlM f v = some res → P res := by
  induction xs with
  | nil => cases hx0
  | cons x xs ih =>
    intro v res he
    simp only [List.foldlM_cons] at he
    cases hf : f v x with
    | none => rw [hf] at he; cases he
    | some w =>
      rw [hf] at he
      simp only [Option.bind_eq_bind, Option.some_bind] at he
      rcases List.mem_cons.mp hx0 with rfl | hmem
      · have h1 := h0 v w hf
        have h2 := foldlM_option_le f xs (fun y hy => h y (List.mem_cons_of_mem _ hy)) w res he
        exact hP w res h1 h2
      · exact ih (fun y hy => h y (List.mem_cons_of_mem _ hy)) hmem w res he

namespace Solution_WRONG_GREEDY_BUT_ACCEPT

theorem pure_eq_value_greedy (fuel : Nat) (board hand : List Char) (h : hand.length ≤ fuel) :
    findMinStepHelperPure fuel board hand = some (value board hand) := by
  obtain ⟨r, -, -, hr, -⟩ := memo_eq_pure_greedy hand.length board hand Lookup.empty (le_refl _)
    sound_empty_greedy
  rw [pure_fuel_indep_greedy fuel hand.length board hand h (le_refl _)]
  unfold value
  rw [hr]
  rfl

theorem value_nil_board_greedy (hand : List Char) : value [] hand = 0 := by
  unfold value findMinStepHelperPure
  simp

theorem value_unfold (board hand : List Char) (hb : board ≠ []) (hh : hand ≠ []) :
    (List.range hand.length).foldlM (fun (result : Int) i =>
      whileLoopPure (fun b h => some (value b h)) board hand i board.length 0 result)
      MAX_STEP = some (value board hand) := by
  have h1 := pure_eq_value_greedy hand.length board hand (le_refl _)
  obtain ⟨n, hn⟩ : ∃ n, hand.length = n + 1 :=
    ⟨hand.length - 1, by have := List.length_pos.mpr hh; omega⟩
  rw [hn, findMinStepHelperPure, if_neg hb, if_neg hh] at h1
  rw [← h1]
  apply foldlM_option_congr
  intro i hi r
  have hi' : i < hand.length := List.mem_range.mp hi
  apply whileLoopPure_congr _ _ _ _ _ hi'
  intro b h hlt
  exact (pure_eq_value_greedy n b h (by omega)).symm

theorem value_bounds (board hand : List Char) : 0 ≤ value board hand ∧ value board hand ≤ 6 := by
  obtain ⟨res, hres⟩ := Option.isSome_iff_exists.mp
    (helper_isSome_greedy hand.length board hand Lookup.empty (le_refl _))
  obtain ⟨r, lk⟩ := res
  obtain ⟨r', lk', h1, h2, -⟩ := memo_eq_pure_greedy hand.length board hand Lookup.empty
    (le_refl _) sound_empty_greedy
  rw [hres] at h1
  cases h1
  rw [pure_eq_value_greedy _ _ _ (le_refl _)] at h2
  cases h2
  obtain ⟨-, h3, h4, -⟩ := helper_inRange_greedy _ _ _ _ _ _ inRange_empty hres
  exact ⟨h3, h4⟩

theorem findAux_le (c : Char) : ∀ (t : List Char) (k0 m : Nat), t[m]? = some c →
    ∃ k, findAux c t k0 = some k ∧ k ≤ k0 + m := by
  intro t
  induction t with
  | nil => intro k0 m h; simp at h
  | cons d t ih =>
    intro k0 m h
    unfold findAux
    by_cases hd : d = c
    · exact ⟨k0, by rw [if_pos hd], by omega⟩
    · rw [if_neg hd]
      cases m with
      | zero =>
        simp only [List.getElem?_cons_zero, Option.some.injEq] at h
        exact absurd h hd
      | succ m =>
        rw [List.getElem?_cons_succ] at h
        obtain ⟨k, hk, hle⟩ := ih (k0 + 1) m h
        exact ⟨k, hk, by omega⟩

theorem find_le (board : List Char) (c : Char) (j k : Nat) (hjk : j ≤ k) (hk : k < board.length)
    (hc : charAt board k = c) : ∃ k', find board c j = some k' ∧ k' ≤ k := by
  have h : (board.drop j)[k - j]? = some c := by
    rw [List.getElem?_drop]
    have : j + (k - j) = k := by omega
    rw [this, getElem?_eq_charAt board k hk, hc]
  obtain ⟨k', h1, h2⟩ := findAux_le c _ j (k - j) h
  exact ⟨k', h1, by omega⟩

theorem whileLoopPure_le (recP : List Char → List Char → Option Int) (board hand : List Char)
    (i n j : Nat) (v res : Int) (he : whileLoopPure recP board hand i n j v = some res) :
    res ≤ v := by
  refine whileLoopPure_inv (fun w => w ≤ v) (fun _ => True) recP board hand i
    (fun _ _ _ _ _ => trivial) (fun _ _ _ _ _ => trivial) ?_ ?_ n j v res trivial (le_refl _) he
  · intro _ _ r w _ _ _ _ hw
    exact le_trans (min_le_left _ _) hw
  · intro _ _ r w _ _ _ _ _ hw
    exact le_trans (min_le_left _ _) hw

theorem whileLoopPure_cover (recP : List Char → List Char → Option Int)
    (board hand : List Char) (i k : Nat) (hk : k < board.length)
    (hc : charAt board k = charAt hand i)
    (hstart : k = 0 ∨ charAt board (k - 1) ≠ charAt hand i) :
    ∀ (n j : Nat) (v res : Int), j ≤ k →
      whileLoopPure recP board hand i n j v = some res →
      ((k < board.length - 1 ∧ charAt board k = charAt board (k + 1)) →
          ∃ r, recP (shrink (board.take k ++ board.drop (k + 2)))
            (hand.take i ++ hand.drop (i + 1)) = some r ∧ res ≤ r + 1) ∧
        (¬ (k < board.length - 1 ∧ charAt board k = charAt board (k + 1)) →
          (i > 0 ∧ charAt hand i = charAt hand (i - 1)) →
          ∃ r, recP (shrink (board.take k ++ board.drop (k + 1)))
            (hand.take (i - 1) ++ hand.drop (i + 1)) = some r ∧ res ≤ r + 2) := by
  intro n
  induction n with
  | zero =>
    intro j v res hjk he
    rw [whileLoopPure, if_pos (by omega)] at he
    cases he
  | succ n ih =>
    intro j v res hjk he
    rw [whileLoopPure, if_pos (by omega)] at he
    obtain ⟨k', hf, hle⟩ := find_le board (charAt hand i) j k hjk hk hc
    obtain ⟨hjk', hk', hck', -⟩ := find_spec board _ j k' hf
    rw [hf] at he
    simp only at he
    by_cases c1 : k' < board.length - 1 ∧ charAt board k' = charAt board (k' + 1)
    · rw [if_pos c1] at he
      cases hr : recP (shrink (board.take k' ++ board.drop (k' + 2)))
          (hand.take i ++ hand.drop (i + 1)) with
      | none => rw [hr] at he; cases he
      | some r =>
        rw [hr, Option.some_bind] at he
        rcases Nat.eq_or_lt_of_le hle with rfl | hlt
        · refine ⟨fun _ => ⟨r, hr, ?_⟩, fun h => absurd c1 h⟩
          exact le_trans (whileLoopPure_le _ _ _ _ _ _ _ _ he) (min_le_right _ _)
        · have hne : k ≠ k' + 1 := by
            rintro rfl
            rcases hstart with h0 | h0
            · omega
            · apply h0
              simp only [Nat.add_sub_cancel]
              exact hck'
          exact ih _ _ _ (by omega) he
    · rw [if_neg c1] at he
      by_cases c2 : i > 0 ∧ charAt hand i = charAt hand (i - 1)
      · rw [if_pos c2] at he
        cases hr : recP (shrink (board.take k' ++ board.drop (k' + 1)))
            (hand.take (i - 1) ++ hand.drop (i + 1)) with
        | none => rw [hr] at he; cases he
        | some r =>
          rw [hr, Option.some_bind] at he
          rcases Nat.eq_or_lt_of_le hle with rfl | hlt
          · refine ⟨fun h => absurd h c1, fun _ _ => ⟨r, hr, ?_⟩⟩
            exact le_trans (whileLoopPure_le _ _ _ _ _ _ _ _ he) (min_le_right _ _)
          · exact ih _ _ _ (by omega) he
      · rw [if_neg c2] at he
        rcases Nat.eq_or_lt_of_le hle with rfl | hlt
        · exact ⟨fun h => absurd h c1, fun _ h => absurd h c2⟩
        · exact ih _ _ _ (by omega) he

end Solution_WRONG_GREEDY_BUT_ACCEPT

namespace Solution_WRONG_GREEDY_BUT_ACCEPT

theorem value_nil_hand_greedy (board : List Char) (hb : board ≠ []) :
    value board [] = MAX_STEP := by
  unfold value findMinStepHelperPure
  simp [hb]

theorem value_le_pair (board hand : List Char) (i k : Nat) (hi : i < hand.length)
    (hk : k < board.length) (hc : charAt board k = charAt hand i)
    (hstart : k = 0 ∨ charAt board (k - 1) ≠ charAt hand i)
    (c1 : k < board.length - 1 ∧ charAt board k = charAt board (k + 1)) :
    value board hand ≤
      value (shrink (board.take k ++ board.drop (k + 2))) (hand.take i ++ hand.drop (i + 1)) +
        1 := by
  have hb : board ≠ [] := by rintro rfl; simp at hk
  have hh : hand ≠ [] := by rintro rfl; simp at hi
  refine foldlM_option_cover
    (fun res => res ≤ value (shrink (board.take k ++ board.drop (k + 2)))
      (hand.take i ++ hand.drop (i + 1)) + 1)
    (fun v w hv hw => le_trans hw hv) _ _ ?_ i (List.mem_range.mpr hi) ?_ _ _
    (value_unfold board hand hb hh)
  · intro x _ v res he
    exact whileLoopPure_le _ _ _ _ _ _ _ _ he
  · intro v res he
    obtain ⟨r, hr, hle⟩ := (whileLoopPure_cover _ board hand i k hk hc hstart _ _ _ _
      (Nat.zero_le _) he).1 c1
    cases hr
    exact hle

theorem value_le_single (board hand : List Char) (i k : Nat) (hi : i < hand.length)
    (hk : k < board.length) (hc : charAt board k = charAt hand i)
    (hstart : k = 0 ∨ charAt board (k - 1) ≠ charAt hand i)
    (c1 : ¬ (k < board.length - 1 ∧ charAt board k = charAt board (k + 1)))
    (c2 : i > 0 ∧ charAt hand i = charAt hand (i - 1)) :
    value board hand ≤
      value (shrink (board.take k ++ board.drop (k + 1)))
        (hand.take (i - 1) ++ hand.drop (i + 1)) + 2 := by
  have hb : board ≠ [] := by rintro rfl; simp at hk
  have hh : hand ≠ [] := by rintro rfl; simp at hi
  refine foldlM_option_cover
    (fun res => res ≤ value (shrink (board.take k ++ board.drop (k + 1)))
      (hand.take (i - 1) ++ hand.drop (i + 1)) + 2)
    (fun v w hv hw => le_trans hw hv) _ _ ?_ i (List.mem_range.mpr hi) ?_ _ _
    (value_unfold board hand hb hh)
  · intro x _ v res he
    exact whileLoopPure_le _ _ _ _ _ _ _ _ he
  · intro v res he
    obtain ⟨r, hr, hle⟩ := (whileLoopPure_cover _ board hand i k hk hc hstart _ _ _ _
      (Nat.zero_le _) he).2 c1 c2
    cases hr
    exact hle

theorem value_attained (board hand : List Char) (hno : ¬ HasRun3 board) (hb : board ≠ [])
    (hlt : value board hand < 6) : Attains board hand (value board hand) := by
  have hh : hand ≠ [] := by
    rintro rfl
    rw [value_nil_hand_greedy board hb] at hlt
    exact absurd hlt (by decide)
  have key := foldlM_option_inv (fun v : Int => 6 ≤ v ∨ Attains board hand v)
    _ _ ?_ _ _ (Or.inl (by simp [MAX_STEP])) (value_unfold board hand hb hh)
  · rcases key with h6 | h
    · omega
    · exact h
  · intro i hi v v' hv hloop
    have hi' : i < hand.length := List.mem_range.mp hi
    refine whileLoopPure_inv (fun v : Int => 6 ≤ v ∨ Attains board hand v)
      (NotInsideRun board (charAt hand i)) _ board hand i
      ?_ ?_ ?_ ?_ _ _ _ _ (Or.inl rfl) hv hloop
    · intro j k _ hf c1
      exact notInsideRun_pair board _ j k hno hf c1
    · intro j k _ hf c1
      exact notInsideRun_single board _ j k hf c1
    · intro j k r w hj hf c1 hr hw
      cases hr
      obtain ⟨-, hk, hck, -⟩ := find_spec board _ j k hf
      rcases min_choice w (value (shrink (board.take k ++ board.drop (k + 2)))
          (hand.take i ++ hand.drop (i + 1)) + 1) with hm | hm
      · rw [hm]; exact hw
      · rw [hm]
        exact Or.inr ⟨i, k, hi', hk, hck, run_start board _ j k hj hf, Or.inl ⟨c1, le_refl _⟩⟩
    · intro j k r w hj hf c1 c2 hr hw
      cases hr
      obtain ⟨-, hk, hck, -⟩ := find_spec board _ j k hf
      rcases min_choice w (value (shrink (board.take k ++ board.drop (k + 1)))
          (hand.take (i - 1) ++ hand.drop (i + 1)) + 2) with hm | hm
      · rw [hm]; exact hw
      · rw [hm]
        exact Or.inr ⟨i, k, hi', hk, hck, run_start board _ j k hj hf,
          Or.inr ⟨c1, c2, le_refl _⟩⟩

end Solution_WRONG_GREEDY_BUT_ACCEPT

/-! ## Runs of a board by index -/

theorem charAt_eq_getD (s : List Char) (k : Nat) : charAt s k = (s[k]?).getD (Char.ofNat 0) := by
  unfold charAt
  rw [List.getD_eq_getElem?_getD]

theorem charAt_replicate_append (n : Nat) (d : Char) (e : List Char) (k : Nat) :
    charAt (List.replicate n d ++ e) k = if k < n then d else charAt e (k - n) := by
  rw [charAt_eq_getD, charAt_eq_getD]
  by_cases h : k < n
  · rw [if_pos h, List.getElem?_append_left (by simpa using h),
      List.getElem?_replicate_of_lt h]
    rfl
  · rw [if_neg h, List.getElem?_append_right (by simpa using h)]
    simp

theorem expand_length_cons (a : Char) (m : Nat) (runs : List (Char × Nat)) :
    (expand ((a, m) :: runs)).length = m + (expand runs).length := by
  rw [expand_cons, List.length_append, List.length_replicate]

theorem expand_head (runs : List (Char × Nat)) (hg : GoodStack runs) :
    (expand runs).head? = runs.head?.map Prod.fst :=
  (flatMap_noRun3 runs hg).2

theorem expand_getLast (runs : List (Char × Nat)) (hg : GoodStack runs) :
    (expand runs).getLast? = runs.getLast?.map Prod.fst := by
  have := render_getLast runs.reverse ((goodStack_reverse runs).mpr hg)
  rw [render_eq_expand, List.reverse_reverse, List.head?_reverse] at this
  exact this

theorem runs_of_start : ∀ (runs : List (Char × Nat)) (k : Nat) (c : Char),
    GoodStack runs → k < (expand runs).length → charAt (expand runs) k = c →
    (k = 0 ∨ charAt (expand runs) (k - 1) ≠ c) →
    ∃ xs m ys, runs = xs ++ (c, m) :: ys ∧ (expand xs).length = k := by
  intro runs
  induction runs with
  | nil => intro k c _ hk; simp [expand_nil] at hk
  | cons p runs ih =>
    obtain ⟨d, n⟩ := p
    intro k c hg hk hc hstart
    obtain ⟨-, hn1, hn2, hg'⟩ := (goodStack_cons_iff _ _ _).mp hg
    rw [expand_cons, charAt_replicate_append] at hc
    by_cases hk0 : k = 0
    · subst hk0
      rw [if_pos (by omega)] at hc
      subst hc
      exact ⟨[], n, runs, rfl, rfl⟩
    · have hstart' : charAt (expand ((d, n) :: runs)) (k - 1) ≠ c := by
        rcases hstart with h | h
        · exact absurd h hk0
        · exact h
      rw [expand_cons, charAt_replicate_append] at hstart'
      have hkn : n ≤ k := by
        by_contra hlt
        rw [if_pos (by omega)] at hc
        rw [if_pos (by omega)] at hstart'
        exact hstart' hc
      rw [if_neg (by omega)] at hc
      rw [expand_length_cons] at hk
      obtain ⟨xs, m, ys, hr, hl⟩ := ih (k - n) c hg' (by omega) hc (by
        by_cases hkn' : k - n = 0
        · exact Or.inl hkn'
        · right
          rw [if_neg (by omega)] at hstart'
          have : k - 1 - n = k - n - 1 := by omega
          rw [this] at hstart'
          exact hstart')
      refine ⟨(d, n) :: xs, m, ys, by rw [hr]; rfl, ?_⟩
      rw [expand_length_cons, hl]
      omega

theorem start_of_runs (xs ys : List (Char × Nat)) (c : Char) (m : Nat)
    (hg : GoodStack (xs ++ (c, m) :: ys)) :
    (expand xs).length < (expand (xs ++ (c, m) :: ys)).length ∧
      charAt (expand (xs ++ (c, m) :: ys)) (expand xs).length = c ∧
      ((expand xs).length = 0 ∨
        charAt (expand (xs ++ (c, m) :: ys)) ((expand xs).length - 1) ≠ c) ∧
      (((expand xs).length < (expand (xs ++ (c, m) :: ys)).length - 1 ∧
          charAt (expand (xs ++ (c, m) :: ys)) (expand xs).length =
            charAt (expand (xs ++ (c, m) :: ys)) ((expand xs).length + 1)) ↔ m = 2) ∧
      (expand (xs ++ (c, m) :: ys)).take (expand xs).length = expand xs ∧
      (expand (xs ++ (c, m) :: ys)).drop ((expand xs).length + m) = expand ys := by
  obtain ⟨hgx, hgy, hjoin⟩ := (goodStack_append_iff _ _).mp hg
  obtain ⟨hytop, hm1, hm2, hgy'⟩ := (goodStack_cons_iff _ _ _).mp hgy
  have hb : expand (xs ++ (c, m) :: ys) = expand xs ++ (List.replicate m c ++ expand ys) := by
    rw [expand_append, expand_cons]
  have hlen : (expand (xs ++ (c, m) :: ys)).length =
      (expand xs).length + (m + (expand ys).length) := by
    rw [hb, List.length_append, List.length_append, List.length_replicate]
  have htake : (expand (xs ++ (c, m) :: ys)).take (expand xs).length = expand xs := by
    rw [hb, List.take_left]
  have hdrop : (expand (xs ++ (c, m) :: ys)).drop (expand xs).length =
      List.replicate m c ++ expand ys := by
    rw [hb, List.drop_left]
  have hdrop2 : (expand (xs ++ (c, m) :: ys)).drop ((expand xs).length + m) = expand ys := by
    rw [← List.drop_drop, hdrop]
    exact List.drop_left' (List.length_replicate _ _)
  have hck : charAt (expand (xs ++ (c, m) :: ys)) (expand xs).length = c := by
    obtain ⟨m', rfl⟩ : ∃ m', m = m' + 1 := ⟨m - 1, by omega⟩
    rw [List.replicate_succ, List.cons_append] at hdrop
    exact (charAt_of_drop _ _ _ _ hdrop).1
  refine ⟨by omega, hck, ?_, ?_, htake, hdrop2⟩
  · by_cases h0 : (expand xs).length = 0
    · exact Or.inl h0
    · right
      intro h
      have h1 := take_getLast (expand (xs ++ (c, m) :: ys)) (expand xs).length (by omega)
        (by omega)
      rw [htake, expand_getLast xs hgx, h] at h1
      cases hx : xs.getLast? with
      | none => rw [hx] at h1; cases h1
      | some p =>
        rw [hx] at h1
        simp only [Option.map_some', Option.some.injEq] at h1
        exact hjoin p hx (c, m) rfl h1
  · constructor
    · rintro ⟨h1, h2⟩
      by_contra hm
      have hm' : m = 1 := by omega
      subst hm'
      have h3 := drop_head (expand (xs ++ (c, 1) :: ys)) ((expand xs).length + 1) (by omega)
      rw [hdrop2, expand_head ys hgy', ← h2, hck] at h3
      exact hytop h3
    · rintro rfl
      refine ⟨by omega, ?_⟩
      rw [hck]
      have : (expand (xs ++ (c, 2) :: ys)).drop ((expand xs).length + 1) =
          c :: expand ys := by
        rw [← List.drop_drop, hdrop]
        rfl
      exact ((charAt_of_drop _ _ _ _ this).1).symm

/-! ## Sorted hands -/

theorem sorted_take_drop (h : List Char) (hs : h.Sorted (fun a b => a ≤ b)) (i : Nat)
    (hi : i < h.length) : h.take i ++ h.drop (i + 1) = h.erase (charAt h i) := by
  rw [← List.eraseIdx_eq_take_drop_succ, charAt_eq_getElem h i hi]
  exact List.eq_of_perm_of_sorted (List.erase_getElem hi).symm
    (List.Pairwise.sublist (List.eraseIdx_sublist h i) hs)
    (List.Pairwise.sublist (List.erase_sublist _ h) hs)

theorem sorted_erase (h : List Char) (hs : h.Sorted (fun a b => a ≤ b)) (c : Char) :
    (h.erase c).Sorted (fun a b => a ≤ b) :=
  List.Pairwise.sublist (List.erase_sublist _ h) hs

theorem sorted_take_drop_two (h : List Char) (hs : h.Sorted (fun a b => a ≤ b)) (i : Nat)
    (hi : i < h.length) (h0 : 0 < i) (heq : charAt h i = charAt h (i - 1)) :
    h.take (i - 1) ++ h.drop (i + 1) = (h.erase (charAt h i)).erase (charAt h i) := by
  rw [← eraseIdx_eraseIdx_pred h i hi h0]
  have h1 : h.eraseIdx i = h.erase (charAt h i) := by
    rw [List.eraseIdx_eq_take_drop_succ]
    exact sorted_take_drop h hs i hi
  have hlen : (h.eraseIdx i).length + 1 = h.length := List.length_eraseIdx_add_one hi
  have hi2 : i - 1 < (h.eraseIdx i).length := by omega
  have h2 : charAt (h.eraseIdx i) (i - 1) = charAt h i := by
    rw [charAt_eq_getElem _ _ hi2, List.getElem_eraseIdx_of_lt h i (i - 1) hi2 (by omega), heq,
      charAt_eq_getElem h (i - 1) (by omega)]
  rw [List.eraseIdx_eq_take_drop_succ (h.eraseIdx i) (i - 1)]
  have h3 := sorted_take_drop (h.eraseIdx i)
    (List.Pairwise.sublist (List.eraseIdx_sublist h i) hs) (i - 1) hi2
  rw [h3, h2, h1]

theorem exists_index_of_mem (h : List Char) (c : Char) (hc : c ∈ h) :
    ∃ i, i < h.length ∧ charAt h i = c := by
  obtain ⟨i, hi, he⟩ := List.mem_iff_getElem.mp hc
  exact ⟨i, hi, by rw [charAt_eq_getElem h i hi, he]⟩

theorem sorted_adjacent (c : Char) : ∀ (h : List Char), h.Sorted (fun a b => a ≤ b) →
    2 ≤ h.count c → ∃ i, 0 < i ∧ i < h.length ∧ charAt h i = c ∧ charAt h (i - 1) = c := by
  intro h
  induction h with
  | nil => intro _ hc; simp at hc
  | cons a t ih =>
    intro hs hc
    obtain ⟨hrel, hs'⟩ := List.sorted_cons.mp hs
    by_cases hac : a = c
    · subst hac
      rw [List.count_cons_self] at hc
      have hmem : a ∈ t := List.one_le_count_iff.mp (by omega)
      cases t with
      | nil => cases hmem
      | cons b t' =>
        have h1 : a ≤ b := hrel b (List.mem_cons_self _ _)
        have h2 : b ≤ a := by
          rcases List.mem_cons.mp hmem with rfl | hm
          · exact le_refl _
          · exact (List.sorted_cons.mp hs').1 a hm
        have hba : b = a := le_antisymm h2 h1
        exact ⟨1, by omega, by simp, by simp [charAt, hba], by simp [charAt]⟩
    · rw [List.count_cons_of_ne (Ne.symm hac)] at hc
      obtain ⟨i, h0, hi, h1, h2⟩ := ih hs' hc
      refine ⟨i + 1, by omega, by simp; omega, ?_, ?_⟩
      · simpa [charAt] using h1
      · obtain ⟨i', rfl⟩ : ∃ i', i = i' + 1 := ⟨i - 1, by omega⟩
        simpa [charAt] using h2

theorem count_ge_two_of_adjacent (h : List Char) (i : Nat) (hi : i < h.length) (h0 : 0 < i)
    (heq : charAt h i = charAt h (i - 1)) : 2 ≤ h.count (charAt h i) := by
  have hlen : (h.eraseIdx i).length + 1 = h.length := List.length_eraseIdx_add_one hi
  have hi2 : i - 1 < (h.eraseIdx i).length := by omega
  have hmem : charAt h i ∈ h.eraseIdx i := by
    have : (h.eraseIdx i)[i - 1] = charAt h i := by
      rw [List.getElem_eraseIdx_of_lt h i (i - 1) hi2 (by omega), heq,
        charAt_eq_getElem h (i - 1) (by omega)]
    rw [← this]
    exact List.getElem_mem _
  have hperm : (h.erase (charAt h i)).Perm (h.eraseIdx i) := by
    rw [charAt_eq_getElem h i hi]
    exact List.erase_getElem hi
  have h1 : 1 ≤ (h.erase (charAt h i)).count (charAt h i) := by
    rw [hperm.count_eq]
    exact List.one_le_count_iff.mpr hmem
  rw [List.count_erase_self] at h1
  omega

/-! ## The moves of the constrained search on run lists -/

theorem not_hasRun3_expand (runs : List (Char × Nat)) (hg : GoodStack runs) :
    ¬ HasRun3 (expand runs) := by
  have := render_noRun3 runs.reverse ((goodStack_reverse runs).mpr hg)
  rwa [render_eq_expand, List.reverse_reverse] at this

theorem goodStack_split (xs ys : List (Char × Nat)) (c : Char) (m : Nat)
    (hg : GoodStack (xs ++ (c, m) :: ys)) :
    GoodStack xs.reverse ∧ GoodStack ys ∧ 1 ≤ m ∧ m ≤ 2 := by
  obtain ⟨hgx, hgy, -⟩ := (goodStack_append_iff _ _).mp hg
  obtain ⟨-, hm1, hm2, hgy'⟩ := (goodStack_cons_iff _ _ _).mp hgy
  exact ⟨(goodStack_reverse xs).mpr hgx, hgy', hm1, hm2⟩

theorem shrink_remove_run (xs ys : List (Char × Nat)) (c : Char) (m : Nat)
    (hg : GoodStack (xs ++ (c, m) :: ys)) :
    Solution_WRONG_GREEDY_BUT_ACCEPT.shrink
        ((expand (xs ++ (c, m) :: ys)).take (expand xs).length ++
          (expand (xs ++ (c, m) :: ys)).drop ((expand xs).length + m)) =
      expand (zipRuns xs.reverse ys) := by
  obtain ⟨-, -, -, -, htake, hdrop⟩ := start_of_runs xs ys c m hg
  obtain ⟨hgx, hgy, -, -⟩ := goodStack_split xs ys c m hg
  rw [htake, hdrop, shrink_greedy_eq]
  have := shrink_zip xs.reverse ys hgx hgy
  rwa [List.reverse_reverse] at this

namespace Solution_WRONG_GREEDY_BUT_ACCEPT

theorem value_le_pair_runs (xs ys : List (Char × Nat)) (c : Char) (h : List Char)
    (hs : h.Sorted (fun a b => a ≤ b)) (hc : c ∈ h) (hg : GoodStack (xs ++ (c, 2) :: ys)) :
    value (expand (xs ++ (c, 2) :: ys)) h ≤
      value (expand (zipRuns xs.reverse ys)) (h.erase c) + 1 := by
  obtain ⟨i, hi, hci⟩ := exists_index_of_mem h c hc
  obtain ⟨hk, hck, hstart, hc1, -, -⟩ := start_of_runs xs ys c 2 hg
  have := value_le_pair (expand (xs ++ (c, 2) :: ys)) h i (expand xs).length hi hk
    (by rw [hck, hci]) (by rw [hci]; exact hstart) (hc1.mpr rfl)
  rw [shrink_remove_run xs ys c 2 hg, sorted_take_drop h hs i hi, hci] at this
  exact this

theorem value_le_single_runs (xs ys : List (Char × Nat)) (c : Char) (h : List Char)
    (hs : h.Sorted (fun a b => a ≤ b)) (hc : 2 ≤ h.count c)
    (hg : GoodStack (xs ++ (c, 1) :: ys)) :
    value (expand (xs ++ (c, 1) :: ys)) h ≤
      value (expand (zipRuns xs.reverse ys)) ((h.erase c).erase c) + 2 := by
  obtain ⟨i, h0, hi, hci, hci'⟩ := sorted_adjacent c h hs hc
  obtain ⟨hk, hck, hstart, hc1, -, -⟩ := start_of_runs xs ys c 1 hg
  have := value_le_single (expand (xs ++ (c, 1) :: ys)) h i (expand xs).length hi hk
    (by rw [hck, hci]) (by rw [hci]; exact hstart)
    (fun hcon => absurd (hc1.mp hcon) (by decide)) ⟨h0, by rw [hci, hci']⟩
  rw [shrink_remove_run xs ys c 1 hg, sorted_take_drop_two h hs i hi h0 (by rw [hci, hci']),
    hci] at this
  exact this

theorem value_attained_runs (runs : List (Char × Nat)) (h : List Char)
    (hs : h.Sorted (fun a b => a ≤ b)) (hg : GoodStack runs) (hne : runs ≠ [])
    (hlt : value (expand runs) h < 6) :
    ∃ c xs ys,
      (runs = xs ++ (c, 2) :: ys ∧ c ∈ h ∧
          value (expand (zipRuns xs.reverse ys)) (h.erase c) + 1 ≤ value (expand runs) h) ∨
        (runs = xs ++ (c, 1) :: ys ∧ 2 ≤ h.count c ∧
          value (expand (zipRuns xs.reverse ys)) ((h.erase c).erase c) + 2 ≤
            value (expand runs) h) := by
  have hb : expand runs ≠ [] := by
    cases runs with
    | nil => exact absurd rfl hne
    | cons p rest =>
      obtain ⟨a, m⟩ := p
      obtain ⟨-, hm1, -, -⟩ := (goodStack_cons_iff _ _ _).mp hg
      obtain ⟨m', rfl⟩ : ∃ m', m = m' + 1 := ⟨m - 1, by omega⟩
      rw [expand_cons, List.replicate_succ]
      simp
  obtain ⟨i, k, hi, hk, hck, hstart, hbr⟩ :=
    value_attained (expand runs) h (not_hasRun3_expand runs hg) hb hlt
  obtain ⟨xs, m, ys, hr, hl⟩ := runs_of_start runs k (charAt h i) hg hk hck hstart
  subst hr
  subst hl
  obtain ⟨-, -, -, hc1, -, -⟩ := start_of_runs xs ys (charAt h i) m hg
  obtain ⟨-, -, hm1, hm2⟩ := goodStack_split xs ys _ m hg
  have hmem : charAt h i ∈ h := by
    rw [charAt_eq_getElem h i hi]
    exact List.getElem_mem _
  refine ⟨charAt h i, xs, ys, ?_⟩
  rcases hbr with ⟨c1, hle⟩ | ⟨c1, c2, hle⟩
  · have hm : m = 2 := hc1.mp c1
    subst hm
    left
    rw [shrink_remove_run xs ys _ 2 hg, sorted_take_drop h hs i hi] at hle
    exact ⟨rfl, hmem, hle⟩
  · have hm : m = 1 := by
      by_contra hne'
      exact c1 (hc1.mpr (by omega))
    subst hm
    right
    rw [shrink_remove_run xs ys _ 1 hg, sorted_take_drop_two h hs i hi c2.1 c2.2] at hle
    exact ⟨rfl, count_ge_two_of_adjacent h i hi c2.1 c2.2, hle⟩

end Solution_WRONG_GREEDY_BUT_ACCEPT

/-! ## Hands with some balls removed -/

theorem removeBalls_length (d : Char) : ∀ (t : Nat) (h : List Char), t ≤ h.count d →
    (removeBalls d t h).length + t = h.length := by
  intro t
  induction t with
  | zero => intro h _; rfl
  | succ t ih =>
    intro h ht
    have hmem : d ∈ h := List.one_le_count_iff.mp (by omega)
    have h1 := ih (h.erase d) (by rw [List.count_erase_self]; omega)
    have h2 := List.length_erase_of_mem hmem
    have h3 : 0 < h.length := List.length_pos_of_mem hmem
    simp only [removeBalls]
    omega

theorem removeBalls_sorted (d : Char) : ∀ (t : Nat) (h : List Char),
    h.Sorted (fun a b => a ≤ b) → (removeBalls d t h).Sorted (fun a b => a ≤ b) := by
  intro t
  induction t with
  | zero => intro h hs; exact hs
  | succ t ih => intro h hs; exact ih _ (sorted_erase h hs d)

theorem removeBalls_count_self (d : Char) : ∀ (t : Nat) (h : List Char),
    (removeBalls d t h).count d = h.count d - t := by
  intro t
  induction t with
  | zero => intro h; rfl
  | succ t ih =>
    intro h
    simp only [removeBalls]
    rw [ih, List.count_erase_self]
    omega

theorem removeBalls_count_of_ne (c d : Char) (hcd : c ≠ d) : ∀ (t : Nat) (h : List Char),
    (removeBalls d t h).count c = h.count c := by
  intro t
  induction t with
  | zero => intro h; rfl
  | succ t ih =>
    intro h
    simp only [removeBalls]
    rw [ih, List.count_erase_of_ne hcd]

theorem removeBalls_erase (c d : Char) : ∀ (t : Nat) (h : List Char),
    (removeBalls d t h).erase c = removeBalls d t (h.erase c) := by
  intro t
  induction t with
  | zero => intro h; rfl
  | succ t ih =>
    intro h
    simp only [removeBalls]
    rw [ih, List.erase_comm]

theorem removeBalls_mem (c d : Char) (t : Nat) (h : List Char) (hc : c ∈ h)
    (ht : t ≤ (h.erase c).count d) : c ∈ removeBalls d t h := by
  apply List.one_le_count_iff.mp
  by_cases hcd : c = d
  · subst hcd
    rw [removeBalls_count_self]
    rw [List.count_erase_self] at ht
    have := List.one_le_count_iff.mpr hc
    omega
  · rw [removeBalls_count_of_ne c d hcd]
    exact List.one_le_count_iff.mpr hc

namespace Solution_WRONG_GREEDY_BUT_ACCEPT

theorem value_le_move (xs ys : List (Char × Nat)) (d : Char) (m : Nat) (h : List Char)
    (hs : h.Sorted (fun a b => a ≤ b)) (hg : GoodStack (xs ++ (d, m) :: ys))
    (hcnt : 3 - m ≤ h.count d) :
    value (expand (xs ++ (d, m) :: ys)) h ≤
      value (expand (zipRuns xs.reverse ys)) (removeBalls d (3 - m) h) + ((3 - m : Nat) : Int) := by
  obtain ⟨-, -, hm1, hm2⟩ := goodStack_split xs ys d m hg
  obtain rfl | rfl : m = 1 ∨ m = 2 := by omega
  · exact value_le_single_runs xs ys d h hs hcnt hg
  · exact value_le_pair_runs xs ys d h hs (List.one_le_count_iff.mp hcnt) hg

theorem value_attained_move (runs : List (Char × Nat)) (h : List Char)
    (hs : h.Sorted (fun a b => a ≤ b)) (hg : GoodStack runs) (hne : runs ≠ [])
    (hlt : value (expand runs) h < 6) :
    ∃ d m xs ys, runs = xs ++ (d, m) :: ys ∧ 1 ≤ m ∧ m ≤ 2 ∧ 3 - m ≤ h.count d ∧
      value (expand (zipRuns xs.reverse ys)) (removeBalls d (3 - m) h) + ((3 - m : Nat) : Int) ≤
        value (expand runs) h := by
  obtain ⟨c, xs, ys, h1 | h1⟩ := value_attained_runs runs h hs hg hne hlt
  · obtain ⟨hr, hc, hle⟩ := h1
    exact ⟨c, 2, xs, ys, hr, by omega, by omega, List.one_le_count_iff.mpr hc, hle⟩
  · obtain ⟨hr, hc, hle⟩ := h1
    exact ⟨c, 1, xs, ys, hr, by omega, by omega, hc, hle⟩

theorem value_mono_hand : ∀ (n : Nat) (h : List Char) (runs : List (Char × Nat)) (c : Char),
    h.length ≤ n → h.Sorted (fun a b => a ≤ b) → GoodStack runs → c ∈ h →
    value (expand runs) h ≤ value (expand runs) (h.erase c) := by
  intro n
  induction n with
  | zero =>
    intro h runs c hn _ _ hc
    have : h = [] := List.length_eq_zero.mp (by omega)
    subst this
    cases hc
  | succ n ih =>
    intro h runs c hn hs hg hc
    by_cases hne : runs = []
    · subst hne
      rw [expand_nil, value_nil_board_greedy, value_nil_board_greedy]
    by_cases hlt : value (expand runs) (h.erase c) < 6
    · obtain ⟨d, m, xs, ys, hr, hm1, hm2, hcnt, hle⟩ :=
        value_attained_move runs (h.erase c) (sorted_erase h hs c) hg hne hlt
      subst hr
      have hcnt' : 3 - m ≤ h.count d :=
        le_trans hcnt (List.Sublist.count_le (List.erase_sublist c h) d)
      have h1 := value_le_move xs ys d m h hs hg hcnt'
      obtain ⟨hgx, hgy, -, -⟩ := goodStack_split xs ys d m hg
      have hlen := removeBalls_length d (3 - m) h hcnt'
      have h2 := ih (removeBalls d (3 - m) h) (zipRuns xs.reverse ys) c (by omega)
        (removeBalls_sorted d _ h hs) (zipRuns_good _ _ hgx hgy)
        (removeBalls_mem c d _ h hc hcnt)
      rw [removeBalls_erase] at h2
      omega
    · have := (value_bounds (expand runs) h).2
      omega

end Solution_WRONG_GREEDY_BUT_ACCEPT

theorem append_cons_eq_cases {α : Type} : ∀ (xs xs' ys ys' : List α) (a b : α),
    xs ++ a :: ys = xs' ++ b :: ys' →
    (xs = xs' ∧ a = b ∧ ys = ys') ∨
      (∃ mid, xs' = xs ++ a :: mid ∧ ys = mid ++ b :: ys') ∨
      (∃ mid, xs = xs' ++ b :: mid ∧ ys' = mid ++ a :: ys) := by
  intro xs
  induction xs with
  | nil =>
    intro xs' ys ys' a b h
    cases xs' with
    | nil =>
      simp only [List.nil_append, List.cons.injEq] at h
      exact Or.inl ⟨rfl, h.1, h.2⟩
    | cons x xs' =>
      simp only [List.nil_append, List.cons_append, List.cons.injEq] at h
      right; left
      exact ⟨xs', by rw [h.1]; rfl, h.2⟩
  | cons x xs ih =>
    intro xs' ys ys' a b h
    cases xs' with
    | nil =>
      simp only [List.nil_append, List.cons_append, List.cons.injEq] at h
      right; right
      exact ⟨xs, by rw [h.1]; rfl, h.2.symm⟩
    | cons x' xs' =>
      simp only [List.cons_append, List.cons.injEq] at h
      obtain ⟨rfl, h⟩ := h
      rcases ih xs' ys ys' a b h with ⟨h1, h2, h3⟩ | ⟨mid, h1, h2⟩ | ⟨mid, h1, h2⟩
      · exact Or.inl ⟨by rw [h1], h2, h3⟩
      · exact Or.inr (Or.inl ⟨mid, by rw [h1]; rfl, h2⟩)
      · exact Or.inr (Or.inr ⟨mid, by rw [h1]; rfl, h2⟩)

theorem goodStack_double (xs ys : List (Char × Nat)) (c : Char)
    (hg : GoodStack (xs ++ (c, 1) :: ys)) : GoodStack (xs ++ (c, 2) :: ys) := by
  obtain ⟨hgx, hgy, hjoin⟩ := (goodStack_append_iff _ _).mp hg
  obtain ⟨htop, -, -, hgy'⟩ := (goodStack_cons_iff _ _ _).mp hgy
  refine (goodStack_append_iff _ _).mpr ⟨hgx,
    (goodStack_cons_iff _ _ _).mpr ⟨htop, by omega, by omega, hgy'⟩, ?_⟩
  intro p hp q hq
  simp only [List.head?_cons, Option.mem_def, Option.some.injEq] at hq
  subst hq
  exact hjoin p hp (c, 1) rfl

namespace Solution_WRONG_GREEDY_BUT_ACCEPT

theorem value_le_double : ∀ (n : Nat) (h : List Char) (xs ys : List (Char × Nat)) (c : Char),
    h.length ≤ n → h.Sorted (fun a b => a ≤ b) → c ∈ h → GoodStack (xs ++ (c, 1) :: ys) →
    value (expand (xs ++ (c, 1) :: ys)) h ≤
      value (expand (xs ++ (c, 2) :: ys)) (h.erase c) + 1 := by
  intro n
  induction n with
  | zero =>
    intro h xs ys c hn _ hc _
    have : h = [] := List.length_eq_zero.mp (by omega)
    subst this
    cases hc
  | succ n ih =>
    intro h xs ys c hn hs hc hg
    have hg1 := goodStack_double xs ys c hg
    by_cases hlt : value (expand (xs ++ (c, 2) :: ys)) (h.erase c) < 6
    swap
    · have := (value_bounds (expand (xs ++ (c, 1) :: ys)) h).2
      omega
    obtain ⟨d, m, xs', ys', hr, hm1, hm2, hcnt, hle⟩ :=
      value_attained_move _ (h.erase c) (sorted_erase h hs c) hg1 (by simp) hlt
    have hcnt' : 3 - m ≤ h.count d :=
      le_trans hcnt (List.Sublist.count_le (List.erase_sublist c h) d)
    have hlen := removeBalls_length d (3 - m) h hcnt'
    have hmem : c ∈ removeBalls d (3 - m) h := removeBalls_mem c d _ h hc hcnt
    have hsort := removeBalls_sorted d (3 - m) h hs
    have diamond : ∀ z z1 : List (Char × Nat), GoodStack z →
        ((∃ p q, z = p ++ (c, 1) :: q ∧ z1 = p ++ (c, 2) :: q) ∨
          (∃ p q, z = p ++ (c, 2) :: q ∧ z1 = zipRuns p.reverse q) ∨ z1 = z) →
        value (expand z) (removeBalls d (3 - m) h) ≤
          value (expand z1) (removeBalls d (3 - m) (h.erase c)) + 1 := by
      intro z z1 hz htri
      rw [← removeBalls_erase]
      rcases htri with ⟨p, q, rfl, rfl⟩ | ⟨p, q, rfl, rfl⟩ | rfl
      · exact ih _ p q c (by omega) hsort hmem hz
      · exact value_le_pair_runs p q c _ hsort hmem hz
      · have := value_mono_hand (n + 1) _ z1 c (by omega) hsort hz hmem
        omega
    rcases append_cons_eq_cases _ _ _ _ _ _ hr with ⟨h1, h2, h3⟩ | ⟨mid, h1, h2⟩ | ⟨mid, h1, h2⟩
    · subst h1 h3
      rw [Prod.mk.injEq] at h2
      obtain ⟨rfl, rfl⟩ := h2
      have h2c : 2 ≤ h.count c := by
        rw [List.count_erase_self] at hcnt
        omega
      have := value_le_single_runs xs ys c h hs h2c hg
      simp only [removeBalls] at hle
      push_cast at hle
      omega
    · subst h1 h2
      have hgG : GoodStack ((xs ++ (c, 1) :: mid) ++ (d, m) :: ys') := by
        simpa [List.append_assoc] using hg
      have h1 := value_le_move (xs ++ (c, 1) :: mid) ys' d m h hs hgG hcnt'
      have e1 : (xs ++ (c, 1) :: mid).reverse = mid.reverse ++ (c, 1) :: xs.reverse := by simp
      have e2 : (xs ++ (c, 2) :: mid).reverse = mid.reverse ++ (c, 2) :: xs.reverse := by simp
      obtain ⟨hgl, hgr, -, -⟩ := goodStack_split (xs ++ (c, 1) :: mid) ys' d m hgG
      rw [e1] at h1 hgl
      rw [e2] at hle
      have h2 := diamond _ _ (zipRuns_good _ _ hgl hgr)
        (zipRuns_double_left c xs.reverse mid.reverse ys' hgl hgr)
      have e3 : expand (xs ++ (c, 1) :: (mid ++ (d, m) :: ys')) =
          expand ((xs ++ (c, 1) :: mid) ++ (d, m) :: ys') := by simp [List.append_assoc]
      rw [e3]
      omega
    · subst h1 h2
      have hgG : GoodStack (xs' ++ (d, m) :: (mid ++ (c, 1) :: ys)) := by
        simpa [List.append_assoc] using hg
      have h1 := value_le_move xs' (mid ++ (c, 1) :: ys) d m h hs hgG hcnt'
      obtain ⟨hgl, hgr, -, -⟩ := goodStack_split xs' (mid ++ (c, 1) :: ys) d m hgG
      have h2 := diamond _ _ (zipRuns_good _ _ hgl hgr)
        (zipRuns_double_right c ys mid xs'.reverse hgl hgr)
      have e3 : expand ((xs' ++ (d, m) :: mid) ++ (c, 1) :: ys) =
          expand (xs' ++ (d, m) :: (mid ++ (c, 1) :: ys)) := by simp [List.append_assoc]
      rw [e3]
      omega

end Solution_WRONG_GREEDY_BUT_ACCEPT

/-! ## Insertions beside a ball of the same symbol -/

theorem exists_runs (board : List Char) (hno : ¬ HasRun3 board) :
    ∃ runs, GoodStack runs ∧ expand runs = board := by
  obtain ⟨stack, hg, he, -⟩ := shrink_eq_render board
  rw [shrink_of_noRun3 board hno] at he
  exact ⟨stack.reverse, (goodStack_reverse stack).mpr hg, by rw [he, render_eq_expand]⟩

theorem insert_adjacent_runs : ∀ (runs : List (Char × Nat)) (j : Nat) (c : Char),
    GoodStack runs → j ≤ (expand runs).length →
    ((0 < j ∧ charAt (expand runs) (j - 1) = c) ∨
      (j < (expand runs).length ∧ charAt (expand runs) j = c)) →
    ∃ xs m ys, runs = xs ++ (c, m) :: ys ∧
      (expand runs).take j ++ c :: (expand runs).drop j =
        expand xs ++ (List.replicate (m + 1) c ++ expand ys) := by
  intro runs
  induction runs with
  | nil =>
    intro j c _ hj hadj
    simp only [expand_nil, List.length_nil] at hj hadj
    omega
  | cons p runs ih =>
    obtain ⟨d, n⟩ := p
    intro j c hg hj hadj
    obtain ⟨-, hn1, hn2, hg'⟩ := (goodStack_cons_iff _ _ _).mp hg
    rw [expand_length_cons] at hj hadj
    rw [expand_cons] at hadj ⊢
    rw [charAt_replicate_append, charAt_replicate_append] at hadj
    by_cases hfirst : d = c ∧ j ≤ n
    · obtain ⟨rfl, hjn⟩ := hfirst
      refine ⟨[], n, runs, rfl, ?_⟩
      rw [List.take_append_of_le_length (by simpa using hjn),
        List.drop_append_of_le_length (by simpa using hjn), List.take_replicate,
        List.drop_replicate, Nat.min_eq_left hjn, expand_nil, List.nil_append]
      have e : n + 1 = j + (1 + (n - j)) := by omega
      rw [e, List.replicate_add, List.replicate_add]
      simp [List.replicate, List.append_assoc]
    · have hjn : n ≤ j := by
        by_contra hlt
        have hdc : d ≠ c := fun h => hfirst ⟨h, by omega⟩
        rcases hadj with ⟨h0, h1⟩ | ⟨h0, h1⟩
        · rw [if_pos (by omega)] at h1
          exact hdc h1
        · rw [if_pos (by omega)] at h1
          exact hdc h1
      have hadj' : (0 < j - n ∧ charAt (expand runs) (j - n - 1) = c) ∨
          (j - n < (expand runs).length ∧ charAt (expand runs) (j - n) = c) := by
        rcases hadj with ⟨h0, h1⟩ | ⟨h0, h1⟩
        · by_cases hlt : j - 1 < n
          · rw [if_pos hlt] at h1
            exact absurd ⟨h1, by omega⟩ hfirst
          · rw [if_neg hlt] at h1
            left
            have : j - 1 - n = j - n - 1 := by omega
            rw [this] at h1
            exact ⟨by omega, h1⟩
        · rw [if_neg (by omega)] at h1
          exact Or.inr ⟨by omega, h1⟩
      obtain ⟨xs, m, ys, hr, he⟩ := ih (j - n) c hg' (by omega) hadj'
      refine ⟨(d, n) :: xs, m, ys, by rw [hr]; rfl, ?_⟩
      have e1 : (List.replicate n d ++ expand runs).take j =
          List.replicate n d ++ (expand runs).take (j - n) := by
        rw [List.take_append_eq_append_take, List.take_of_length_le (by simpa using hjn)]
        simp
      have e2 : (List.replicate n d ++ expand runs).drop j = (expand runs).drop (j - n) := by
        rw [List.drop_append_eq_append_drop, List.drop_eq_nil_of_le (by simpa using hjn)]
        simp
      rw [e1, e2, List.append_assoc, he, expand_cons, List.append_assoc]

theorem shrink_insert_adjacent (xs ys : List (Char × Nat)) (c : Char) (m : Nat)
    (hg : GoodStack (xs ++ (c, m) :: ys)) :
    Solution_TLE_BUT_CORRECT.shrink (expand xs ++ (List.replicate (m + 1) c ++ expand ys)) =
      if m = 1 then expand (xs ++ (c, 2) :: ys) else expand (zipRuns xs.reverse ys) := by
  obtain ⟨hgx, hgy, hm1, hm2⟩ := goodStack_split xs ys c m hg
  obtain rfl | rfl : m = 1 ∨ m = 2 := by omega
  · rw [if_pos rfl]
    have := shrink_expand _ (goodStack_double xs ys c hg)
    have e : expand (xs ++ (c, 2) :: ys) = expand xs ++ (List.replicate (1 + 1) c ++ expand ys) := by
      rw [expand_append, expand_cons]
    rw [e] at this ⊢
    exact this
  · rw [if_neg (by decide)]
    have hno : ¬ HasRun3 (expand xs ++ c :: c :: expand ys) := by
      have := not_hasRun3_expand _ hg
      rw [expand_append, expand_cons] at this
      exact this
    have h1 := shrink_skip_triple (expand xs) (expand ys) c hno
    have h2 := shrink_zip xs.reverse ys hgx hgy
    rw [List.reverse_reverse] at h2
    rw [← h2, ← h1]
    rfl

theorem sort_eraseIdx (h : List Char) (i : Nat) (hi : i < h.length) :
    Solution_WRONG_GREEDY_BUT_ACCEPT.sort (h.eraseIdx i) =
      (Solution_WRONG_GREEDY_BUT_ACCEPT.sort h).erase h[i] := by
  unfold Solution_WRONG_GREEDY_BUT_ACCEPT.sort
  apply List.eq_of_perm_of_sorted (r := fun a b : Char => a ≤ b)
  · exact (List.perm_insertionSort _ _).trans ((List.erase_getElem hi).symm.trans
      ((List.perm_insertionSort _ h).symm.erase _))
  · exact List.sorted_insertionSort _ _
  · exact sorted_erase _ (List.sorted_insertionSort _ _) _

namespace Solution_TLE_BUT_CORRECT

theorem adjClears_zero_iff (board hand : List Char) : AdjClears 0 board hand ↔ board = [] := by
  simp [AdjClears]

theorem adjClears_succ_iff (k : Nat) (board hand : List Char) :
    AdjClears (k + 1) board hand ↔
      ∃ (i : Fin hand.length) (j : Nat), j ≤ board.length ∧
        ((0 < j ∧ charAt board (j - 1) = hand.get i) ∨
          (j < board.length ∧ charAt board j = hand.get i)) ∧
        AdjClears k (shrink (board.take j ++ hand.get i :: board.drop j))
          (hand.eraseIdx i) := by
  simp [AdjClears]

theorem adjClears_clears : ∀ (k : Nat) (board hand : List Char),
    AdjClears k board hand → Clears k board hand := by
  intro k
  induction k with
  | zero => intro board hand h; exact (clears_zero_iff _ _).mpr ((adjClears_zero_iff _ _).mp h)
  | succ k ih =>
    intro board hand h
    obtain ⟨i, j, hj, -, hrec⟩ := (adjClears_succ_iff _ _ _).mp h
    exact (clears_succ_iff _ _ _).mpr ⟨i, j, hj, ih _ _ hrec⟩

end Solution_TLE_BUT_CORRECT

namespace Solution_WRONG_GREEDY_BUT_ACCEPT

theorem value_le_adjClears : ∀ (n : Nat) (board hand : List Char), ¬ HasRun3 board →
    Solution_TLE_BUT_CORRECT.AdjClears n board hand → value board (sort hand) ≤ n := by
  intro n
  induction n with
  | zero =>
    intro board hand _ h
    rw [(Solution_TLE_BUT_CORRECT.adjClears_zero_iff _ _).mp h, value_nil_board_greedy]
    rfl
  | succ n ih =>
    intro board hand hno h
    obtain ⟨i, j, hj, hadj, hrec⟩ := (Solution_TLE_BUT_CORRECT.adjClears_succ_iff _ _ _).mp h
    obtain ⟨runs, hg, rfl⟩ := exists_runs board hno
    obtain ⟨xs, m, ys, hr, hins⟩ := insert_adjacent_runs runs j (hand.get i) hg hj hadj
    subst hr
    have hrec' := ih _ _ (not_hasRun3_shrink _) hrec
    rw [hins, shrink_insert_adjacent xs ys _ m hg, sort_eraseIdx hand i i.isLt] at hrec'
    have hsorted : (sort hand).Sorted (fun a b => a ≤ b) := List.sorted_insertionSort _ _
    have hmem : hand.get i ∈ sort hand :=
      (List.perm_insertionSort _ hand).symm.subset (List.get_mem hand i.1 i.2)
    obtain ⟨-, -, hm1, hm2⟩ := goodStack_split xs ys _ m hg
    have hget : hand[(i : Nat)] = hand.get i := rfl
    rw [hget] at hrec'
    obtain rfl | rfl : m = 1 ∨ m = 2 := by omega
    · rw [if_pos rfl] at hrec'
      have := value_le_double _ (sort hand) xs ys (hand.get i) (le_refl _) hsorted hmem hg
      push_cast
      omega
    · rw [if_neg (by decide)] at hrec'
      have := value_le_pair_runs xs ys (hand.get i) (sort hand) hsorted hmem hg
      push_cast
      omega

end Solution_WRONG_GREEDY_BUT_ACCEPT

/-- C13: on a board with no run of three and a hand of at most 5 balls, when a
clearing sequence of least length `k` exists in which every ball is put right
beside a ball of its own symbol in the board as it is at that move, the
constrained `findMinStep` returns the same result as the exhaustive one, which
is `k`. -/
theorem variants_agree_on_adjacent (board hand : List Char) (k : Nat)
    (hno : ∀ c, ¬ (List.replicate 3 c <:+: board)) (hlen : hand.length ≤ 5)
    (hadj : Solution_TLE_BUT_CORRECT.AdjClears k board hand)
    (hmin : ∀ k', Solution_TLE_BUT_CORRECT.Clears k' board hand → k ≤ k') :
    Solution_WRONG_GREEDY_BUT_ACCEPT.findMinStep board hand =
        Solution_TLE_BUT_CORRECT.findMinStep board hand ∧
      Solution_TLE_BUT_CORRECT.findMinStep board hand = some (k : Int) := by
  have hno' : ¬ HasRun3 board := fun ⟨c, hc⟩ => hno c hc
  have hclear := Solution_TLE_BUT_CORRECT.adjClears_clears k board hand hadj
  have hkl := Solution_TLE_BUT_CORRECT.clears_le_length k board hand hclear
  have hA : Solution_TLE_BUT_CORRECT.findMinStep board hand = some (k : Int) := by
    rcases Solution_TLE_BUT_CORRECT.findMinStep_cases board hand hlen with
      ⟨k0, hk0, hmin0, hres⟩ | ⟨hnone, -⟩
    · have : k0 = k := le_antisymm (hmin0 k hclear) (hmin k0 hk0)
      rw [hres, this]
    · exact absurd hclear (hnone k)
  refine ⟨?_, hA⟩
  rw [hA]
  obtain ⟨r, hr, hfm⟩ := Solution_WRONG_GREEDY_BUT_ACCEPT.findMinStep_eq_pure board hand
  have hval : r = Solution_WRONG_GREEDY_BUT_ACCEPT.value board
      (Solution_WRONG_GREEDY_BUT_ACCEPT.sort hand) := by
    rw [Solution_WRONG_GREEDY_BUT_ACCEPT.pure_eq_value_greedy _ _ _ (le_refl _)] at hr
    exact (Option.some.inj hr).symm
  have hle : r ≤ k := by
    rw [hval]
    exact Solution_WRONG_GREEDY_BUT_ACCEPT.value_le_adjClears k board hand hno' hadj
  obtain ⟨h0, hcl⟩ := Solution_WRONG_GREEDY_BUT_ACCEPT.pure_sound _ board _ r (le_refl _) hno' hr
  obtain ⟨n, hn, hc⟩ := hcl (by omega)
  have hc' := Solution_TLE_BUT_CORRECT.clears_perm n board _ hand
    (List.perm_insertionSort _ hand) hc
  have hkn := hmin n hc'
  have hrk : r = k := by omega
  rw [hfm, hrk, if_neg (by omega)]

theorem variants_agree_on_adjacent_witness :
    Solution_WRONG_GREEDY_BUT_ACCEPT.findMinStep ['R', 'R'] ['G', 'R'] =
        Solution_TLE_BUT_CORRECT.findMinStep ['R', 'R'] ['G', 'R'] ∧
      Solution_TLE_BUT_CORRECT.findMinStep ['R', 'R'] ['G', 'R'] = some ((1 : Nat) : Int) :=
  variants_agree_on_adjacent ['R', 'R'] ['G', 'R'] 1
    (fun c => noRun3_of_shrink_eq _ (by decide) c) (by decide)
    ((Solution_TLE_BUT_CORRECT.adjClears_succ_iff 0 _ _).mpr
      ⟨⟨1, by decide⟩, 1, by decide, Or.inl ⟨by decide, by decide⟩,
        (Solution_TLE_BUT_CORRECT.adjClears_zero_iff _ _).mpr (by decide)⟩)
    (fun k' hk' => by
      cases k' with
      | zero => exact absurd ((Solution_TLE_BUT_CORRECT.clears_zero_iff _ _).mp hk') (by decide)
      | succ k' => omega)
